import Mathlib

/-!
Verification of the task/scheduler/memory subsystem of the Phoenix kernel.

Shallow embedding of:
  * src/kernel/kernel/sched.c   (per-core scheduler: pick_next_task, schedule,
    yield, task_block, task_wakeup, enqueue_task)
  * src/kernel/kernel/signal.c  (deliver_signals, handle_exception)
  * src/kernel/task.c           (task_create, fork)
  * src/kernel/kernel/mmu.c     (mmu_walk_pte, mmu_map, mmu_duplicate_pagetable)
  * src/kernel/malloc.c         (kmalloc, kfree, kcalloc, heap_stats)

Machine integers are modelled as Nat with explicit bit operations where the
C code manipulates bits; pointer-linked structures are modelled as lists
indexed by stable identifiers (task indices, block offsets).
-/

namespace Phoenix

/-! ## Scheduler model (src/kernel/kernel/sched.c)

A task_t's scheduler-relevant fields.  Tasks are identified by their index
in a task table (the C code identifies them by pointer).  The intrusive
next/prev links of the ready queue are modelled by the list `runqueue`
holding task ids in head-to-tail order; `dequeue_task` exists in the source
but is never called by any scheduler entry point, so queue membership is
never revoked by the operations below, exactly as in the C code. -/

inductive TState where
  | RUNNING
  | READY
  | BLOCKED
  | ZOMBIE
deriving DecidableEq

structure TaskRec where
  priority : Int
  tstate : TState
  cpu_affinity : Nat
deriving DecidableEq

/-- Per-core scheduler state (cpu_sched_t) together with the task table.
`current` is the core's current task (NULL modelled as none); `idleTask`
is the idle task created by sched_init_cpu; `runqueue` is the doubly
linked ready queue, head first. -/
structure SState where
  tasks : List TaskRec
  runqueue : List Nat
  current : Option Nat
  idleTask : Nat
  scheduleCount : Nat
deriving DecidableEq

def stateAt (s : SState) (tid : Nat) : Option TState :=
  (s.tasks[tid]?).map TaskRec.tstate

/-- Write the state field of task `tid` (task->state = st). -/
def setTState (s : SState) (tid : Nat) (st : TState) : SState :=
  { s with tasks :=
      match s.tasks[tid]? with
      | some tr => s.tasks.set tid { tr with tstate := st }
      | none => s.tasks }

/-- The scan loop of pick_next_task: walk the runqueue head to tail keeping
the first READY task of strictly greatest priority seen so far
(best_priority starts at -1; the comparison is strict, so among equal
priorities the earliest queue position wins). -/
def pickLoop (s : SState) : List Nat → Option Nat → Int → Option Nat
  | [], best, _ => best
  | tid :: rest, best, bestPrio =>
    match s.tasks[tid]? with
    | some tr =>
      if tr.tstate = TState.READY ∧ bestPrio < tr.priority then
        pickLoop s rest (some tid) tr.priority
      else
        pickLoop s rest best bestPrio
    | none => pickLoop s rest best bestPrio

/-- pick_next_task: `return best ? best : sched->idle_task;`.  (The idle
task exists in every state we consider: sched_init_cpu creates it at boot.) -/
def pick_next_task (s : SState) : Nat :=
  match pickLoop s s.runqueue none (-1) with
  | some t => t
  | none => s.idleTask

/-- schedule(): compute prev and next, demote a still-RUNNING prev to READY,
mark next RUNNING and publish it as current, bump schedule_count.  The
context switch itself moves no scheduler state. -/
def schedule (s : SState) : SState :=
  let prev := s.current
  let next := pick_next_task s
  let s1 :=
    match prev with
    | some p => if stateAt s p = some TState.RUNNING then setTState s p TState.READY else s
    | none => s
  let s2 := { setTState s1 next TState.RUNNING with current := some next }
  { s2 with scheduleCount := s2.scheduleCount + 1 }

/-- yield() is schedule() called voluntarily. -/
def yield (s : SState) : SState := schedule s

/-- task_block(state): set the calling (current) task's state to the
argument, then schedule. -/
def task_block (st : TState) (s : SState) : SState :=
  match s.current with
  | some t => schedule (setTState s t st)
  | none => s

/-- Count of trailing zeros of a 64-bit value, as computed by
__builtin_ctzll; the C builtin is undefined at 0, where this model
returns 64. -/
def ctzAux : Nat → Nat → Nat
  | 0, _ => 0
  | fuel + 1, n => if n % 2 = 1 then 0 else 1 + ctzAux fuel (n / 2)

def ctz64 (n : Nat) : Nat := ctzAux 64 n

/-- task_wakeup(task): a no-op unless the task is BLOCKED; otherwise mark
it READY and report whether a reschedule IPI is sent (it is sent exactly
when ctz(task->cpu_affinity) differs from the calling core). -/
def task_wakeup (s : SState) (tid : Nat) (callerCpu : Nat) : SState × Bool :=
  match s.tasks[tid]? with
  | none => (s, false)
  | some tr =>
    if tr.tstate = TState.BLOCKED then
      (setTState s tid TState.READY, decide (ctz64 tr.cpu_affinity ≠ callerCpu))
    else
      (s, false)

/-- enqueue_task as used from task_create/fork on this core: append the
(fresh) task at the runqueue tail with state READY. -/
def spawnTask (s : SState) (prio : Int) (aff : Nat) : SState :=
  { s with
    tasks := s.tasks ++ [{ priority := prio, tstate := TState.READY, cpu_affinity := aff }],
    runqueue := s.runqueue ++ [s.tasks.length] }

/-- State of one core right after sched_init + sched_init_cpu: the idle
task (priority TASK_MIN_PRIORITY = 0, affinity 1 << cpu) has been created
and enqueued; nothing is current yet. -/
def initState (cpu : Nat) : SState :=
  { tasks := [{ priority := 0, tstate := TState.READY, cpu_affinity := 2 ^ cpu }],
    runqueue := [0],
    current := none,
    idleTask := 0,
    scheduleCount := 0 }

/-- Reachable scheduler states of one core.  The task_block step carries
the guard `current ≠ idle`: task_block mutates the *calling* task, and the
idle task's body (idle_task_fn) is an infinite wfe loop that never calls
task_block and never faults, so no reachable execution blocks or zombies
the idle task.  The same step covers the deliver_signals default action,
which sets the current task to ZOMBIE and then calls schedule(). -/
inductive Reach (cpu : Nat) : SState → Prop where
  | init : Reach cpu (initState cpu)
  | sched {s} : Reach cpu s → Reach cpu (schedule s)
  | block {s} (st : TState) : Reach cpu s → s.current ≠ some s.idleTask →
      Reach cpu (task_block st s)
  | wake {s} (tid c : Nat) : Reach cpu s → Reach cpu (task_wakeup s tid c).1
  | spawn {s} (prio : Int) (aff : Nat) : Reach cpu s → Reach cpu (spawnTask s prio aff)

/-- Invariant: the idle task exists and is READY or RUNNING. -/
def IdleOK (s : SState) : Prop :=
  ∃ tr, s.tasks[s.idleTask]? = some tr ∧
    (tr.tstate = TState.READY ∨ tr.tstate = TState.RUNNING)

theorem setTState_tasks_get (s : SState) (tid : Nat) (st : TState) (t : Nat) :
    (setTState s tid st).tasks[t]? =
      if t = tid then (s.tasks[t]?).map (fun tr => { tr with tstate := st })
      else s.tasks[t]? := by
  unfold setTState
  by_cases h : t = tid
  · subst h
    cases hx : s.tasks[t]? with
    | none => simp [hx]
    | some tr =>
      have hlt : t < s.tasks.length := by
        by_contra hge
        rw [List.getElem?_eq_none (by omega)] at hx
        exact Option.noConfusion hx
      simp only [hx, if_pos rfl, Option.map_some]
      rw [List.getElem?_set]
      simp [hlt]
  · cases hx : s.tasks[tid]? with
    | none => simp [hx, h]
    | some tr =>
      simp only [hx, if_neg h]
      rw [List.getElem?_set]
      rw [if_neg (fun he : tid = t => h he.symm)]

theorem setTState_runqueue (s : SState) (tid : Nat) (st : TState) :
    (setTState s tid st).runqueue = s.runqueue := by
  unfold setTState
  cases s.tasks[tid]? <;> rfl

theorem setTState_idleTask (s : SState) (tid : Nat) (st : TState) :
    (setTState s tid st).idleTask = s.idleTask := by
  unfold setTState
  cases s.tasks[tid]? <;> rfl

theorem setTState_current (s : SState) (tid : Nat) (st : TState) :
    (setTState s tid st).current = s.current := by
  unfold setTState
  cases s.tasks[tid]? <;> rfl

theorem IdleOK_setTState_ready_or_running (s : SState) (tid : Nat) (st : TState)
    (hst : st = TState.READY ∨ st = TState.RUNNING) (h : IdleOK s) :
    IdleOK (setTState s tid st) := by
  obtain ⟨tr, hget, hstate⟩ := h
  unfold IdleOK
  rw [setTState_idleTask, setTState_tasks_get]
  by_cases he : s.idleTask = tid
  · refine ⟨{ tr with tstate := st }, ?_, hst⟩
    rw [if_pos he, hget]
    rfl
  · refine ⟨tr, ?_, hstate⟩
    rw [if_neg he, hget]

theorem IdleOK_setTState_other (s : SState) (tid : Nat) (st : TState)
    (hne : tid ≠ s.idleTask) (h : IdleOK s) : IdleOK (setTState s tid st) := by
  obtain ⟨tr, hget, hstate⟩ := h
  unfold IdleOK
  rw [setTState_idleTask, setTState_tasks_get]
  refine ⟨tr, ?_, hstate⟩
  rw [if_neg (fun he => hne he.symm), hget]

theorem IdleOK_schedule (s : SState) (h : IdleOK s) : IdleOK (schedule s) := by
  unfold schedule
  have h1 : IdleOK (match s.current with
      | some p => if stateAt s p = some TState.RUNNING then setTState s p TState.READY else s
      | none => s) := by
    cases s.current with
    | none => exact h
    | some p =>
      by_cases hc : stateAt s p = some TState.RUNNING
      · simp only [hc, if_pos rfl]
        exact IdleOK_setTState_ready_or_running s p TState.READY (Or.inl rfl) h
      · simp only [if_neg hc]
        exact h
  have h2 := IdleOK_setTState_ready_or_running _ (pick_next_task s) TState.RUNNING
    (Or.inr rfl) h1
  obtain ⟨tr, hget, hstate⟩ := h2
  exact ⟨tr, hget, hstate⟩

theorem IdleOK_task_block (s : SState) (st : TState)
    (hg : s.current ≠ some s.idleTask) (h : IdleOK s) : IdleOK (task_block st s) := by
  unfold task_block
  cases hc : s.current with
  | none => exact h
  | some t =>
    apply IdleOK_schedule
    apply IdleOK_setTState_other
    · intro he
      exact hg (by rw [hc, he])
    · exact h

theorem IdleOK_task_wakeup (s : SState) (tid c : Nat) (h : IdleOK s) :
    IdleOK (task_wakeup s tid c).1 := by
  unfold task_wakeup
  cases s.tasks[tid]? with
  | none => exact h
  | some tr =>
    by_cases hb : tr.tstate = TState.BLOCKED
    · simp only [hb, if_pos rfl]
      exact IdleOK_setTState_ready_or_running s tid TState.READY (Or.inl rfl) h
    · simp only [if_neg hb]
      exact h

theorem IdleOK_spawnTask (s : SState) (prio : Int) (aff : Nat) (h : IdleOK s) :
    IdleOK (spawnTask s prio aff) := by
  obtain ⟨tr, hget, hstate⟩ := h
  refine ⟨tr, ?_, hstate⟩
  unfold spawnTask
  simp only
  rw [List.getElem?_append_left]
  · exact hget
  · by_contra hge
    rw [List.getElem?_eq_none (by omega)] at hget
    exact Option.noConfusion hget

theorem reach_IdleOK {cpu : Nat} {s : SState} (h : Reach cpu s) : IdleOK s := by
  induction h with
  | init => exact ⟨_, rfl, Or.inl rfl⟩
  | sched _ ih => exact IdleOK_schedule _ ih
  | block st _ hg ih => exact IdleOK_task_block _ st hg ih
  | wake tid c _ ih => exact IdleOK_task_wakeup _ tid c ih
  | spawn prio aff _ ih => exact IdleOK_spawnTask _ prio aff ih

theorem pickLoop_cons_some (s : SState) {tid : Nat} {tr : TaskRec}
    (rest : List Nat) (best : Option Nat) (bp : Int) (hx : s.tasks[tid]? = some tr) :
    pickLoop s (tid :: rest) best bp =
      if tr.tstate = TState.READY ∧ bp < tr.priority then
        pickLoop s rest (some tid) tr.priority
      else pickLoop s rest best bp := by
  conv_lhs => unfold pickLoop
  rw [hx]

theorem pickLoop_cons_none (s : SState) {tid : Nat}
    (rest : List Nat) (best : Option Nat) (bp : Int) (hx : s.tasks[tid]? = none) :
    pickLoop s (tid :: rest) best bp = pickLoop s rest best bp := by
  conv_lhs => unfold pickLoop
  rw [hx]

theorem pickLoop_ready (s : SState) :
    ∀ (q : List Nat) (best : Option Nat) (bp : Int),
      (∀ b, best = some b → stateAt s b = some TState.READY) →
      ∀ t, pickLoop s q best bp = some t → stateAt s t = some TState.READY := by
  intro q
  induction q with
  | nil =>
    intro best bp hbest t ht
    exact hbest t ht
  | cons tid rest ih =>
    intro best bp hbest t ht
    cases hx : s.tasks[tid]? with
    | none =>
      rw [pickLoop_cons_none s rest best bp hx] at ht
      exact ih best bp hbest t ht
    | some tr =>
      rw [pickLoop_cons_some s rest best bp hx] at ht
      by_cases hc : tr.tstate = TState.READY ∧ bp < tr.priority
      · rw [if_pos hc] at ht
        refine ih (some tid) tr.priority ?_ t ht
        intro b hb
        cases hb
        simp [stateAt, hx, hc.1]
      · rw [if_neg hc] at ht
        exact ih best bp hbest t ht

theorem pickLoop_none_of_no_ready (s : SState) :
    ∀ (q : List Nat), (∀ tid ∈ q, stateAt s tid ≠ some TState.READY) →
      ∀ bp, pickLoop s q none bp = none := by
  intro q
  induction q with
  | nil => intro _ _; rfl
  | cons tid rest ih =>
    intro hq bp
    cases hx : s.tasks[tid]? with
    | none =>
      rw [pickLoop_cons_none s rest none bp hx]
      exact ih (fun t ht => hq t (List.mem_cons_of_mem _ ht)) bp
    | some tr =>
      have hnr : ¬(tr.tstate = TState.READY ∧ bp < tr.priority) := by
        intro ⟨h1, _⟩
        exact hq tid (List.mem_cons_self _ _) (by simp [stateAt, hx, h1])
      rw [pickLoop_cons_some s rest none bp hx, if_neg hnr]
      exact ih (fun t ht => hq t (List.mem_cons_of_mem _ ht)) bp

theorem schedule_current (s : SState) : (schedule s).current = some (pick_next_task s) := by
  unfold schedule
  rfl

theorem pick_next_task_of_some {s : SState} {u : Nat}
    (hp : pickLoop s s.runqueue none (-1) = some u) : pick_next_task s = u := by
  unfold pick_next_task
  rw [hp]

theorem pick_next_task_of_none {s : SState}
    (hp : pickLoop s s.runqueue none (-1) = none) : pick_next_task s = s.idleTask := by
  unfold pick_next_task
  rw [hp]

/-- Claim C3: for every reachable scheduler state, schedule() never selects
(marks RUNNING and publishes as the core's current task) a task whose state
is BLOCKED or ZOMBIE, and whenever no task in the core's ready queue has
state READY, the per-core idle task is selected. -/
theorem c3_schedule_never_selects_blocked_or_zombie
    {cpu : Nat} {s : SState} (h : Reach cpu s) :
    (∀ t, (schedule s).current = some t →
        stateAt s t ≠ some TState.BLOCKED ∧ stateAt s t ≠ some TState.ZOMBIE) ∧
    ((∀ tid ∈ s.runqueue, stateAt s tid ≠ some TState.READY) →
        (schedule s).current = some s.idleTask) := by
  have hidle := reach_IdleOK h
  constructor
  · intro t ht
    rw [schedule_current] at ht
    have ht' : pick_next_task s = t := by injection ht
    cases hp : pickLoop s s.runqueue none (-1) with
    | some u =>
      have hu : pick_next_task s = u := pick_next_task_of_some hp
      have htu : t = u := by rw [← ht', hu]
      have hr := pickLoop_ready s s.runqueue none (-1) (by intro b hb; cases hb) u hp
      rw [htu, hr]
      exact ⟨by simp, by simp⟩
    | none =>
      have hu : pick_next_task s = s.idleTask := pick_next_task_of_none hp
      have htu : t = s.idleTask := by rw [← ht', hu]
      obtain ⟨tr, hget, hstate⟩ := hidle
      rw [htu]
      unfold stateAt
      rw [hget]
      rcases hstate with h1 | h1 <;> simp [h1]
  · intro hnone
    rw [schedule_current]
    rw [pick_next_task_of_none (pickLoop_none_of_no_ready s s.runqueue hnone (-1))]

/-- Witness for C3 at the concrete post-boot state of core 0. -/
theorem c3_witness :
    (stateAt (initState 0) 0 ≠ some TState.BLOCKED ∧
      stateAt (initState 0) 0 ≠ some TState.ZOMBIE) ∧
    (schedule (initState 0)).current = some 0 := by
  have h := c3_schedule_never_selects_blocked_or_zombie (@Reach.init 0)
  exact ⟨h.1 0 (by decide), by decide⟩

theorem task_wakeup_eq_none (s : SState) (tid c : Nat) (hx : s.tasks[tid]? = none) :
    task_wakeup s tid c = (s, false) := by
  unfold task_wakeup
  rw [hx]

theorem task_wakeup_eq_some (s : SState) (tid c : Nat) {tr : TaskRec}
    (hx : s.tasks[tid]? = some tr) :
    task_wakeup s tid c =
      if tr.tstate = TState.BLOCKED then
        (setTState s tid TState.READY, decide (ctz64 tr.cpu_affinity ≠ c))
      else (s, false) := by
  unfold task_wakeup
  rw [hx]

theorem schedule_runqueue (s : SState) : (schedule s).runqueue = s.runqueue := by
  unfold schedule
  cases hc : s.current with
  | none =>
    dsimp only
    rw [setTState_runqueue]
  | some p =>
    dsimp only
    by_cases hr : stateAt s p = some TState.RUNNING
    · rw [if_pos hr, setTState_runqueue, setTState_runqueue]
    · rw [if_neg hr, setTState_runqueue]

/-! ### C4: round-robin starvation

The spec requires that among tasks of equal priority every task eventually
runs under repeated yield()/schedule() calls.  In the code, schedule()
demotes the previous task to READY but never moves it in the ready queue
(dequeue_task is never called), and pick_next_task takes the *first* READY
task of maximal priority in queue order.  With three equal-priority tasks
1, 2, 3 behind the idle task, the schedule sequence alternates between
task 1 and task 2 forever and task 3 never runs.

schedule() never reads schedule_count, so the states below with a symbolic
count k evaluate definitionally. -/

/-- Core 0 with the idle task plus three equal-priority tasks 1, 2, 3. -/
def s4start : SState :=
  spawnTask (spawnTask (spawnTask (initState 0) 1 1) 1 1) 1 1

/-- The recurring state in which task 1 is current. -/
def s4A (k : Nat) : SState :=
  { tasks := [⟨0, TState.READY, 1⟩, ⟨1, TState.RUNNING, 1⟩,
              ⟨1, TState.READY, 1⟩, ⟨1, TState.READY, 1⟩],
    runqueue := [0, 1, 2, 3], current := some 1, idleTask := 0, scheduleCount := k }

/-- The recurring state in which task 2 is current. -/
def s4B (k : Nat) : SState :=
  { tasks := [⟨0, TState.READY, 1⟩, ⟨1, TState.READY, 1⟩,
              ⟨1, TState.RUNNING, 1⟩, ⟨1, TState.READY, 1⟩],
    runqueue := [0, 1, 2, 3], current := some 2, idleTask := 0, scheduleCount := k }

theorem s4_step0 : schedule s4start = s4A 1 := rfl

theorem s4_stepA (k : Nat) : schedule (s4A k) = s4B (k + 1) := rfl

theorem s4_stepB (k : Nat) : schedule (s4B k) = s4A (k + 1) := rfl

def iterSched : Nat → SState → SState
  | 0, s => s
  | n + 1, s => schedule (iterSched n s)

theorem iterSched_s4_cycle (n : Nat) :
    iterSched n s4start = s4start ∨
    (∃ k, iterSched n s4start = s4A k) ∨ (∃ k, iterSched n s4start = s4B k) := by
  induction n with
  | zero => exact Or.inl rfl
  | succ m ih =>
    rcases ih with h | ⟨k, h⟩ | ⟨k, h⟩
    · exact Or.inr (Or.inl ⟨1, by rw [iterSched, h, s4_step0]⟩)
    · exact Or.inr (Or.inr ⟨k + 1, by rw [iterSched, h, s4_stepA]⟩)
    · exact Or.inr (Or.inl ⟨k + 1, by rw [iterSched, h, s4_stepB]⟩)

/-- Claim C4 (refuted; the code starves task 3): on core 0 with three
equal-priority READY tasks 1, 2, 3 in the ready queue, repeated schedule()
calls never make task 3 current and never mark it RUNNING — tasks 1 and 2
alternate forever, so task 3 is permanently starved, contradicting the
spec's requirement that every equal-priority task eventually receives CPU
time (the code never re-enqueues the demoted task, although its own header
comment calls the policy round-robin). -/
theorem c4_starvation (n : Nat) :
    (iterSched n s4start).current ≠ some 3 ∧
    stateAt (iterSched n s4start) 3 ≠ some TState.RUNNING := by
  rcases iterSched_s4_cycle n with h | ⟨k, h⟩ | ⟨k, h⟩ <;> rw [h]
  · exact ⟨by decide, by decide⟩
  · refine ⟨?_, ?_⟩
    · rw [show (s4A k).current = some 1 from rfl]
      simp
    · rw [show stateAt (s4A k) 3 = some TState.READY from rfl]
      simp
  · refine ⟨?_, ?_⟩
    · rw [show (s4B k).current = some 2 from rfl]
      simp
    · rw [show stateAt (s4B k) 3 = some TState.READY from rfl]
      simp

/-- Claim C9: task_wakeup on a task that is not BLOCKED changes nothing
(no state change, no enqueue, no IPI); on a BLOCKED task it only sets the
state to READY (the queue is untouched, so it is never enqueued a second
time) and sends an IPI exactly when the task's affinity core — the lowest
set bit of its non-empty affinity mask — differs from the calling core. -/
theorem c9_task_wakeup_spec (s : SState) (tid c : Nat) :
    (stateAt s tid ≠ some TState.BLOCKED → task_wakeup s tid c = (s, false)) ∧
    (∀ tr, s.tasks[tid]? = some tr → tr.tstate = TState.BLOCKED →
      (task_wakeup s tid c).1 = setTState s tid TState.READY ∧
      (task_wakeup s tid c).1.runqueue = s.runqueue ∧
      (tr.cpu_affinity ≠ 0 →
        ((task_wakeup s tid c).2 = true ↔ ctz64 tr.cpu_affinity ≠ c))) := by
  constructor
  · intro hnb
    cases hx : s.tasks[tid]? with
    | none => exact task_wakeup_eq_none s tid c hx
    | some tr =>
      rw [task_wakeup_eq_some s tid c hx]
      have : ¬tr.tstate = TState.BLOCKED := by
        intro hb
        exact hnb (by simp [stateAt, hx, hb])
      rw [if_neg this]
  · intro tr hx hb
    rw [task_wakeup_eq_some s tid c hx, if_pos hb]
    exact ⟨rfl, setTState_runqueue s tid TState.READY, fun _ => by simp⟩

/-- Concrete state for the C9 witness: one BLOCKED task with affinity
mask 0b10 (core 1). -/
def wakeupWitnessState : SState :=
  { tasks := [⟨1, TState.BLOCKED, 2⟩],
    runqueue := [0], current := none, idleTask := 0, scheduleCount := 0 }

/-- Witness for C9: waking the BLOCKED task of wakeupWitnessState from
core 0 sends an IPI and leaves the queue untouched. -/
theorem c9_witness :
    (task_wakeup wakeupWitnessState 0 0).2 = true ∧
    (task_wakeup wakeupWitnessState 0 0).1.runqueue = [0] := by
  have h := (c9_task_wakeup_spec wakeupWitnessState 0 0).2 ⟨1, TState.BLOCKED, 2⟩ rfl rfl
  exact ⟨(h.2.2 (by decide)).2 (by decide), h.2.1⟩

/-- Claim C10: once a task is linked into a core's ready queue, none of
schedule, task_block or task_wakeup ever unlinks it — each of them leaves
the queue identical and changes only task state fields (plus current and
schedule_count); in particular task_wakeup makes a BLOCKED task runnable
again purely by setting its state field. -/
theorem c10_queue_never_unlinked (s : SState) (st : TState) (tid c : Nat) :
    (schedule s).runqueue = s.runqueue ∧
    (task_block st s).runqueue = s.runqueue ∧
    (task_wakeup s tid c).1.runqueue = s.runqueue ∧
    (stateAt s tid = some TState.BLOCKED →
      stateAt (task_wakeup s tid c).1 tid = some TState.READY) := by
  refine ⟨schedule_runqueue s, ?_, ?_, ?_⟩
  · unfold task_block
    cases s.current with
    | none => rfl
    | some t => rw [schedule_runqueue, setTState_runqueue]
  · cases hx : s.tasks[tid]? with
    | none => rw [task_wakeup_eq_none s tid c hx]
    | some tr =>
      rw [task_wakeup_eq_some s tid c hx]
      by_cases hb : tr.tstate = TState.BLOCKED
      · rw [if_pos hb]
        exact setTState_runqueue s tid TState.READY
      · rw [if_neg hb]
  · intro hblk
    cases hx : s.tasks[tid]? with
    | none =>
      rw [stateAt, hx] at hblk
      exact Option.noConfusion hblk
    | some tr =>
      have hb : tr.tstate = TState.BLOCKED := by
        rw [stateAt, hx] at hblk
        simp at hblk
        exact hblk
      rw [task_wakeup_eq_some s tid c hx, if_pos hb]
      rw [stateAt, setTState_tasks_get, if_pos rfl, hx]
      rfl

/-- Witness for C10 on a concrete one-task BLOCKED state. -/
theorem c10_witness :
    stateAt (task_wakeup wakeupWitnessState 0 1).1 0 = some TState.READY :=
  (c10_queue_never_unlinked wakeupWitnessState TState.BLOCKED 0 1).2.2.2 (by decide)

/-! ## Signal model (src/kernel/kernel/signal.c)

A handler slot is SIG_DFL (NULL), SIG_IGN ((void*)1), or a user function
pointer.  The pending/blocked/old_mask words are uint64 bitmasks.  A user
handler body is external code; running it is recorded but modelled as not
mutating the signal state (the code then blocks the signal itself). -/

inductive SigHandler where
  | DFL
  | IGN
  | Custom (fn : Nat)
deriving DecidableEq

structure SignalState where
  handlers : List SigHandler
  pending : Nat
  blocked : Nat
  old_mask : Nat
  sigreturn_sp : Nat
deriving DecidableEq

structure SigTask where
  sigs : SignalState
  tstate : TState
  sp_el0 : Nat
deriving DecidableEq

/-- The world visible to signal.c: current_task (none = NULL), the number
of schedule() calls made, and whether halt_system() was called. -/
structure SigWorld where
  task : Option SigTask
  scheduleCalls : Nat
  haltCalled : Bool
deriving DecidableEq

def handlerAt (t : SigTask) (sig : Nat) : SigHandler :=
  (t.sigs.handlers[sig]?).getD SigHandler.DFL

/-- n & ~(1ULL << i) on 64-bit words (2^64 - 1 - 2^i is the 64-bit
complement of the single bit i). -/
def clear64 (n i : Nat) : Nat := n &&& (2 ^ 64 - 1 - 2 ^ i)

/-- One iteration of the deliver_signals loop body for signal `sig`.
`pend0`/`blk0` are the values of task->signal_state.pending/.blocked at
loop entry: the C code computes the snapshot
`pending = task->...pending & ~task->...blocked` once before the loop, and
`pending & (1ULL << sig)` is nonzero iff bit sig is set in pend0 and clear
in blk0.  The loop body first clears the live pending bit
(task->signal_state.pending &= ~(1ULL << sig)) and then dispatches on
handlers[sig]; since clearing the pending bit does not change the handler
table, the handler is read here directly from the accumulator task.  The
accumulator carries the task and the number of schedule() calls so far. -/
def deliverStep (pend0 blk0 : Nat) (acc : SigTask × Nat) (sig : Nat) : SigTask × Nat :=
  if pend0.testBit sig && !blk0.testBit sig then
    match handlerAt acc.1 sig with
    | SigHandler.IGN =>
      ({ acc.1 with sigs :=
          { acc.1.sigs with pending := clear64 acc.1.sigs.pending sig } }, acc.2)
    | SigHandler.DFL =>
      -- default action: task->state = TASK_ZOMBIE; schedule();
      ({ acc.1 with
          sigs := { acc.1.sigs with pending := clear64 acc.1.sigs.pending sig },
          tstate := TState.ZOMBIE }, acc.2 + 1)
    | SigHandler.Custom _ =>
      -- save context for sigreturn, run the handler, block the signal
      ({ acc.1 with sigs := { acc.1.sigs with
            pending := clear64 acc.1.sigs.pending sig,
            old_mask := acc.1.sigs.blocked,
            sigreturn_sp := acc.1.sp_el0,
            blocked := acc.1.sigs.blocked ||| 2 ^ sig } }, acc.2)
  else acc

/-- deliver_signals(): nothing happens without a current task; otherwise
run the loop for sig = 1 .. NSIG-1 = 31.  (The early `if (!pending)
return;` is behaviourally the same as running the loop with no
deliverable bit set.) -/
def deliver_signals (w : SigWorld) : SigWorld :=
  match w.task with
  | none => w
  | some t =>
    let res := (List.range' 1 31).foldl (deliverStep t.sigs.pending t.sigs.blocked) (t, 0)
    { w with task := some res.1, scheduleCalls := w.scheduleCalls + res.2 }

/-- handle_exception(esr, far): with no current task, halt_system(); with a
current task, raise SIGSEGV (= 11) as pending and deliver.  esr and far
only feed debug output. -/
def handle_exception (w : SigWorld) (esr far : Nat) : SigWorld :=
  match w.task, esr, far with
  | none, _, _ => { w with haltCalled := true }
  | some t, _, _ =>
    deliver_signals
      { w with task := some { t with sigs :=
          { t.sigs with pending := t.sigs.pending ||| 2 ^ 11 } } }

theorem deliverStep_handlers (pend0 blk0 : Nat) (acc : SigTask × Nat) (sig : Nat) :
    ((deliverStep pend0 blk0 acc sig).1).sigs.handlers = acc.1.sigs.handlers := by
  unfold deliverStep
  by_cases hc : pend0.testBit sig && !blk0.testBit sig
  · rw [if_pos hc]
    cases handlerAt acc.1 sig <;> rfl
  · rw [if_neg hc]

theorem deliverFold_handlers (pend0 blk0 : Nat) :
    ∀ (l : List Nat) (acc : SigTask × Nat),
      ((l.foldl (deliverStep pend0 blk0) acc).1).sigs.handlers = acc.1.sigs.handlers := by
  intro l
  induction l with
  | nil => intro acc; rfl
  | cons sig rest ih =>
    intro acc
    rw [List.foldl_cons, ih, deliverStep_handlers]

theorem deliverStep_zombie (pend0 blk0 : Nat) (acc : SigTask × Nat) (sig : Nat)
    (hz : acc.1.tstate = TState.ZOMBIE) :
    ((deliverStep pend0 blk0 acc sig).1).tstate = TState.ZOMBIE := by
  unfold deliverStep
  by_cases hc : pend0.testBit sig && !blk0.testBit sig
  · rw [if_pos hc]
    cases handlerAt acc.1 sig
    · exact rfl
    · exact hz
    · exact hz
  · rw [if_neg hc]
    exact hz

theorem deliverStep_sc_mono (pend0 blk0 : Nat) (acc : SigTask × Nat) (sig : Nat) :
    acc.2 ≤ (deliverStep pend0 blk0 acc sig).2 := by
  unfold deliverStep
  by_cases hc : pend0.testBit sig && !blk0.testBit sig
  · rw [if_pos hc]
    cases handlerAt acc.1 sig
    · exact Nat.le_succ _
    · exact le_refl _
    · exact le_refl _
  · rw [if_neg hc]

theorem deliverFold_zombie_mono (pend0 blk0 : Nat) :
    ∀ (l : List Nat) (acc : SigTask × Nat), acc.1.tstate = TState.ZOMBIE →
      ((l.foldl (deliverStep pend0 blk0) acc).1).tstate = TState.ZOMBIE ∧
      acc.2 ≤ (l.foldl (deliverStep pend0 blk0) acc).2 := by
  intro l
  induction l with
  | nil => intro acc hz; exact ⟨hz, le_refl _⟩
  | cons sig rest ih =>
    intro acc hz
    rw [List.foldl_cons]
    have hz1 := deliverStep_zombie pend0 blk0 acc sig hz
    have h1 := ih (deliverStep pend0 blk0 acc sig) hz1
    exact ⟨h1.1, le_trans (deliverStep_sc_mono pend0 blk0 acc sig) h1.2⟩

/-- Claim C1, amended: a hardware memory fault taken by a current task
with no registered handler for SIGSEGV (handlers[11] = SIG_DFL), *and with
SIGSEGV not blocked in the task's signal mask*, transitions the task to
ZOMBIE and calls schedule(); halt_system() is never called when a current
task exists.  (Without the non-blocked hypothesis the claim fails: see the
counterexample.) -/
theorem c1_fault_zombies_task (w : SigWorld) (t : SigTask) (esr far : Nat)
    (hw : w.task = some t)
    (hdfl : handlerAt t 11 = SigHandler.DFL)
    (hnb : t.sigs.blocked.testBit 11 = false) :
    (handle_exception w esr far).task.map SigTask.tstate = some TState.ZOMBIE ∧
    w.scheduleCalls < (handle_exception w esr far).scheduleCalls ∧
    (handle_exception w esr far).haltCalled = w.haltCalled := by
  obtain ⟨wtask, wsc, whalt⟩ := w
  simp only at hw
  subst hw
  have hcond : ((t.sigs.pending ||| 2 ^ 11).testBit 11 && !t.sigs.blocked.testBit 11) = true := by
    rw [Nat.testBit_lor, Nat.testBit_two_pow_self, hnb]
    simp
  have hstep : ∀ acc : SigTask × Nat,
      acc.1.sigs.handlers = t.sigs.handlers →
      deliverStep (t.sigs.pending ||| 2 ^ 11) t.sigs.blocked acc 11 =
        ({ acc.1 with
            sigs := { acc.1.sigs with pending := clear64 acc.1.sigs.pending 11 },
            tstate := TState.ZOMBIE }, acc.2 + 1) := by
    intro acc hh
    unfold deliverStep
    rw [if_pos hcond]
    have hha : handlerAt acc.1 11 = SigHandler.DFL := by
      unfold handlerAt
      rw [hh]
      exact hdfl
    rw [hha]
  have heq : handle_exception ⟨some t, wsc, whalt⟩ esr far =
      { task := some ((List.range' 1 31).foldl
          (deliverStep (t.sigs.pending ||| 2 ^ 11) t.sigs.blocked)
          ({ t with sigs := { t.sigs with pending := t.sigs.pending ||| 2 ^ 11 } }, 0)).1,
        scheduleCalls := wsc + ((List.range' 1 31).foldl
          (deliverStep (t.sigs.pending ||| 2 ^ 11) t.sigs.blocked)
          ({ t with sigs := { t.sigs with pending := t.sigs.pending ||| 2 ^ 11 } }, 0)).2,
        haltCalled := whalt } := rfl
  rw [heq]
  have hsplit : List.range' 1 31 = List.range' 1 10 ++ 11 :: List.range' 12 20 := by decide
  rw [hsplit, List.foldl_append, List.foldl_cons]
  have hh10 : ((List.range' 1 10).foldl
      (deliverStep (t.sigs.pending ||| 2 ^ 11) t.sigs.blocked)
      ({ t with sigs := { t.sigs with pending := t.sigs.pending ||| 2 ^ 11 } }, 0)).1.sigs.handlers
      = t.sigs.handlers := by
    rw [deliverFold_handlers]
  generalize hacc : (List.range' 1 10).foldl
      (deliverStep (t.sigs.pending ||| 2 ^ 11) t.sigs.blocked)
      ({ t with sigs := { t.sigs with pending := t.sigs.pending ||| 2 ^ 11 } }, 0) = acc10
    at hh10 ⊢
  obtain ⟨a10, n10⟩ := acc10
  rw [hstep (a10, n10) hh10]
  have hrest := deliverFold_zombie_mono (t.sigs.pending ||| 2 ^ 11) t.sigs.blocked
    (List.range' 12 20)
    ({ a10 with
        sigs := { a10.sigs with pending := clear64 a10.sigs.pending 11 },
        tstate := TState.ZOMBIE }, n10 + 1) rfl
  refine ⟨congrArg some hrest.1, ?_, rfl⟩
  have h2 := hrest.2
  simp only at h2 ⊢
  omega

/-- The task used by the C1 counterexample: every handler is SIG_DFL (no
registered handler for any signal) but SIGSEGV is blocked in its signal
mask (reachable: register a handler for signal 11, deliver it once — the
code then sets blocked bit 11 — and reset the handler to SIG_DFL via
signal(11, SIG_DFL), which sigaction/signal permit for signal 11). -/
def c1BlockedTask : SigTask :=
  { sigs := { handlers := List.replicate 32 SigHandler.DFL,
              pending := 0, blocked := 2 ^ 11, old_mask := 0, sigreturn_sp := 0 },
    tstate := TState.RUNNING,
    sp_el0 := 0 }

/-- Counterexample to claim C1 as stated: this task takes a memory fault
while it has no registered handler for the resulting signal (all handlers
are SIG_DFL), yet handle_exception leaves it RUNNING — not ZOMBIE — and
never calls schedule(), because deliver_signals masks the snapshot with
~blocked and bit 11 is blocked. -/
theorem c1_counterexample :
    (handle_exception { task := some c1BlockedTask, scheduleCalls := 0, haltCalled := false }
        0 0).task.map SigTask.tstate = some TState.RUNNING ∧
    (handle_exception { task := some c1BlockedTask, scheduleCalls := 0, haltCalled := false }
        0 0).scheduleCalls = 0 := by
  constructor <;> decide

/-- The task used for the C1 witness: no handlers registered, nothing
blocked. -/
def c1PlainTask : SigTask :=
  { sigs := { handlers := List.replicate 32 SigHandler.DFL,
              pending := 0, blocked := 0, old_mask := 0, sigreturn_sp := 0 },
    tstate := TState.RUNNING,
    sp_el0 := 0 }

/-- Witness for the amended C1 at a concrete faulting task. -/
theorem c1_witness :
    (handle_exception { task := some c1PlainTask, scheduleCalls := 5, haltCalled := false }
        0 0).task.map SigTask.tstate = some TState.ZOMBIE ∧
    5 < (handle_exception { task := some c1PlainTask, scheduleCalls := 5, haltCalled := false }
        0 0).scheduleCalls ∧
    (handle_exception { task := some c1PlainTask, scheduleCalls := 5, haltCalled := false }
        0 0).haltCalled = false :=
  c1_fault_zombies_task
    { task := some c1PlainTask, scheduleCalls := 5, haltCalled := false }
    c1PlainTask 0 0 rfl (by decide) (by decide)

/-! ## fork and copy-on-write page-table duplication
(src/kernel/task.c fork, src/kernel/kernel/mmu.c mmu_duplicate_pagetable)

The user half of a task's L0 table has 256 slots; a VALID slot points to an
L1 table of 512 raw uint64 entries.  The model keeps the user slots as a
list of `Option (List Nat)` (none = slot not PTE_VALID) of any length —
the C loop runs over exactly 256 slots.  The kernel half is copied by
memcpy into the child and never written in the parent, so it is omitted.
Allocation success is an oracle `ok : Nat → Bool` indexed by allocation
event; every failure path in the C code frees only child-owned pieces. -/

def PTE_VALID : Nat := 1

/-- PTE_RW is defined in mmu.c as (0ULL << 7): read-write is the *absence*
of the AP read-only bit, so this constant is zero. -/
def PTE_RW : Nat := 0

def PTE_COW : Nat := 2 ^ 55

/-- n & ~mask on 64-bit words (for mask < 2^64, 2^64 - 1 - mask is its
bitwise complement). -/
def andNot64 (n mask : Nat) : Nat := n &&& (2 ^ 64 - 1 - mask)

/-- Copy one L1 entry from parent to child with COW marking:
`new_l1[j] = old_l1[j]; if (old_l1[j] & PTE_RW) { new |= PTE_COW; new &=
~PTE_RW; old |= PTE_COW; old &= ~PTE_RW; }`.  Returns (child entry,
parent entry after the copy); an invalid parent entry leaves the child
entry 0 (new_l1 is zero-filled by pt_alloc_level). -/
def copyL1Entry (e : Nat) : Nat × Nat :=
  if e.testBit 0 then
    if e &&& PTE_RW ≠ 0 then
      (andNot64 (e ||| PTE_COW) PTE_RW, andNot64 (e ||| PTE_COW) PTE_RW)
    else (e, e)
  else (0, e)

def dupL1 (l1 : List Nat) : List Nat × List Nat :=
  (l1.map fun e => (copyL1Entry e).1, l1.map fun e => (copyL1Entry e).2)

structure UserPT where
  slots : List (Option (List Nat))
deriving DecidableEq

/-- The per-slot loop of mmu_duplicate_pagetable over the user L0 slots.
`k` is the next allocation-oracle index; a VALID parent slot costs one
pt_alloc_level call for the child's new_l1.  Returns (child slots when
every allocation succeeded, parent slots after the loop — on failure the
loop returns early, leaving earlier parent slots as copied and later ones
untouched — and the next oracle index). -/
def dupSlots (ok : Nat → Bool) : List (Option (List Nat)) → Nat →
    Option (List (Option (List Nat))) × List (Option (List Nat)) × Nat
  | [], k => (some [], [], k)
  | none :: rest, k =>
    ((dupSlots ok rest k).1.map (fun c => none :: c),
      none :: (dupSlots ok rest k).2.1,
      (dupSlots ok rest k).2.2)
  | some l1 :: rest, k =>
    if ok k then
      ((dupSlots ok rest (k + 1)).1.map (fun c => some (dupL1 l1).1 :: c),
        some (dupL1 l1).2 :: (dupSlots ok rest (k + 1)).2.1,
        (dupSlots ok rest (k + 1)).2.2)
    else (none, some l1 :: rest, k + 1)

/-- mmu_duplicate_pagetable(parent, child): allocate the child L0 (oracle
index 0), copy the kernel half by memcpy, then run the user-slot loop.
Returns (child table on success, parent table afterwards, number of oracle
indices consumed). -/
def mmu_duplicate_pagetable (ok : Nat → Bool) (p : UserPT) :
    Option UserPT × UserPT × Nat :=
  if ok 0 then
    ((dupSlots ok p.slots 1).1.map UserPT.mk,
      ⟨(dupSlots ok p.slots 1).2.1⟩,
      (dupSlots ok p.slots 1).2.2)
  else (none, p, 1)

/-- fork(): the checked allocation steps in order are the child task_t
(oracle index 0), the page-table allocations inside
mmu_duplicate_pagetable (shifted oracle), and the child kernel stack.  The
failure paths run kfree(child) and mmu_free_pagetable(child), which free
child-owned structures only.  Returns (child pid on success, parent page
table afterwards). -/
def fork (ok : Nat → Bool) (p : UserPT) (nextPid : Nat) : Option Nat × UserPT :=
  if ok 0 then
    match (mmu_duplicate_pagetable (fun i => ok (i + 1)) p).1 with
    | some _ =>
      if ok ((mmu_duplicate_pagetable (fun i => ok (i + 1)) p).2.2 + 1) then
        (some (nextPid + 1), (mmu_duplicate_pagetable (fun i => ok (i + 1)) p).2.1)
      else (none, (mmu_duplicate_pagetable (fun i => ok (i + 1)) p).2.1)
    | none => (none, (mmu_duplicate_pagetable (fun i => ok (i + 1)) p).2.1)
  else (none, p)

theorem copyL1Entry_parent (e : Nat) : (copyL1Entry e).2 = e := by
  unfold copyL1Entry
  by_cases h : e.testBit 0
  · rw [if_pos h]
    have hz : e &&& PTE_RW = 0 := by
      rw [PTE_RW]
      exact Nat.and_zero e
    rw [if_neg (by rw [hz]; exact fun hc => hc rfl)]
  · rw [if_neg h]

theorem dupL1_parent (l : List Nat) : (dupL1 l).2 = l := by
  unfold dupL1
  simp [copyL1Entry_parent]

/-- The COW write-protect branch of the duplication loop is dead code
(PTE_RW = 0), so the parent's entries are never modified — not even on the
paths where the loop later fails. -/
theorem dupSlots_parent (ok : Nat → Bool) :
    ∀ (slots : List (Option (List Nat))) (k : Nat),
      (dupSlots ok slots k).2.1 = slots := by
  intro slots
  induction slots with
  | nil => intro k; rfl
  | cons s rest ih =>
    intro k
    cases s with
    | none =>
      show (none :: (dupSlots ok rest k).2.1, (dupSlots ok rest k).2.2).1 = _
      rw [ih]
    | some l1 =>
      unfold dupSlots
      by_cases hk : ok k
      · rw [if_pos hk]
        show some (dupL1 l1).2 :: (dupSlots ok rest (k + 1)).2.1 = _
        rw [ih, dupL1_parent]
      · rw [if_neg hk]

theorem mmu_duplicate_pagetable_parent (ok : Nat → Bool) (p : UserPT) :
    (mmu_duplicate_pagetable ok p).2.1 = p := by
  unfold mmu_duplicate_pagetable
  by_cases h0 : ok 0
  · rw [if_pos h0]
    show UserPT.mk (dupSlots ok p.slots 1).2.1 = p
    rw [dupSlots_parent]
  · rw [if_neg h0]

theorem fork_parent_unchanged (ok : Nat → Bool) (p : UserPT) (nextPid : Nat) :
    (fork ok p nextPid).2 = p := by
  unfold fork
  by_cases h0 : ok 0
  · rw [if_pos h0]
    cases hd : (mmu_duplicate_pagetable (fun i => ok (i + 1)) p).1 with
    | none => exact mmu_duplicate_pagetable_parent _ p
    | some c =>
      by_cases hs : ok ((mmu_duplicate_pagetable (fun i => ok (i + 1)) p).2.2 + 1)
      · rw [if_pos hs]
        exact mmu_duplicate_pagetable_parent _ p
      · rw [if_neg hs]
        exact mmu_duplicate_pagetable_parent _ p
  · rw [if_neg h0]

/-- Claim C2: whenever any allocation step of fork fails — the child task
block, any page-table level during duplication, or the child kernel
stack — fork returns an error and the parent's page-table entries,
including every user-half protection bit, are exactly what they were
before the call.  (The COW branch that would write-protect parent entries
is dead code because PTE_RW is the zero bit pattern, so the parent table
is never written at all.) -/
theorem c2_fork_failure_preserves_parent (ok : Nat → Bool) (p : UserPT) (nextPid : Nat)
    (h : ok 0 = false ∨
         (mmu_duplicate_pagetable (fun i => ok (i + 1)) p).1 = none ∨
         ok ((mmu_duplicate_pagetable (fun i => ok (i + 1)) p).2.2 + 1) = false) :
    (fork ok p nextPid).1 = none ∧ (fork ok p nextPid).2 = p := by
  refine ⟨?_, fork_parent_unchanged ok p nextPid⟩
  unfold fork
  by_cases h0 : ok 0
  · rw [if_pos h0]
    cases hd : (mmu_duplicate_pagetable (fun i => ok (i + 1)) p).1 with
    | none => rfl
    | some c =>
      by_cases hs : ok ((mmu_duplicate_pagetable (fun i => ok (i + 1)) p).2.2 + 1)
      · rcases h with h | h | h
        · rw [h0] at h
          exact absurd h (by simp)
        · rw [hd] at h
          exact Option.noConfusion h
        · rw [hs] at h
          exact absurd h (by simp)
      · rw [if_neg hs]
  · rw [if_neg h0]

/-- A concrete parent table for the C2 witness: one VALID user slot whose
L1 holds a valid entry (3 = VALID|TABLE) and an entry with the read-only
bit set (131 = VALID|TABLE|bit7), plus one empty slot. -/
def c2Parent : UserPT := ⟨[some [3, 131, 0], none]⟩

/-- Witness for C2: with every allocation failing, fork fails and the
parent's page-table entries (protection bits included) are unchanged. -/
theorem c2_witness :
    (fork (fun _ => false) c2Parent 7).1 = none ∧
    (fork (fun _ => false) c2Parent 7).2 = c2Parent :=
  c2_fork_failure_preserves_parent (fun _ => false) c2Parent 7 (Or.inl rfl)

/-! ## task_create (src/kernel/task.c) with the per-core ready queues

task_create validates name/entry, performs its checked allocations (task
block, kernel stack, and — only when the entry point lies at or above
0x40000000, i.e. in user space — the user stack), fills in the task with
state TASK_READY, then enqueues it on cpu_sched[cpu] where
cpu = __builtin_ctzll(affinity) clamped to 0 when >= MAX_CPUS, and
affinity defaults to 1 << creating-core when the given mask is 0.
mmu_init_task's internal allocations are not checked by the C code (their
failure cannot abort task_create), so they carry no oracle here.  A NULL
name is abstracted as the flag nameNull; entry is its numeric address
(NULL = 0). -/

def MAX_CPUS : Nat := 8

structure MState where
  queues : List (List Nat)
  mtasks : List TaskRec
deriving DecidableEq

def stateAtM (m : MState) (tid : Nat) : Option TState :=
  (m.mtasks[tid]?).map TaskRec.tstate

def listModify (f : α → α) : Nat → List α → List α
  | _, [] => []
  | 0, a :: as => f a :: as
  | n + 1, a :: as => a :: listModify f n as

/-- The core on which task_create enqueues: task->cpu_affinity defaults to
1 << creating-core when the given mask is 0, and
`int cpu = __builtin_ctzll(affinity); if (cpu >= MAX_CPUS) cpu = 0;`. -/
def targetCore (aff creatingCpu : Nat) : Nat :=
  if MAX_CPUS ≤ ctz64 (if aff = 0 then 2 ^ creatingCpu else aff) then 0
  else ctz64 (if aff = 0 then 2 ^ creatingCpu else aff)

def task_create (m : MState) (nameNull : Bool) (entry : Nat) (prio : Int) (aff : Nat)
    (creatingCpu : Nat) (okTask okStack okUser : Bool) : Option Nat × MState :=
  if nameNull then (none, m)
  else if entry = 0 then (none, m)
  else if okTask = false then (none, m)
  else if okStack = false then (none, m)
  else if 0x40000000 ≤ entry ∧ okUser = false then (none, m)
  else
    (some m.mtasks.length,
      { queues := listModify (fun q => q ++ [m.mtasks.length])
          (targetCore aff creatingCpu) m.queues,
        mtasks := m.mtasks ++
          [⟨prio, TState.READY, if aff = 0 then 2 ^ creatingCpu else aff⟩] })

theorem mem_of_getElem_some {l : List α} {i : Nat} {a : α} (h : l[i]? = some a) : a ∈ l := by
  obtain ⟨hl, rfl⟩ := List.getElem?_eq_some_iff.mp h
  exact List.getElem_mem hl

theorem ctzAux_two_pow : ∀ (fuel c : Nat), c < fuel → ctzAux fuel (2 ^ c) = c := by
  intro fuel
  induction fuel with
  | zero => intro c hc; omega
  | succ f ih =>
    intro c hc
    cases c with
    | zero => rfl
    | succ c' =>
      unfold ctzAux
      have h2 : 2 ^ (c' + 1) % 2 = 0 := by
        rw [pow_succ]
        exact Nat.mul_mod_left _ _
      rw [if_neg (by omega)]
      have hd : 2 ^ (c' + 1) / 2 = 2 ^ c' := by
        rw [pow_succ]
        exact Nat.mul_div_cancel _ (by norm_num)
      rw [hd, ih c' (by omega)]
      omega

theorem ctz64_two_pow (c : Nat) (hc : c < 64) : ctz64 (2 ^ c) = c :=
  ctzAux_two_pow 64 c hc

theorem listModify_get (f : α → α) :
    ∀ (l : List α) (i j : Nat),
      (listModify f i l)[j]? = if j = i then (l[j]?).map f else l[j]? := by
  intro l
  induction l with
  | nil =>
    intro i j
    by_cases h : j = i <;> simp [listModify, h]
  | cons a as ih =>
    intro i j
    cases i with
    | zero =>
      cases j with
      | zero => simp [listModify]
      | succ j' => simp [listModify]
    | succ i' =>
      cases j with
      | zero => simp [listModify]
      | succ j' =>
        have hstep : (listModify f (i' + 1) (a :: as))[j' + 1]? = (listModify f i' as)[j']? := by
          simp [listModify]
        rw [hstep, ih i' j']
        by_cases h : j' = i' <;> simp [h]

/-- Claim C8, amended: for every valid argument tuple (name and entry
non-null, the checked allocations succeeding), task_create returns a task
whose state is READY and which appears exactly once in the ready queue of
its target core and in no other core's queue — where the target core is
the lowest set bit of the affinity mask *when that bit index is below
MAX_CPUS = 8, and core 0 otherwise*, or the creating core when the mask is
empty.  (The original claim, target = lowest set bit unconditionally,
fails for masks whose lowest set bit is ≥ 8: see the counterexample.) -/
theorem c8_task_create_enqueues_once (m : MState) (entry : Nat) (prio : Int)
    (aff creatingCpu : Nat)
    (hq : ∀ q ∈ m.queues, ∀ t ∈ q, t < m.mtasks.length)
    (hql : m.queues.length = MAX_CPUS)
    (hcpu : creatingCpu < MAX_CPUS)
    (hentry : entry ≠ 0) :
    (task_create m false entry prio aff creatingCpu true true true).1 = some m.mtasks.length ∧
    stateAtM (task_create m false entry prio aff creatingCpu true true true).2
      m.mtasks.length = some TState.READY ∧
    targetCore aff creatingCpu =
      (if aff = 0 then creatingCpu
       else if ctz64 aff < MAX_CPUS then ctz64 aff else 0) ∧
    (((task_create m false entry prio aff creatingCpu true true true).2.queues[
        targetCore aff creatingCpu]?).getD []).count m.mtasks.length = 1 ∧
    (∀ c < MAX_CPUS, c ≠ targetCore aff creatingCpu →
      (((task_create m false entry prio aff creatingCpu true true true).2.queues[c]?).getD
        []).count m.mtasks.length = 0) := by
  have hred : task_create m false entry prio aff creatingCpu true true true =
      (some m.mtasks.length,
        { queues := listModify (fun q => q ++ [m.mtasks.length])
            (targetCore aff creatingCpu) m.queues,
          mtasks := m.mtasks ++
            [⟨prio, TState.READY, if aff = 0 then 2 ^ creatingCpu else aff⟩] }) := by
    unfold task_create
    rw [if_neg (by simp), if_neg hentry, if_neg (by simp), if_neg (by simp),
      if_neg (by intro hx; exact absurd hx.2 (by simp))]
  have htgt : targetCore aff creatingCpu =
      (if aff = 0 then creatingCpu
       else if ctz64 aff < MAX_CPUS then ctz64 aff else 0) := by
    unfold targetCore
    by_cases ha : aff = 0
    · have hin : (if aff = 0 then 2 ^ creatingCpu else aff) = 2 ^ creatingCpu := if_pos ha
      rw [hin, ctz64_two_pow creatingCpu (by simp only [MAX_CPUS] at hcpu; omega),
        if_pos ha, if_neg (by omega)]
    · have hin : (if aff = 0 then 2 ^ creatingCpu else aff) = aff := if_neg ha
      rw [hin, if_neg ha]
      by_cases hb : MAX_CPUS ≤ ctz64 aff
      · rw [if_pos hb, if_neg (by omega)]
      · rw [if_neg hb, if_pos (by omega)]
  have htlt : targetCore aff creatingCpu < MAX_CPUS := by
    unfold targetCore
    by_cases hb : MAX_CPUS ≤ ctz64 (if aff = 0 then 2 ^ creatingCpu else aff)
    · rw [if_pos hb]
      unfold MAX_CPUS
      omega
    · rw [if_neg hb]
      omega
  rw [hred]
  refine ⟨rfl, ?_, htgt, ?_, ?_⟩
  · unfold stateAtM
    simp only
    rw [List.getElem?_append_right (le_refl _)]
    simp
  · simp only
    rw [listModify_get, if_pos rfl]
    have hlt : targetCore aff creatingCpu < m.queues.length := by omega
    obtain ⟨q, hqs⟩ : ∃ q, m.queues[targetCore aff creatingCpu]? = some q :=
      ⟨m.queues[targetCore aff creatingCpu], List.getElem?_eq_getElem hlt⟩
    rw [hqs]
    show (q ++ [m.mtasks.length]).count m.mtasks.length = 1
    rw [List.count_append]
    have hnot : m.mtasks.length ∉ q := by
      intro hmem
      have := hq q (mem_of_getElem_some hqs) m.mtasks.length hmem
      omega
    rw [List.count_eq_zero.mpr hnot]
    simp
  · intro c hcm hcne
    simp only
    rw [listModify_get, if_neg hcne]
    have hlt : c < m.queues.length := by omega
    obtain ⟨q, hqs⟩ : ∃ q, m.queues[c]? = some q := ⟨m.queues[c], List.getElem?_eq_getElem hlt⟩
    rw [hqs]
    show q.count m.mtasks.length = 0
    apply List.count_eq_zero.mpr
    intro hmem
    have := hq q (mem_of_getElem_some hqs) m.mtasks.length hmem
    omega

/-- Counterexample to claim C8 as stated: with affinity mask 256 = 1 << 8
the lowest set bit is core 8, but MAX_CPUS = 8, so task_create clamps the
target to core 0: the task lands exactly once in core 0's queue and zero
times in the (nonexistent) queue of core 8. -/
theorem c8_counterexample :
    ctz64 256 = 8 ∧
    (task_create ⟨List.replicate 8 [], []⟩ false 1 5 256 1 true true true).1 = some 0 ∧
    (((task_create ⟨List.replicate 8 [], []⟩ false 1 5 256 1 true true true).2.queues[8]?).getD
      []).count 0 = 0 ∧
    (((task_create ⟨List.replicate 8 [], []⟩ false 1 5 256 1 true true true).2.queues[0]?).getD
      []).count 0 = 1 := by
  refine ⟨by decide, by decide, by decide, by decide⟩

/-- Witness for the amended C8 on an empty 8-core system, affinity 4
(core 2), created from core 1, kernel entry point 64. -/
theorem c8_witness :
    (task_create ⟨List.replicate 8 [], []⟩ false 64 5 4 1 true true true).1 = some 0 ∧
    stateAtM (task_create ⟨List.replicate 8 [], []⟩ false 64 5 4 1 true true true).2 0
      = some TState.READY ∧
    (((task_create ⟨List.replicate 8 [], []⟩ false 64 5 4 1 true true true).2.queues[
      targetCore 4 1]?).getD []).count 0 = 1 := by
  have h := c8_task_create_enqueues_once ⟨List.replicate 8 [], []⟩ 64 5 4 1
    (by intro q hqm t ht; simp at hqm; rw [hqm] at ht; cases ht)
    (by decide) (by decide) (by decide)
  exact ⟨h.1, h.2.1, h.2.2.2.1⟩

/-! ## mmu_map and the page-table walker (src/kernel/kernel/mmu.c)

A 4-level table with 4 KB granules.  Each level is a 512-entry array whose
VALID entries point to the next level; it is modelled as an association
list from index (0..511) to subtable, presence meaning the entry has
PTE_VALID set (upper-level entries installed by the walker are always
VALID|TABLE).  A leaf L3 entry packs `phys | attr`; since phys is
4096-aligned and the attribute bits occupy bit positions 0..11 and 53..55,
the packing is injective and the model stores the pair (phys, attr),
where phys is the fresh-allocation counter value standing for the kmalloc
result (kmalloc returns pairwise distinct live addresses; every
allocation, page-table levels included, ticks the counter, and the oracle
`ok` is consulted at the counter value).  On an allocation failure
mmu_walk_pte returns NULL; intermediate tables it may already have
installed contain no leaf entries, so returning the pre-walk table is
leaf-equivalent. -/

def idx0 (va : Nat) : Nat := va >>> 39 &&& 511

def idx1 (va : Nat) : Nat := va >>> 30 &&& 511

def idx2 (va : Nat) : Nat := va >>> 21 &&& 511

def idx3 (va : Nat) : Nat := va >>> 12 &&& 511

/-- The page-table position a virtual address resolves to. -/
def pageOf (va : Nat) : Nat × Nat × Nat × Nat := (idx0 va, idx1 va, idx2 va, idx3 va)

def alLookup (k : Nat) : List (Nat × α) → Option α
  | [] => none
  | (k', v) :: rest => if k' = k then some v else alLookup k rest

def alInsert (k : Nat) (v : α) : List (Nat × α) → List (Nat × α)
  | [] => [(k, v)]
  | (k', v') :: rest => if k' = k then (k, v) :: rest else (k', v') :: alInsert k v rest

def alModify (k : Nat) (f : α → α) : List (Nat × α) → List (Nat × α)
  | [] => []
  | (k', v) :: rest => if k' = k then (k, f v) :: rest else (k', v) :: alModify k f rest

structure PTE where
  phys : Nat
  attr : Nat
deriving DecidableEq

abbrev L3Tab := List (Nat × PTE)

abbrev L2Tab := List (Nat × L3Tab)

abbrev L1Tab := List (Nat × L2Tab)

abbrev L0Tab := List (Nat × L1Tab)

instance : DecidableEq L3Tab := inferInstance

instance : DecidableEq L2Tab := inferInstance

set_option maxHeartbeats 1000000 in
instance : DecidableEq L1Tab := inferInstance

set_option maxHeartbeats 1000000 in
instance : DecidableEq L0Tab := inferInstance

/-- A task address space: the L0 table plus the fresh-allocation counter. -/
structure AS where
  l0 : L0Tab
  nextPhys : Nat

instance : DecidableEq AS := fun a b =>
  decidable_of_iff (a.l0 = b.l0 ∧ a.nextPhys = b.nextPhys) (by
    cases a
    cases b
    simp [AS.mk.injEq])

def PTE_PAGE : Nat := 2

def PTE_AF : Nat := 2 ^ 10

def PTE_SH_INNER : Nat := 3 * 2 ^ 8

def PTE_USER : Nat := 2 ^ 6

def PTE_UXN : Nat := 2 ^ 54

def PROT_WRITE : Nat := 2

def PROT_EXEC : Nat := 4

/-- The default entry mmu_walk_pte installs at a missing L3 slot:
page | PTE_VALID | PTE_PAGE | PTE_AF | PTE_SH_INNER | PTE_USER | PTE_RW. -/
def defaultAttr : Nat :=
  PTE_VALID ||| PTE_PAGE ||| PTE_AF ||| PTE_SH_INNER ||| PTE_USER ||| PTE_RW

/-- L3 step of mmu_walk_pte with create=1: a slot whose PTE_VALID bit is
clear (a guard entry, or an empty slot) is treated as missing — a fresh
physical page is allocated and a default RW entry installed over it. -/
def walkL3 (ok : Nat → Bool) (nx : Nat) (l3 : L3Tab) (va : Nat) : Option (L3Tab × Nat) :=
  match alLookup (idx3 va) l3 with
  | some e =>
    if e.attr.testBit 0 then some (l3, nx)
    else if ok nx then some (alInsert (idx3 va) ⟨nx, defaultAttr⟩ l3, nx + 1) else none
  | none =>
    if ok nx then some (alInsert (idx3 va) ⟨nx, defaultAttr⟩ l3, nx + 1) else none

def walkL2 (ok : Nat → Bool) (nx : Nat) (l2 : L2Tab) (va : Nat) : Option (L2Tab × Nat) :=
  match alLookup (idx2 va) l2 with
  | some l3 =>
    match walkL3 ok nx l3 va with
    | some (l3', nx') => some (alInsert (idx2 va) l3' l2, nx')
    | none => none
  | none =>
    if ok nx then
      match walkL3 ok (nx + 1) [] va with
      | some (l3', nx') => some (alInsert (idx2 va) l3' l2, nx')
      | none => none
    else none

def walkL1 (ok : Nat → Bool) (nx : Nat) (l1 : L1Tab) (va : Nat) : Option (L1Tab × Nat) :=
  match alLookup (idx1 va) l1 with
  | some l2 =>
    match walkL2 ok nx l2 va with
    | some (l2', nx') => some (alInsert (idx1 va) l2' l1, nx')
    | none => none
  | none =>
    if ok nx then
      match walkL2 ok (nx + 1) [] va with
      | some (l2', nx') => some (alInsert (idx1 va) l2' l1, nx')
      | none => none
    else none

def walkL0 (ok : Nat → Bool) (nx : Nat) (l0 : L0Tab) (va : Nat) : Option (L0Tab × Nat) :=
  match alLookup (idx0 va) l0 with
  | some l1 =>
    match walkL1 ok nx l1 va with
    | some (l1', nx') => some (alInsert (idx0 va) l1' l0, nx')
    | none => none
  | none =>
    if ok nx then
      match walkL1 ok (nx + 1) [] va with
      | some (l1', nx') => some (alInsert (idx0 va) l1' l0, nx')
      | none => none
    else none

def mmu_walk_pte (ok : Nat → Bool) (a : AS) (va : Nat) : Option AS :=
  match walkL0 ok a.nextPhys a.l0 va with
  | some (l0', nx') => some ⟨l0', nx'⟩
  | none => none

/-- Overwrite the L3 leaf slot of va (the `*pte = phys | attr` store at
the end of each mmu_map iteration); the path to it exists after a
successful walk. -/
def setLeaf (a : AS) (va : Nat) (e : PTE) : AS :=
  { a with l0 := alModify (idx0 va) (alModify (idx1 va) (alModify (idx2 va)
      (alInsert (idx3 va) e))) a.l0 }

def leafAt (a : AS) (va : Nat) : Option PTE :=
  match alLookup (idx0 va) a.l0 with
  | none => none
  | some l1 =>
    match alLookup (idx1 va) l1 with
    | none => none
    | some l2 =>
      match alLookup (idx2 va) l2 with
      | none => none
      | some l3 => alLookup (idx3 va) l3

def baseAttr : Nat := PTE_VALID ||| PTE_PAGE ||| PTE_AF ||| PTE_SH_INNER ||| PTE_USER

def attrW (prot : Nat) : Nat :=
  if prot &&& PROT_WRITE ≠ 0 then baseAttr ||| PTE_RW else baseAttr

def attrX (prot : Nat) : Nat :=
  if prot &&& PROT_EXEC = 0 then attrW prot ||| PTE_UXN else attrW prot

/-- The attribute word one mmu_map iteration stores: the prot-dependent
bits, with PTE_VALID cleared (attr &= ~PTE_VALID) when guard is set. -/
def mapAttr (prot : Nat) (guard : Bool) : Nat :=
  if guard then andNot64 (attrX prot) PTE_VALID else attrX prot

/-- The per-page loop of mmu_map: walk (allocating levels as needed), then
allocate the page's physical frame, then store phys | attr.  On failure
the pages already mapped in earlier iterations stay mapped (the C code
returns -1 without rollback). -/
def mmu_map_loop (ok : Nat → Bool) (prot : Nat) (guard : Bool) :
    Nat → Nat → AS → Bool × AS
  | 0, _, a => (true, a)
  | n + 1, va, a =>
    match mmu_walk_pte ok a va with
    | none => (false, a)
    | some a1 =>
      if ok a1.nextPhys then
        mmu_map_loop ok prot guard n (va + 4096)
          (setLeaf { a1 with nextPhys := a1.nextPhys + 1 } va ⟨a1.nextPhys, mapAttr prot guard⟩)
      else (false, a1)

/-- mmu_map(task, virt, size, prot, guard): `uint64_t end = virt + size`
wraps mod 2^64, and the loop `for (; virt < end; virt += PAGE_SIZE)` runs
zero times — returning 0, success, with nothing mapped — when the wrapped
end is at or below virt; otherwise it runs once per page of [virt, end).
(For the page-aligned ranges mmu_map is called on, virt and end are both
page-aligned whenever end is above virt, so the loop variable steps
exactly onto end and never itself wraps past 2^64.) -/
def mmu_map (ok : Nat → Bool) (a : AS) (virt size prot : Nat) (guard : Bool) : Bool × AS :=
  mmu_map_loop ok prot guard
    (if virt < (virt + size) % 2 ^ 64 then ((virt + size) % 2 ^ 64 - virt + 4095) / 4096 else 0)
    virt a

/-- Every leaf frame is below the allocation counter. -/
def Dominated (a : AS) : Prop :=
  ∀ va e, leafAt a va = some e → e.phys < a.nextPhys

/-- No two distinct page-table positions map the same physical frame. -/
def NoAlias (a : AS) : Prop :=
  ∀ va1 va2 e1 e2, leafAt a va1 = some e1 → leafAt a va2 = some e2 →
    pageOf va1 ≠ pageOf va2 → e1.phys ≠ e2.phys

/-- The intermediate levels of va's path all exist. -/
def pathEx (a : AS) (va : Nat) : Prop :=
  ∃ l1 l2 l3, alLookup (idx0 va) a.l0 = some l1 ∧
    alLookup (idx1 va) l1 = some l2 ∧ alLookup (idx2 va) l2 = some l3

theorem alLookup_alInsert_self (k : Nat) (v : α) :
    ∀ l : List (Nat × α), alLookup k (alInsert k v l) = some v := by
  intro l
  induction l with
  | nil => simp [alInsert, alLookup]
  | cons p rest ih =>
    obtain ⟨k', v'⟩ := p
    by_cases h : k' = k
    · simp [alInsert, alLookup, h]
    · simp only [alInsert, if_neg h]
      simp only [alLookup, if_neg h]
      exact ih

theorem alLookup_alInsert_other (k j : Nat) (v : α) (hne : j ≠ k) :
    ∀ l : List (Nat × α), alLookup j (alInsert k v l) = alLookup j l := by
  intro l
  induction l with
  | nil =>
    show (if k = j then some v else none) = none
    rw [if_neg (fun h => hne h.symm)]
  | cons p rest ih =>
    obtain ⟨k', v'⟩ := p
    by_cases h : k' = k
    · subst h
      unfold alInsert
      rw [if_pos rfl]
      show (if k' = j then some v else alLookup j rest) =
        if k' = j then some v' else alLookup j rest
      rw [if_neg (fun hx : k' = j => hne hx.symm), if_neg (fun hx : k' = j => hne hx.symm)]
    · unfold alInsert
      rw [if_neg h]
      show (if k' = j then some v' else alLookup j (alInsert k v rest)) =
        if k' = j then some v' else alLookup j rest
      by_cases hj : k' = j
      · rw [if_pos hj, if_pos hj]
      · rw [if_neg hj, if_neg hj, ih]

theorem alLookup_alModify_self (k : Nat) (f : α → α) :
    ∀ l : List (Nat × α), alLookup k (alModify k f l) = (alLookup k l).map f := by
  intro l
  induction l with
  | nil => simp [alModify, alLookup]
  | cons p rest ih =>
    obtain ⟨k', v'⟩ := p
    by_cases h : k' = k
    · simp [alModify, alLookup, h]
    · simp only [alModify, if_neg h]
      simp only [alLookup, if_neg h]
      exact ih

theorem alLookup_alModify_other (k j : Nat) (f : α → α) (hne : j ≠ k) :
    ∀ l : List (Nat × α), alLookup j (alModify k f l) = alLookup j l := by
  intro l
  induction l with
  | nil => rfl
  | cons p rest ih =>
    obtain ⟨k', v'⟩ := p
    by_cases h : k' = k
    · subst h
      unfold alModify
      rw [if_pos rfl]
      show (if k' = j then some (f v') else alLookup j rest) =
        if k' = j then some v' else alLookup j rest
      rw [if_neg (fun hx : k' = j => hne hx.symm), if_neg (fun hx : k' = j => hne hx.symm)]
    · unfold alModify
      rw [if_neg h]
      show (if k' = j then some v' else alLookup j (alModify k f rest)) =
        if k' = j then some v' else alLookup j rest
      by_cases hj : k' = j
      · rw [if_pos hj, if_pos hj]
      · rw [if_neg hj, if_neg hj, ih]

/-- leafAt depends only on the page-table position of the address. -/
theorem leafAt_congr (a : AS) {va vb : Nat} (h : pageOf vb = pageOf va) :
    leafAt a vb = leafAt a va := by
  unfold pageOf at h
  simp only [Prod.mk.injEq] at h
  obtain ⟨h0, h1, h2, h3⟩ := h
  unfold leafAt
  rw [h0, h1, h2, h3]

def leafL2 (l2 : L2Tab) (va : Nat) : Option PTE :=
  match alLookup (idx2 va) l2 with
  | none => none
  | some l3 => alLookup (idx3 va) l3

def leafL1 (l1 : L1Tab) (va : Nat) : Option PTE :=
  match alLookup (idx1 va) l1 with
  | none => none
  | some l2 => leafL2 l2 va

theorem leafAt_eq_leafL1 (a : AS) (va : Nat) :
    leafAt a va =
      match alLookup (idx0 va) a.l0 with
      | none => none
      | some l1 => leafL1 l1 va := by
  unfold leafAt leafL1 leafL2
  cases alLookup (idx0 va) a.l0 <;> rfl

def pathEx2 (l2 : L2Tab) (va : Nat) : Prop := ∃ l3, alLookup (idx2 va) l2 = some l3

def pathEx1 (l1 : L1Tab) (va : Nat) : Prop :=
  ∃ l2, alLookup (idx1 va) l1 = some l2 ∧ pathEx2 l2 va

theorem walkL3_eq_some (ok : Nat → Bool) (nx : Nat) {l3 : L3Tab} (va : Nat) {e : PTE}
    (hl : alLookup (idx3 va) l3 = some e) :
    walkL3 ok nx l3 va =
      if e.attr.testBit 0 then some (l3, nx)
      else if ok nx then some (alInsert (idx3 va) ⟨nx, defaultAttr⟩ l3, nx + 1) else none := by
  unfold walkL3
  rw [hl]

theorem walkL3_eq_none (ok : Nat → Bool) (nx : Nat) {l3 : L3Tab} (va : Nat)
    (hl : alLookup (idx3 va) l3 = none) :
    walkL3 ok nx l3 va =
      if ok nx then some (alInsert (idx3 va) ⟨nx, defaultAttr⟩ l3, nx + 1) else none := by
  unfold walkL3
  rw [hl]

theorem walkL3_spec (ok : Nat → Bool) (nx : Nat) (l3 : L3Tab) (va : Nat)
    {l3' : L3Tab} {nx' : Nat} (h : walkL3 ok nx l3 va = some (l3', nx')) :
    nx ≤ nx' ∧
    (∃ e, alLookup (idx3 va) l3' = some e ∧
      (alLookup (idx3 va) l3 = some e ∨ (nx ≤ e.phys ∧ e.phys < nx'))) ∧
    (∀ j, j ≠ idx3 va → alLookup j l3' = alLookup j l3) := by
  cases hl : alLookup (idx3 va) l3 with
  | some e =>
    rw [walkL3_eq_some ok nx va hl] at h
    by_cases ht : e.attr.testBit 0
    · rw [if_pos ht] at h
      have hp := Option.some.inj h
      rw [Prod.mk.injEq] at hp
      obtain ⟨rfl, rfl⟩ := hp
      exact ⟨le_refl _, ⟨e, hl, Or.inl rfl⟩, fun j _ => rfl⟩
    · rw [if_neg ht] at h
      by_cases hk : ok nx
      · rw [if_pos hk] at h
        have hp := Option.some.inj h
        rw [Prod.mk.injEq] at hp
        obtain ⟨rfl, rfl⟩ := hp
        refine ⟨Nat.le_succ _, ⟨⟨nx, defaultAttr⟩, alLookup_alInsert_self _ _ _,
          Or.inr ⟨le_refl _, Nat.lt_succ_self _⟩⟩, ?_⟩
        intro j hj
        exact alLookup_alInsert_other _ _ _ hj _
      · rw [if_neg hk] at h
        exact Option.noConfusion h
  | none =>
    rw [walkL3_eq_none ok nx va hl] at h
    by_cases hk : ok nx
    · rw [if_pos hk] at h
      have hp := Option.some.inj h
      rw [Prod.mk.injEq] at hp
      obtain ⟨rfl, rfl⟩ := hp
      refine ⟨Nat.le_succ _, ⟨⟨nx, defaultAttr⟩, alLookup_alInsert_self _ _ _,
        Or.inr ⟨le_refl _, Nat.lt_succ_self _⟩⟩, ?_⟩
      intro j hj
      exact alLookup_alInsert_other _ _ _ hj _
    · rw [if_neg hk] at h
      exact Option.noConfusion h

theorem walkL2_eq_some (ok : Nat → Bool) (nx : Nat) {l2 : L2Tab} (va : Nat) {l3 : L3Tab}
    (hl : alLookup (idx2 va) l2 = some l3) :
    walkL2 ok nx l2 va =
      match walkL3 ok nx l3 va with
      | some (l3', nx') => some (alInsert (idx2 va) l3' l2, nx')
      | none => none := by
  unfold walkL2
  rw [hl]

theorem walkL2_eq_none (ok : Nat → Bool) (nx : Nat) {l2 : L2Tab} (va : Nat)
    (hl : alLookup (idx2 va) l2 = none) :
    walkL2 ok nx l2 va =
      if ok nx then
        match walkL3 ok (nx + 1) [] va with
        | some (l3', nx') => some (alInsert (idx2 va) l3' l2, nx')
        | none => none
      else none := by
  unfold walkL2
  rw [hl]

theorem walkL2_spec (ok : Nat → Bool) (nx : Nat) (l2 : L2Tab) (va : Nat)
    {l2' : L2Tab} {nx' : Nat} (h : walkL2 ok nx l2 va = some (l2', nx')) :
    nx ≤ nx' ∧
    pathEx2 l2' va ∧
    (∃ e, leafL2 l2' va = some e ∧
      (leafL2 l2 va = some e ∨ (nx ≤ e.phys ∧ e.phys < nx'))) ∧
    (∀ vb, ¬(idx2 vb = idx2 va ∧ idx3 vb = idx3 va) → leafL2 l2' vb = leafL2 l2 vb) := by
  cases hl : alLookup (idx2 va) l2 with
  | some l3 =>
    rw [walkL2_eq_some ok nx va hl] at h
    cases hw : walkL3 ok nx l3 va with
    | none =>
      rw [hw] at h
      exact Option.noConfusion h
    | some r =>
      obtain ⟨l3x, nxx⟩ := r
      rw [hw] at h
      have h2 : some ((alInsert (idx2 va) l3x l2 : L2Tab), nxx) = some (l2', nx') := h
      have hp := Option.some.inj h2
      rw [Prod.mk.injEq] at hp
      obtain ⟨rfl, rfl⟩ := hp
      obtain ⟨hle, ⟨e, he, hor⟩, hpres⟩ := walkL3_spec ok nx l3 va hw
      refine ⟨hle, ⟨l3x, alLookup_alInsert_self _ _ _⟩, ⟨e, ?_, ?_⟩, ?_⟩
      · unfold leafL2
        rw [alLookup_alInsert_self]
        exact he
      · rcases hor with hold | hfresh
        · refine Or.inl ?_
          unfold leafL2
          rw [hl]
          exact hold
        · exact Or.inr hfresh
      · intro vb hvb
        by_cases h2eq : idx2 vb = idx2 va
        · have h3ne : idx3 vb ≠ idx3 va := fun h3 => hvb ⟨h2eq, h3⟩
          unfold leafL2
          rw [h2eq, alLookup_alInsert_self, hl]
          exact hpres _ h3ne
        · unfold leafL2
          rw [alLookup_alInsert_other _ _ _ h2eq]
  | none =>
    rw [walkL2_eq_none ok nx va hl] at h
    by_cases hk : ok nx
    · rw [if_pos hk] at h
      cases hw : walkL3 ok (nx + 1) [] va with
      | none =>
        rw [hw] at h
        exact Option.noConfusion h
      | some r =>
        obtain ⟨l3x, nxx⟩ := r
        rw [hw] at h
        have h2 : some ((alInsert (idx2 va) l3x l2 : L2Tab), nxx) = some (l2', nx') := h
        have hp := Option.some.inj h2
        rw [Prod.mk.injEq] at hp
        obtain ⟨rfl, rfl⟩ := hp
        obtain ⟨hle, ⟨e, he, hor⟩, hpres⟩ := walkL3_spec ok (nx + 1) [] va hw
        refine ⟨by omega, ⟨l3x, alLookup_alInsert_self _ _ _⟩, ⟨e, ?_, ?_⟩, ?_⟩
        · unfold leafL2
          rw [alLookup_alInsert_self]
          exact he
        · rcases hor with hold | hfresh
          · exact Option.noConfusion hold
          · exact Or.inr ⟨by omega, hfresh.2⟩
        · intro vb hvb
          by_cases h2eq : idx2 vb = idx2 va
          · have h3ne : idx3 vb ≠ idx3 va := fun h3 => hvb ⟨h2eq, h3⟩
            unfold leafL2
            rw [h2eq, alLookup_alInsert_self, hl]
            show alLookup (idx3 vb) l3x = none
            rw [hpres _ h3ne]
            rfl
          · unfold leafL2
            rw [alLookup_alInsert_other _ _ _ h2eq]
    · rw [if_neg hk] at h
      exact Option.noConfusion h

theorem walkL1_eq_some (ok : Nat → Bool) (nx : Nat) {l1 : L1Tab} (va : Nat) {l2 : L2Tab}
    (hl : alLookup (idx1 va) l1 = some l2) :
    walkL1 ok nx l1 va =
      match walkL2 ok nx l2 va with
      | some (l2', nx') => some (alInsert (idx1 va) l2' l1, nx')
      | none => none := by
  unfold walkL1
  rw [hl]

theorem walkL1_eq_none (ok : Nat → Bool) (nx : Nat) {l1 : L1Tab} (va : Nat)
    (hl : alLookup (idx1 va) l1 = none) :
    walkL1 ok nx l1 va =
      if ok nx then
        match walkL2 ok (nx + 1) [] va with
        | some (l2', nx') => some (alInsert (idx1 va) l2' l1, nx')
        | none => none
      else none := by
  unfold walkL1
  rw [hl]

theorem walkL1_spec (ok : Nat → Bool) (nx : Nat) (l1 : L1Tab) (va : Nat)
    {l1' : L1Tab} {nx' : Nat} (h : walkL1 ok nx l1 va = some (l1', nx')) :
    nx ≤ nx' ∧
    pathEx1 l1' va ∧
    (∃ e, leafL1 l1' va = some e ∧
      (leafL1 l1 va = some e ∨ (nx ≤ e.phys ∧ e.phys < nx'))) ∧
    (∀ vb, ¬(idx1 vb = idx1 va ∧ idx2 vb = idx2 va ∧ idx3 vb = idx3 va) →
      leafL1 l1' vb = leafL1 l1 vb) := by
  cases hl : alLookup (idx1 va) l1 with
  | some l2 =>
    rw [walkL1_eq_some ok nx va hl] at h
    cases hw : walkL2 ok nx l2 va with
    | none =>
      rw [hw] at h
      exact Option.noConfusion h
    | some r =>
      obtain ⟨l2x, nxx⟩ := r
      rw [hw] at h
      have h2 : some ((alInsert (idx1 va) l2x l1 : L1Tab), nxx) = some (l1', nx') := h
      have hp := Option.some.inj h2
      rw [Prod.mk.injEq] at hp
      obtain ⟨rfl, rfl⟩ := hp
      obtain ⟨hle, hpath, ⟨e, he, hor⟩, hpres⟩ := walkL2_spec ok nx l2 va hw
      refine ⟨hle, ⟨l2x, alLookup_alInsert_self _ _ _, hpath⟩, ⟨e, ?_, ?_⟩, ?_⟩
      · unfold leafL1
        rw [alLookup_alInsert_self]
        exact he
      · rcases hor with hold | hfresh
        · refine Or.inl ?_
          unfold leafL1
          rw [hl]
          exact hold
        · exact Or.inr hfresh
      · intro vb hvb
        by_cases h1eq : idx1 vb = idx1 va
        · have h23 : ¬(idx2 vb = idx2 va ∧ idx3 vb = idx3 va) :=
            fun hx => hvb ⟨h1eq, hx.1, hx.2⟩
          unfold leafL1
          rw [h1eq, alLookup_alInsert_self, hl]
          exact hpres _ h23
        · unfold leafL1
          rw [alLookup_alInsert_other _ _ _ h1eq]
  | none =>
    rw [walkL1_eq_none ok nx va hl] at h
    by_cases hk : ok nx
    · rw [if_pos hk] at h
      cases hw : walkL2 ok (nx + 1) [] va with
      | none =>
        rw [hw] at h
        exact Option.noConfusion h
      | some r =>
        obtain ⟨l2x, nxx⟩ := r
        rw [hw] at h
        have h2 : some ((alInsert (idx1 va) l2x l1 : L1Tab), nxx) = some (l1', nx') := h
        have hp := Option.some.inj h2
        rw [Prod.mk.injEq] at hp
        obtain ⟨rfl, rfl⟩ := hp
        obtain ⟨hle, hpath, ⟨e, he, hor⟩, hpres⟩ := walkL2_spec ok (nx + 1) ([] : L2Tab) va hw
        refine ⟨by omega, ⟨l2x, alLookup_alInsert_self _ _ _, hpath⟩, ⟨e, ?_, ?_⟩, ?_⟩
        · unfold leafL1
          rw [alLookup_alInsert_self]
          exact he
        · rcases hor with hold | hfresh
          · exact Option.noConfusion hold
          · exact Or.inr ⟨by omega, hfresh.2⟩
        · intro vb hvb
          by_cases h1eq : idx1 vb = idx1 va
          · have h23 : ¬(idx2 vb = idx2 va ∧ idx3 vb = idx3 va) :=
              fun hx => hvb ⟨h1eq, hx.1, hx.2⟩
            unfold leafL1
            rw [h1eq, alLookup_alInsert_self, hl]
            show leafL2 l2x vb = none
            rw [hpres _ h23]
            rfl
          · unfold leafL1
            rw [alLookup_alInsert_other _ _ _ h1eq]
    · rw [if_neg hk] at h
      exact Option.noConfusion h

theorem walkL0_eq_some (ok : Nat → Bool) (nx : Nat) {l0 : L0Tab} (va : Nat) {l1 : L1Tab}
    (hl : alLookup (idx0 va) l0 = some l1) :
    walkL0 ok nx l0 va =
      match walkL1 ok nx l1 va with
      | some (l1', nx') => some (alInsert (idx0 va) l1' l0, nx')
      | none => none := by
  unfold walkL0
  rw [hl]

theorem walkL0_eq_none (ok : Nat → Bool) (nx : Nat) {l0 : L0Tab} (va : Nat)
    (hl : alLookup (idx0 va) l0 = none) :
    walkL0 ok nx l0 va =
      if ok nx then
        match walkL1 ok (nx + 1) [] va with
        | some (l1', nx') => some (alInsert (idx0 va) l1' l0, nx')
        | none => none
      else none := by
  unfold walkL0
  rw [hl]

theorem walkL0_spec (ok : Nat → Bool) (nx : Nat) (l0 : L0Tab) (va : Nat)
    {l0' : L0Tab} {nx' : Nat} (h : walkL0 ok nx l0 va = some (l0', nx')) :
    nx ≤ nx' ∧
    pathEx ⟨l0', nx'⟩ va ∧
    (∃ e, leafAt ⟨l0', nx'⟩ va = some e ∧
      (leafAt ⟨l0, nx⟩ va = some e ∨ (nx ≤ e.phys ∧ e.phys < nx'))) ∧
    (∀ vb, pageOf vb ≠ pageOf va → leafAt ⟨l0', nx'⟩ vb = leafAt ⟨l0, nx⟩ vb) := by
  cases hl : alLookup (idx0 va) l0 with
  | some l1 =>
    rw [walkL0_eq_some ok nx va hl] at h
    cases hw : walkL1 ok nx l1 va with
    | none =>
      rw [hw] at h
      exact Option.noConfusion h
    | some r =>
      obtain ⟨l1x, nxx⟩ := r
      rw [hw] at h
      have h2 : some ((alInsert (idx0 va) l1x l0 : L0Tab), nxx) = some (l0', nx') := h
      have hp := Option.some.inj h2
      rw [Prod.mk.injEq] at hp
      obtain ⟨rfl, rfl⟩ := hp
      obtain ⟨hle, ⟨l2x, hlk2, l3x, hlk3⟩, ⟨e, he, hor⟩, hpres⟩ := walkL1_spec ok nx l1 va hw
      refine ⟨hle, ⟨l1x, l2x, l3x, alLookup_alInsert_self _ _ _, hlk2, hlk3⟩, ⟨e, ?_, ?_⟩, ?_⟩
      · rw [leafAt_eq_leafL1]
        show (match alLookup (idx0 va) (alInsert (idx0 va) l1x l0) with
          | none => none
          | some l1 => leafL1 l1 va) = some e
        rw [alLookup_alInsert_self]
        exact he
      · rcases hor with hold | hfresh
        · refine Or.inl ?_
          rw [leafAt_eq_leafL1]
          show (match alLookup (idx0 va) l0 with
            | none => none
            | some l1 => leafL1 l1 va) = some e
          rw [hl]
          exact hold
        · exact Or.inr hfresh
      · intro vb hvb
        rw [leafAt_eq_leafL1, leafAt_eq_leafL1]
        by_cases h0eq : idx0 vb = idx0 va
        · have h123 : ¬(idx1 vb = idx1 va ∧ idx2 vb = idx2 va ∧ idx3 vb = idx3 va) := by
            intro hx
            apply hvb
            unfold pageOf
            rw [h0eq, hx.1, hx.2.1, hx.2.2]
          show (match alLookup (idx0 vb) (alInsert (idx0 va) l1x l0) with
            | none => none
            | some l1 => leafL1 l1 vb) = _
          rw [h0eq, alLookup_alInsert_self, hl]
          exact hpres _ h123
        · show (match alLookup (idx0 vb) (alInsert (idx0 va) l1x l0) with
            | none => none
            | some l1 => leafL1 l1 vb) = _
          rw [alLookup_alInsert_other _ _ _ h0eq]
  | none =>
    rw [walkL0_eq_none ok nx va hl] at h
    by_cases hk : ok nx
    · rw [if_pos hk] at h
      cases hw : walkL1 ok (nx + 1) [] va with
      | none =>
        rw [hw] at h
        exact Option.noConfusion h
      | some r =>
        obtain ⟨l1x, nxx⟩ := r
        rw [hw] at h
        have h2 : some ((alInsert (idx0 va) l1x l0 : L0Tab), nxx) = some (l0', nx') := h
        have hp := Option.some.inj h2
        rw [Prod.mk.injEq] at hp
        obtain ⟨rfl, rfl⟩ := hp
        obtain ⟨hle, ⟨l2x, hlk2, l3x, hlk3⟩, ⟨e, he, hor⟩, hpres⟩ :=
          walkL1_spec ok (nx + 1) ([] : L1Tab) va hw
        refine ⟨by omega, ⟨l1x, l2x, l3x, alLookup_alInsert_self _ _ _, hlk2, hlk3⟩,
          ⟨e, ?_, ?_⟩, ?_⟩
        · rw [leafAt_eq_leafL1]
          show (match alLookup (idx0 va) (alInsert (idx0 va) l1x l0) with
            | none => none
            | some l1 => leafL1 l1 va) = some e
          rw [alLookup_alInsert_self]
          exact he
        · rcases hor with hold | hfresh
          · exact Option.noConfusion hold
          · exact Or.inr ⟨by omega, hfresh.2⟩
        · intro vb hvb
          rw [leafAt_eq_leafL1, leafAt_eq_leafL1]
          by_cases h0eq : idx0 vb = idx0 va
          · have h123 : ¬(idx1 vb = idx1 va ∧ idx2 vb = idx2 va ∧ idx3 vb = idx3 va) := by
              intro hx
              apply hvb
              unfold pageOf
              rw [h0eq, hx.1, hx.2.1, hx.2.2]
            show (match alLookup (idx0 vb) (alInsert (idx0 va) l1x l0) with
              | none => none
              | some l1 => leafL1 l1 vb) = _
            rw [h0eq, alLookup_alInsert_self, hl]
            show leafL1 l1x vb = none
            rw [hpres _ h123]
            rfl
          · show (match alLookup (idx0 vb) (alInsert (idx0 va) l1x l0) with
              | none => none
              | some l1 => leafL1 l1 vb) = _
            rw [alLookup_alInsert_other _ _ _ h0eq]
    · rw [if_neg hk] at h
      exact Option.noConfusion h

/-- Specification of a successful mmu_walk_pte: the counter is monotone,
va's path and leaf exist afterwards, the leaf is either the old valid
entry or carries a freshly allocated frame, and every other page-table
position is untouched. -/
theorem mmu_walk_pte_spec (ok : Nat → Bool) (a : AS) (va : Nat) {a' : AS}
    (h : mmu_walk_pte ok a va = some a') :
    a.nextPhys ≤ a'.nextPhys ∧
    pathEx a' va ∧
    (∃ e, leafAt a' va = some e ∧
      (leafAt a va = some e ∨ (a.nextPhys ≤ e.phys ∧ e.phys < a'.nextPhys))) ∧
    (∀ vb, pageOf vb ≠ pageOf va → leafAt a' vb = leafAt a vb) := by
  unfold mmu_walk_pte at h
  cases hw : walkL0 ok a.nextPhys a.l0 va with
  | none =>
    rw [hw] at h
    exact Option.noConfusion h
  | some r =>
    obtain ⟨l0x, nxx⟩ := r
    rw [hw] at h
    have h2 : some (AS.mk l0x nxx) = some a' := h
    have hp := Option.some.inj h2
    obtain ⟨hle, hpath, hleaf, hpres⟩ := walkL0_spec ok a.nextPhys a.l0 va hw
    rw [← hp]
    have hax : (⟨a.l0, a.nextPhys⟩ : AS) = a := rfl
    rw [hax] at hleaf hpres
    exact ⟨hle, hpath, hleaf, hpres⟩

theorem setLeaf_nextPhys (a : AS) (va : Nat) (e : PTE) :
    (setLeaf a va e).nextPhys = a.nextPhys := rfl

theorem leafAt_l0some {a : AS} {vb : Nat} {l1 : L1Tab}
    (h : alLookup (idx0 vb) a.l0 = some l1) : leafAt a vb = leafL1 l1 vb := by
  rw [leafAt_eq_leafL1, h]

theorem leafAt_l0none {a : AS} {vb : Nat}
    (h : alLookup (idx0 vb) a.l0 = none) : leafAt a vb = none := by
  rw [leafAt_eq_leafL1, h]

theorem leafL1_some {l1 : L1Tab} {vb : Nat} {l2 : L2Tab}
    (h : alLookup (idx1 vb) l1 = some l2) : leafL1 l1 vb = leafL2 l2 vb := by
  unfold leafL1
  rw [h]

theorem leafL1_none {l1 : L1Tab} {vb : Nat}
    (h : alLookup (idx1 vb) l1 = none) : leafL1 l1 vb = none := by
  unfold leafL1
  rw [h]

theorem leafL2_some {l2 : L2Tab} {vb : Nat} {l3 : L3Tab}
    (h : alLookup (idx2 vb) l2 = some l3) : leafL2 l2 vb = alLookup (idx3 vb) l3 := by
  unfold leafL2
  rw [h]

theorem leafL2_none {l2 : L2Tab} {vb : Nat}
    (h : alLookup (idx2 vb) l2 = none) : leafL2 l2 vb = none := by
  unfold leafL2
  rw [h]

theorem setLeaf_same (a : AS) (va : Nat) (e : PTE) (hp : pathEx a va) :
    leafAt (setLeaf a va e) va = some e := by
  obtain ⟨l1, l2, l3, h0, h1, h2⟩ := hp
  have s0 : alLookup (idx0 va) (setLeaf a va e).l0 =
      some (alModify (idx1 va) (alModify (idx2 va) (alInsert (idx3 va) e)) l1) := by
    show alLookup (idx0 va)
      (alModify (idx0 va) (alModify (idx1 va) (alModify (idx2 va) (alInsert (idx3 va) e)))
        a.l0) = _
    rw [alLookup_alModify_self, h0]
    rfl
  rw [leafAt_l0some s0]
  have s1 : alLookup (idx1 va)
      (alModify (idx1 va) (alModify (idx2 va) (alInsert (idx3 va) e)) l1) =
      some (alModify (idx2 va) (alInsert (idx3 va) e) l2) := by
    rw [alLookup_alModify_self, h1]
    rfl
  rw [leafL1_some s1]
  have s2 : alLookup (idx2 va) (alModify (idx2 va) (alInsert (idx3 va) e) l2) =
      some (alInsert (idx3 va) e l3) := by
    rw [alLookup_alModify_self, h2]
    rfl
  rw [leafL2_some s2]
  exact alLookup_alInsert_self _ _ _

theorem setLeaf_other (a : AS) (va vb : Nat) (e : PTE) (hne : pageOf vb ≠ pageOf va) :
    leafAt (setLeaf a va e) vb = leafAt a vb := by
  by_cases h0 : idx0 vb = idx0 va
  · cases hx0 : alLookup (idx0 vb) a.l0 with
    | none =>
      have s0 : alLookup (idx0 vb) (setLeaf a va e).l0 = none := by
        show alLookup (idx0 vb)
          (alModify (idx0 va) (alModify (idx1 va) (alModify (idx2 va) (alInsert (idx3 va) e)))
            a.l0) = none
        rw [h0, alLookup_alModify_self, ← h0, hx0]
        rfl
      rw [leafAt_l0none s0, leafAt_l0none hx0]
    | some l1 =>
      have s0 : alLookup (idx0 vb) (setLeaf a va e).l0 =
          some (alModify (idx1 va) (alModify (idx2 va) (alInsert (idx3 va) e)) l1) := by
        show alLookup (idx0 vb)
          (alModify (idx0 va) (alModify (idx1 va) (alModify (idx2 va) (alInsert (idx3 va) e)))
            a.l0) = _
        rw [h0, alLookup_alModify_self, ← h0, hx0]
        rfl
      rw [leafAt_l0some s0, leafAt_l0some hx0]
      by_cases h1 : idx1 vb = idx1 va
      · cases hx1 : alLookup (idx1 vb) l1 with
        | none =>
          have s1 : alLookup (idx1 vb)
              (alModify (idx1 va) (alModify (idx2 va) (alInsert (idx3 va) e)) l1) = none := by
            rw [h1, alLookup_alModify_self, ← h1, hx1]
            rfl
          rw [leafL1_none s1, leafL1_none hx1]
        | some l2 =>
          have s1 : alLookup (idx1 vb)
              (alModify (idx1 va) (alModify (idx2 va) (alInsert (idx3 va) e)) l1) =
              some (alModify (idx2 va) (alInsert (idx3 va) e) l2) := by
            rw [h1, alLookup_alModify_self, ← h1, hx1]
            rfl
          rw [leafL1_some s1, leafL1_some hx1]
          by_cases h2 : idx2 vb = idx2 va
          · cases hx2 : alLookup (idx2 vb) l2 with
            | none =>
              have s2 : alLookup (idx2 vb)
                  (alModify (idx2 va) (alInsert (idx3 va) e) l2) = none := by
                rw [h2, alLookup_alModify_self, ← h2, hx2]
                rfl
              rw [leafL2_none s2, leafL2_none hx2]
            | some l3 =>
              have s2 : alLookup (idx2 vb)
                  (alModify (idx2 va) (alInsert (idx3 va) e) l2) =
                  some (alInsert (idx3 va) e l3) := by
                rw [h2, alLookup_alModify_self, ← h2, hx2]
                rfl
              rw [leafL2_some s2, leafL2_some hx2]
              have h3 : idx3 vb ≠ idx3 va := by
                intro h3
                exact hne (by unfold pageOf; rw [h0, h1, h2, h3])
              exact alLookup_alInsert_other _ _ _ h3 _
          · have s2 : alLookup (idx2 vb)
                (alModify (idx2 va) (alInsert (idx3 va) e) l2) =
                alLookup (idx2 vb) l2 := alLookup_alModify_other _ _ _ h2 _
            cases hx2 : alLookup (idx2 vb) l2 with
            | none => rw [leafL2_none (s2.trans hx2), leafL2_none hx2]
            | some l3 => rw [leafL2_some (s2.trans hx2), leafL2_some hx2]
      · have s1 : alLookup (idx1 vb)
            (alModify (idx1 va) (alModify (idx2 va) (alInsert (idx3 va) e)) l1) =
            alLookup (idx1 vb) l1 := alLookup_alModify_other _ _ _ h1 _
        cases hx1 : alLookup (idx1 vb) l1 with
        | none => rw [leafL1_none (s1.trans hx1), leafL1_none hx1]
        | some l2 => rw [leafL1_some (s1.trans hx1), leafL1_some hx1]
  · have s0 : alLookup (idx0 vb) (setLeaf a va e).l0 = alLookup (idx0 vb) a.l0 := by
      show alLookup (idx0 vb)
        (alModify (idx0 va) (alModify (idx1 va) (alModify (idx2 va) (alInsert (idx3 va) e)))
          a.l0) = _
      exact alLookup_alModify_other _ _ _ h0 _
    cases hx0 : alLookup (idx0 vb) a.l0 with
    | none => rw [leafAt_l0none (s0.trans hx0), leafAt_l0none hx0]
    | some l1 => rw [leafAt_l0some (s0.trans hx0), leafAt_l0some hx0]

theorem mapAttr_guard_invalid (prot : Nat) : (mapAttr prot true).testBit 0 = false := by
  unfold mapAttr andNot64 PTE_VALID
  rw [if_pos rfl, Nat.testBit_land]
  have h2 : (2 ^ 64 - 1 - 1).testBit 0 = false := by decide
  rw [h2, Bool.and_false]

theorem mmu_map_loop_succ_none (ok : Nat → Bool) (prot : Nat) (guard : Bool)
    (n va : Nat) (a : AS) (h : mmu_walk_pte ok a va = none) :
    mmu_map_loop ok prot guard (n + 1) va a = (false, a) := by
  unfold mmu_map_loop
  rw [h]

theorem mmu_map_loop_succ_ok (ok : Nat → Bool) (prot : Nat) (guard : Bool)
    (n va : Nat) (a : AS) {a1 : AS} (h : mmu_walk_pte ok a va = some a1)
    (hok : ok a1.nextPhys = true) :
    mmu_map_loop ok prot guard (n + 1) va a =
      mmu_map_loop ok prot guard n (va + 4096)
        (setLeaf { a1 with nextPhys := a1.nextPhys + 1 } va
          ⟨a1.nextPhys, mapAttr prot guard⟩) := by
  conv_lhs => unfold mmu_map_loop
  rw [h]
  show (if ok a1.nextPhys = true then _ else _) = _
  rw [if_pos hok]

theorem mmu_map_loop_succ_fail (ok : Nat → Bool) (prot : Nat) (guard : Bool)
    (n va : Nat) (a : AS) {a1 : AS} (h : mmu_walk_pte ok a va = some a1)
    (hok : ok a1.nextPhys = false) :
    mmu_map_loop ok prot guard (n + 1) va a = (false, a1) := by
  unfold mmu_map_loop
  rw [h]
  show (if ok a1.nextPhys = true then _ else _) = _
  rw [if_neg (by rw [hok]; exact Bool.false_ne_true)]

/-- A successful walk preserves the two address-space invariants: the leaf
it may install is fresh, everything else is untouched. -/
theorem mmu_walk_pte_preserves (ok : Nat → Bool) (a : AS) (va : Nat) {a1 : AS}
    (hw : mmu_walk_pte ok a va = some a1) (hD : Dominated a) (hN : NoAlias a) :
    Dominated a1 ∧ NoAlias a1 := by
  obtain ⟨hle, _, ⟨e0, he0, he0or⟩, hpres⟩ := mmu_walk_pte_spec ok a va hw
  constructor
  · intro vb e h
    by_cases hm : pageOf vb = pageOf va
    · rw [leafAt_congr _ hm, he0] at h
      cases Option.some.inj h
      cases he0or with
      | inl hold => exact Nat.lt_of_lt_of_le (hD va e0 hold) hle
      | inr hfresh => exact hfresh.2
    · rw [hpres vb hm] at h
      exact Nat.lt_of_lt_of_le (hD vb e h) hle
  · intro v1 v2 e1 e2 h1 h2 hne
    by_cases hm1 : pageOf v1 = pageOf va
    · rw [leafAt_congr _ hm1, he0] at h1
      cases Option.some.inj h1
      by_cases hm2 : pageOf v2 = pageOf va
      · exact absurd (hm1.trans hm2.symm) hne
      · rw [hpres v2 hm2] at h2
        cases he0or with
        | inl hold =>
          have h1a : leafAt a v1 = some e0 := by
            rw [leafAt_congr _ hm1]
            exact hold
          exact hN v1 v2 e0 e2 h1a h2 hne
        | inr hfresh =>
          have := hD v2 e2 h2
          omega
    · rw [hpres v1 hm1] at h1
      by_cases hm2 : pageOf v2 = pageOf va
      · rw [leafAt_congr _ hm2, he0] at h2
        cases Option.some.inj h2
        cases he0or with
        | inl hold =>
          have h2a : leafAt a v2 = some e0 := by
            rw [leafAt_congr _ hm2]
            exact hold
          exact hN v1 v2 e1 e0 h1 h2a hne
        | inr hfresh =>
          have := hD v1 e1 h1
          omega
      · rw [hpres v2 hm2] at h2
        exact hN v1 v2 e1 e2 h1 h2 hne

/-- One full mmu_map iteration (walk, frame allocation, leaf store): the
target leaf now carries a fresh frame with the requested attributes, all
other positions keep their pre-iteration entries, and the invariants are
preserved. -/
theorem mmu_map_step_spec (ok : Nat → Bool) (prot : Nat) (guard : Bool)
    (a : AS) (va : Nat) {a1 : AS} (hw : mmu_walk_pte ok a va = some a1) :
    leafAt (setLeaf { a1 with nextPhys := a1.nextPhys + 1 } va
        ⟨a1.nextPhys, mapAttr prot guard⟩) va = some ⟨a1.nextPhys, mapAttr prot guard⟩ ∧
    (∀ vb, pageOf vb ≠ pageOf va →
      leafAt (setLeaf { a1 with nextPhys := a1.nextPhys + 1 } va
        ⟨a1.nextPhys, mapAttr prot guard⟩) vb = leafAt a vb) ∧
    a.nextPhys ≤ a1.nextPhys ∧
    (Dominated a → Dominated (setLeaf { a1 with nextPhys := a1.nextPhys + 1 } va
        ⟨a1.nextPhys, mapAttr prot guard⟩)) ∧
    (Dominated a → NoAlias a → NoAlias (setLeaf { a1 with nextPhys := a1.nextPhys + 1 } va
        ⟨a1.nextPhys, mapAttr prot guard⟩)) := by
  obtain ⟨hle, hpath, _, hpres⟩ := mmu_walk_pte_spec ok a va hw
  have hpath2 : pathEx { a1 with nextPhys := a1.nextPhys + 1 } va := hpath
  have hsame := setLeaf_same { a1 with nextPhys := a1.nextPhys + 1 } va
    ⟨a1.nextPhys, mapAttr prot guard⟩ hpath2
  have hother : ∀ vb, pageOf vb ≠ pageOf va →
      leafAt (setLeaf { a1 with nextPhys := a1.nextPhys + 1 } va
        ⟨a1.nextPhys, mapAttr prot guard⟩) vb = leafAt a vb := by
    intro vb hne
    rw [setLeaf_other _ _ _ _ hne]
    have hup : leafAt { a1 with nextPhys := a1.nextPhys + 1 } vb = leafAt a1 vb := rfl
    rw [hup, hpres vb hne]
  have hnx : (setLeaf { a1 with nextPhys := a1.nextPhys + 1 } va
      ⟨a1.nextPhys, mapAttr prot guard⟩).nextPhys = a1.nextPhys + 1 := rfl
  refine ⟨hsame, hother, hle, ?_, ?_⟩
  · intro hD vb e h
    rw [hnx]
    by_cases hm : pageOf vb = pageOf va
    · rw [leafAt_congr _ hm, hsame] at h
      cases Option.some.inj h
      exact Nat.lt_succ_self _
    · rw [hother vb hm] at h
      have := hD vb e h
      omega
  · intro hD hN v1 v2 e1 e2 h1 h2 hne
    by_cases hm1 : pageOf v1 = pageOf va
    · rw [leafAt_congr _ hm1, hsame] at h1
      cases Option.some.inj h1
      by_cases hm2 : pageOf v2 = pageOf va
      · exact absurd (hm1.trans hm2.symm) hne
      · rw [hother v2 hm2] at h2
        have := hD v2 e2 h2
        show a1.nextPhys ≠ e2.phys
        omega
    · rw [hother v1 hm1] at h1
      by_cases hm2 : pageOf v2 = pageOf va
      · rw [leafAt_congr _ hm2, hsame] at h2
        cases Option.some.inj h2
        have := hD v1 e1 h1
        show e1.phys ≠ a1.nextPhys
        omega
      · rw [hother v2 hm2] at h2
        exact hN v1 v2 e1 e2 h1 h2 hne

/-- The mmu_map page loop preserves the address-space invariants and never
decreases the allocation counter. -/
theorem mmu_map_loop_inv (ok : Nat → Bool) (prot : Nat) (guard : Bool) :
    ∀ n va (a : AS), Dominated a → NoAlias a →
      a.nextPhys ≤ (mmu_map_loop ok prot guard n va a).2.nextPhys ∧
      Dominated (mmu_map_loop ok prot guard n va a).2 ∧
      NoAlias (mmu_map_loop ok prot guard n va a).2 := by
  intro n
  induction n with
  | zero =>
    intro va a hD hN
    exact ⟨Nat.le_refl _, hD, hN⟩
  | succ n ih =>
    intro va a hD hN
    cases hw : mmu_walk_pte ok a va with
    | none =>
      rw [mmu_map_loop_succ_none ok prot guard n va a hw]
      exact ⟨Nat.le_refl _, hD, hN⟩
    | some a1 =>
      cases hok : ok a1.nextPhys with
      | true =>
        rw [mmu_map_loop_succ_ok ok prot guard n va a hw hok]
        obtain ⟨hsame, hother, hle1, hDs, hNs⟩ := mmu_map_step_spec ok prot guard a va hw
        obtain ⟨hle2, hD2, hN2⟩ := ih (va + 4096) _ (hDs hD) (hNs hD hN)
        refine ⟨?_, hD2, hN2⟩
        have hnx : (setLeaf { a1 with nextPhys := a1.nextPhys + 1 } va
            ⟨a1.nextPhys, mapAttr prot guard⟩).nextPhys = a1.nextPhys + 1 := rfl
        rw [hnx] at hle2
        omega
      | false =>
        rw [mmu_map_loop_succ_fail ok prot guard n va a hw hok]
        obtain ⟨hle, _, _, _⟩ := mmu_walk_pte_spec ok a va hw
        obtain ⟨hD1, hN1⟩ := mmu_walk_pte_preserves ok a va hw hD hN
        exact ⟨hle, hD1, hN1⟩

/-- If the mmu_map loop succeeds, every page of the range ends with a leaf
entry carrying the requested attribute word, and every other position is
either untouched or also holds such an entry. -/
theorem mmu_map_loop_guard (ok : Nat → Bool) (prot : Nat) (guard : Bool) :
    ∀ n va (a : AS), (mmu_map_loop ok prot guard n va a).1 = true →
      (∀ k, k < n → ∃ c, leafAt (mmu_map_loop ok prot guard n va a).2 (va + 4096 * k) =
        some ⟨c, mapAttr prot guard⟩) ∧
      (∀ vb, leafAt (mmu_map_loop ok prot guard n va a).2 vb = leafAt a vb ∨
        ∃ c, leafAt (mmu_map_loop ok prot guard n va a).2 vb =
          some ⟨c, mapAttr prot guard⟩) := by
  intro n
  induction n with
  | zero =>
    intro va a _
    exact ⟨fun k hk => absurd hk (Nat.not_lt_zero k), fun vb => Or.inl rfl⟩
  | succ n ih =>
    intro va a hsucc
    cases hw : mmu_walk_pte ok a va with
    | none =>
      rw [mmu_map_loop_succ_none ok prot guard n va a hw] at hsucc
      simp at hsucc
    | some a1 =>
      cases hok : ok a1.nextPhys with
      | true =>
        rw [mmu_map_loop_succ_ok ok prot guard n va a hw hok] at hsucc ⊢
        obtain ⟨hsame, hother, _, _, _⟩ := mmu_map_step_spec ok prot guard a va hw
        obtain ⟨ihrange, ihall⟩ := ih (va + 4096)
          (setLeaf { a1 with nextPhys := a1.nextPhys + 1 } va
            ⟨a1.nextPhys, mapAttr prot guard⟩) hsucc
        refine ⟨?_, ?_⟩
        · intro k hk
          cases k with
          | zero =>
            cases ihall va with
            | inl hkeep =>
              refine ⟨a1.nextPhys, ?_⟩
              have harith : va + 4096 * 0 = va := by omega
              rw [harith, hkeep]
              exact hsame
            | inr hfresh =>
              obtain ⟨c, hc⟩ := hfresh
              refine ⟨c, ?_⟩
              have harith : va + 4096 * 0 = va := by omega
              rw [harith]
              exact hc
          | succ k =>
            have harith : va + 4096 * (k + 1) = (va + 4096) + 4096 * k := by omega
            rw [harith]
            exact ihrange k (Nat.lt_of_succ_lt_succ hk)
        · intro vb
          cases ihall vb with
          | inl hkeep =>
            by_cases hm : pageOf vb = pageOf va
            · refine Or.inr ⟨a1.nextPhys, ?_⟩
              rw [hkeep, leafAt_congr _ hm]
              exact hsame
            · refine Or.inl ?_
              rw [hkeep]
              exact hother vb hm
          | inr hfresh => exact Or.inr hfresh
      | false =>
        rw [mmu_map_loop_succ_fail ok prot guard n va a hw hok] at hsucc
        simp at hsucc

/-- C5 counterexample: after mapping one writable page at
virt = 2^64 - 8192 (page-aligned), a guard mapping over the page-aligned
range [2^64 - 8192, +12288) wraps end = virt + size to 4096 ≤ virt, so
the per-page loop body never runs: mmu_map returns success (here: result
flag true and the address space unchanged), yet the old leaf at virt is
still present with PTE_VALID set — an access to the "guarded" range does
not fault, refuting the unconditional claim. -/
theorem c5_counterexample :
    (mmu_map (fun _ => true)
        (mmu_map (fun _ => true) ⟨[], 0⟩ (2 ^ 64 - 8192) 4096 3 false).2
        (2 ^ 64 - 8192) 12288 0 true).1 = true ∧
    (mmu_map (fun _ => true)
        (mmu_map (fun _ => true) ⟨[], 0⟩ (2 ^ 64 - 8192) 4096 3 false).2
        (2 ^ 64 - 8192) 12288 0 true).2 =
      (mmu_map (fun _ => true) ⟨[], 0⟩ (2 ^ 64 - 8192) 4096 3 false).2 ∧
    leafAt (mmu_map (fun _ => true)
        (mmu_map (fun _ => true) ⟨[], 0⟩ (2 ^ 64 - 8192) 4096 3 false).2
        (2 ^ 64 - 8192) 12288 0 true).2 (2 ^ 64 - 8192) =
      some ⟨4, attrX 3⟩ ∧
    (attrX 3).testBit 0 = true := by
  exact ⟨by decide, by decide, by decide, by decide⟩

/-- C5 (amended): when virt + size does not wrap modulo 2^64, mmu_map
with guard=1 leaves every leaf entry of the mapped range present but with
PTE_VALID clear, so any access faults; when virt + size wraps, end =
virt + size computed in uint64_t is at or below virt, the loop maps
nothing, and mmu_map returns success.  mmu_map (with any guard value)
preserves the no-overlap invariant of the address space: distinct
page-table positions never map the same physical frame, each frame being
below the allocation counter.  The invariants hold of the empty address
space and are preserved by every call, hence hold after any sequence of
mmu_map calls. -/
theorem c5_mmu_map_guard_faults_and_never_aliases (ok : Nat → Bool) (a : AS)
    (virt size prot : Nat) (guard : Bool) (hD : Dominated a) (hN : NoAlias a) :
    (Dominated (mmu_map ok a virt size prot guard).2 ∧
      NoAlias (mmu_map ok a virt size prot guard).2) ∧
    (virt + size < 2 ^ 64 → (mmu_map ok a virt size prot true).1 = true →
      ∀ k, k < (size + 4095) / 4096 →
        ∃ e, leafAt (mmu_map ok a virt size prot true).2 (virt + 4096 * k) = some e ∧
          e.attr.testBit 0 = false) := by
  constructor
  · obtain ⟨_, hD2, hN2⟩ :=
      mmu_map_loop_inv ok prot guard
        (if virt < (virt + size) % 2 ^ 64 then ((virt + size) % 2 ^ 64 - virt + 4095) / 4096
          else 0) virt a hD hN
    exact ⟨hD2, hN2⟩
  · intro hnw hsucc k hk
    have hmod : (virt + size) % 2 ^ 64 = virt + size := Nat.mod_eq_of_lt hnw
    by_cases hlt : virt < (virt + size) % 2 ^ 64
    · have hcEq : mmu_map ok a virt size prot true =
          mmu_map_loop ok prot true ((size + 4095) / 4096) virt a := by
        unfold mmu_map
        rw [if_pos hlt, hmod]
        have harith : virt + size - virt = size := by omega
        rw [harith]
      rw [hcEq] at hsucc ⊢
      obtain ⟨hrange, _⟩ :=
        mmu_map_loop_guard ok prot true ((size + 4095) / 4096) virt a hsucc
      obtain ⟨c, hc⟩ := hrange k hk
      exact ⟨⟨c, mapAttr prot true⟩, hc, mapAttr_guard_invalid prot⟩
    · exfalso
      rw [hmod] at hlt
      have hsz : size = 0 := by omega
      rw [hsz] at hk
      have hz : (0 + 4095) / 4096 = 0 := by decide
      rw [hz] at hk
      exact Nat.not_lt_zero k hk

theorem c5_witness :
    (Dominated ⟨[], 0⟩ ∧ NoAlias ⟨[], 0⟩) ∧
    ((Dominated (mmu_map (fun _ => true) ⟨[], 0⟩ 0 8192 3 true).2 ∧
      NoAlias (mmu_map (fun _ => true) ⟨[], 0⟩ 0 8192 3 true).2) ∧
     ((0 : Nat) + 8192 < 2 ^ 64 →
      (mmu_map (fun _ => true) ⟨[], 0⟩ 0 8192 3 true).1 = true →
      ∀ k, k < (8192 + 4095) / 4096 →
        ∃ e, leafAt (mmu_map (fun _ => true) ⟨[], 0⟩ 0 8192 3 true).2 (0 + 4096 * k) =
          some e ∧ e.attr.testBit 0 = false)) := by
  have hD0 : Dominated (⟨[], 0⟩ : AS) := by
    intro va e h
    simp [leafAt, alLookup] at h
  have hN0 : NoAlias (⟨[], 0⟩ : AS) := by
    intro v1 v2 e1 e2 h1 h2 _
    simp [leafAt, alLookup] at h1
  exact ⟨⟨hD0, hN0⟩,
    c5_mmu_map_guard_faults_and_never_aliases (fun _ => true) ⟨[], 0⟩ 0 8192 3 true hD0 hN0⟩

/-! ## Heap allocator (malloc.c)

First-fit free-list allocator with coalescing.  A heap state is the list
of blocks in physical order — each block keyed by its byte offset into
the 128 MB heap array — together with the free list as the list of
offsets of free blocks in list order (head = free_list_head) and the
heap_allocated counter.  sizeof(block_hdr_t) = 40, ALIGN_UP to 48
(= HDR); MIN_PAYLOAD = 48 + 16 = 64.  Model pointers are block offsets
(the C returns block + 48 and kfree subtracts 48 again: a fixed
bijection the model elides).  next_phys(b) = (char*)b + b->size is the
physically following block, i.e. the next list entry; b->prev_phys is
the previous list entry (the code keeps both consistent at every split
and merge). -/

def HEAP_SIZE : Nat := 134217728

def HDR : Nat := 48

def MIN_PAYLOAD : Nat := 64

/-- ALIGN_UP(n) = ((n)+15) & ~(size_t)15 over 64-bit size_t. -/
def align16 (n : Nat) : Nat := ((n + 15) % 2 ^ 64) &&& (2 ^ 64 - 16)

structure Block where
  bsize : Nat
  bfree : Bool
deriving DecidableEq

structure Heap where
  blocks : List (Nat × Block)
  freeOrder : List Nat
  heapAllocated : Nat
deriving DecidableEq

/-- malloc_init(): a single free block covering the whole heap. -/
def initHeap : Heap := ⟨[(0, ⟨HEAP_SIZE, true⟩)], [0], 0⟩

def blockAt (p : Nat) : List (Nat × Block) → Option Block
  | [] => none
  | (q, b) :: rest => if q = p then some b else blockAt p rest

def freeAt (blocks : List (Nat × Block)) (p : Nat) : Bool :=
  match blockAt p blocks with
  | some b => b.bfree
  | none => false

def sizeAt (blocks : List (Nat × Block)) (p : Nat) : Nat :=
  match blockAt p blocks with
  | some b => b.bsize
  | none => 0

/-- The first-fit scan `while (b && b->size < need) b = b->next_free`,
returning the chosen block's offset and size. -/
def findFit (blocks : List (Nat × Block)) (need : Nat) : List Nat → Option (Nat × Nat)
  | [] => none
  | p :: ps =>
    match blockAt p blocks with
    | some b => if need ≤ b.bsize then some (p, b.bsize) else findFit blocks need ps
    | none => findFit blocks need ps

/-- The split-and-mark part of kmalloc on the chosen block: if the block
can hold need + MIN_PAYLOAD it is split (remainder at offset p + need,
free), and the chosen block becomes allocated with size need; otherwise
the whole block is allocated. -/
def allocAt (p need : Nat) : List (Nat × Block) → List (Nat × Block)
  | [] => []
  | (q, b) :: rest =>
    if q = p then
      if need + MIN_PAYLOAD ≤ b.bsize then
        (q, ⟨need, false⟩) :: (q + need, ⟨b.bsize - need, true⟩) :: rest
      else (q, ⟨b.bsize, false⟩) :: rest
    else (q, b) :: allocAt p need rest

/-- The body of kmalloc after the empty-free-list re-init check, acting
on the (re-initialised or original) heap h0 with the aligned need. -/
def kmallocCore (h0 : Heap) (need : Nat) : Option Nat × Heap :=
  match findFit h0.blocks need h0.freeOrder with
  | none => (none, h0)
  | some (p, s) =>
    (some p,
      { blocks := allocAt p need h0.blocks
        freeOrder :=
          (if need + MIN_PAYLOAD ≤ s then [p + need] else []) ++ h0.freeOrder.erase p
        heapAllocated := h0.heapAllocated + (if need + MIN_PAYLOAD ≤ s then need else s) })

/-- kmalloc(size): NULL for size 0; malloc_init() re-runs when the free
list is empty; need = ALIGN_UP(sizeof(block_hdr_t)) + ALIGN_UP(size) is
computed in size_t and wraps mod 2^64.  For size in [2^64-63, 2^64-16]
the wrapped need is 0, 16 or 32 — below the 48-byte header — and the C
split writes the remainder header at (char*)b + need, inside the chosen
block's own header, aliasing the two headers byte-for-byte; the
assoc-list model keeps them as separate entries at overlapping offsets
(see c7_need_wrap_corruption), so every kmalloc theorem below assumes
HDR ≤ (HDR + align16 size) % 2^64, excluding exactly that window. -/
def kmallocM (h : Heap) (size : Nat) : Option Nat × Heap :=
  if size = 0 then (none, h)
  else kmallocCore (if h.freeOrder.isEmpty then initHeap else h) ((HDR + align16 size) % 2 ^ 64)

/-- b->free = 1. -/
def markFreeAt (p : Nat) : List (Nat × Block) → List (Nat × Block)
  | [] => []
  | (q, b) :: rest => if q = p then (q, ⟨b.bsize, true⟩) :: rest else (q, b) :: markFreeAt p rest

/-- coalesce_forward(b): absorb the physically next block when it is free
(checked via its header magic and the heap_end bound — i.e. when a next
block exists at all); also returns the offsets removed from the free list. -/
def mergeForwardAt (p : Nat) : List (Nat × Block) → List (Nat × Block) × List Nat
  | [] => ([], [])
  | [(q, b)] => ([(q, b)], [])
  | (q, b) :: (q2, b2) :: rest =>
    if q = p then
      if b2.bfree then ((q, ⟨b.bsize + b2.bsize, b.bfree⟩) :: rest, [q2])
      else ((q, b) :: (q2, b2) :: rest, [])
    else
      ((q, b) :: (mergeForwardAt p ((q2, b2) :: rest)).1,
        (mergeForwardAt p ((q2, b2) :: rest)).2)

/-- The backward-merge step of kfree: if b->prev_phys is free it absorbs
b; returns the new blocks, the offsets removed from the free list, and
the offset finally handed to free_list_insert. -/
def mergeBackwardAt (p : Nat) : List (Nat × Block) → List (Nat × Block) × List Nat × Nat
  | [] => ([], [], p)
  | [x] => ([x], [], p)
  | (q, b) :: (q2, b2) :: rest =>
    if q2 = p then
      if b.bfree then ((q, ⟨b.bsize + b2.bsize, b.bfree⟩) :: rest, [q], q)
      else ((q, b) :: (q2, b2) :: rest, [], p)
    else
      ((q, b) :: (mergeBackwardAt p ((q2, b2) :: rest)).1,
        (mergeBackwardAt p ((q2, b2) :: rest)).2.1,
        (mergeBackwardAt p ((q2, b2) :: rest)).2.2)

def kfreeM (h : Heap) (ptr : Nat) : Heap :=
  match blockAt ptr h.blocks with
  | none => h
  | some b =>
    if b.bfree then h
    else
      { blocks := (mergeBackwardAt ptr (mergeForwardAt ptr (markFreeAt ptr h.blocks)).1).1
        freeOrder :=
          (mergeBackwardAt ptr (mergeForwardAt ptr (markFreeAt ptr h.blocks)).1).2.2 ::
            (((mergeForwardAt ptr (markFreeAt ptr h.blocks)).2 ++
              (mergeBackwardAt ptr (mergeForwardAt ptr (markFreeAt ptr h.blocks)).1).2.1).foldl
                (fun fo q => fo.erase q) h.freeOrder)
        heapAllocated := h.heapAllocated - b.bsize }

def kcallocM (h : Heap) (nmemb size : Nat) : Option Nat × Heap :=
  if nmemb = 0 || size = 0 then (none, h)
  else
    let total := nmemb * size % 2 ^ 64
    if total / nmemb ≠ size then (none, h) else kmallocM h total

/-- heap_stats' free-byte count: the sum over free-list blocks of
b->size - ALIGN_UP(sizeof(block_hdr_t)). -/
def freeBytes (h : Heap) : Nat :=
  (h.freeOrder.map (fun p => sizeAt h.blocks p - HDR)).sum

def sizeSum (l : List (Nat × Block)) : Nat := (l.map (fun x => x.2.bsize)).sum

/-- The blocks tile the heap contiguously starting at `off`: each block's
key is its byte offset. -/
def tiledFrom : Nat → List (Nat × Block) → Bool
  | _, [] => true
  | off, (q, b) :: rest => (q == off) && tiledFrom (off + b.bsize) rest

/-- No two physically adjacent blocks are both free. -/
def NoAdjFree (blocks : List (Nat × Block)) : Prop :=
  List.Chain' (fun a b => ¬(a.2.bfree = true ∧ b.2.bfree = true)) blocks

/-- Heap well-formedness: blocks tile the heap, every block can hold its
header, the free list holds exactly the offsets of free blocks with no
duplicates, and no two adjacent blocks are both free. -/
def WFheap (h : Heap) : Prop :=
  tiledFrom 0 h.blocks = true ∧
  (∀ x ∈ h.blocks, HDR ≤ x.2.bsize) ∧
  (∀ q ∈ h.freeOrder, freeAt h.blocks q = true) ∧
  (∀ x ∈ h.blocks, x.2.bfree = true → x.1 ∈ h.freeOrder) ∧
  NoAdjFree h.blocks ∧
  h.freeOrder.Nodup

/-- Heaps reachable from malloc_init by kmalloc/kfree/kcalloc calls whose
size_t need does not wrap below the header size: request sizes in
[2^64-63, 2^64-16] are excluded, since for them the C writes the split
header inside the chosen block's own header and the block structure this
relation ranges over is destroyed (see c7_need_wrap_corruption). -/
inductive HReach : Heap → Prop where
  | init : HReach initHeap
  | malloc (h : Heap) (n : Nat) : HDR ≤ (HDR + align16 n) % 2 ^ 64 →
      HReach h → HReach (kmallocM h n).2
  | free (h : Heap) (p : Nat) : HReach h → HReach (kfreeM h p)
  | calloc (h : Heap) (n m : Nat) : HDR ≤ (HDR + align16 (n * m % 2 ^ 64)) % 2 ^ 64 →
      HReach h → HReach (kcallocM h n m).2

theorem blockAt_append_of_ne (p : Nat) (M : List (Nat × Block)) :
    ∀ L : List (Nat × Block), (∀ x ∈ L, x.1 ≠ p) →
      blockAt p (L ++ M) = blockAt p M := by
  intro L
  induction L with
  | nil => intro _; rfl
  | cons x L ih =>
    intro hL
    obtain ⟨q, b⟩ := x
    show (if q = p then some b else blockAt p (L ++ M)) = _
    rw [if_neg (hL (q, b) (List.mem_cons_self _ _)), ih (fun y hy => hL y (List.mem_cons_of_mem _ hy))]

theorem blockAt_none_of_keys_ne (p : Nat) :
    ∀ l : List (Nat × Block), (∀ x ∈ l, x.1 ≠ p) → blockAt p l = none := by
  intro l
  induction l with
  | nil => intro _; rfl
  | cons x l ih =>
    intro hl
    obtain ⟨q, b⟩ := x
    show (if q = p then some b else blockAt p l) = none
    rw [if_neg (hl (q, b) (List.mem_cons_self _ _)), ih (fun y hy => hl y (List.mem_cons_of_mem _ hy))]

theorem blockAt_decomp (p : Nat) :
    ∀ blocks : List (Nat × Block), ∀ {b : Block}, blockAt p blocks = some b →
      ∃ L R, blocks = L ++ (p, b) :: R ∧ ∀ x ∈ L, x.1 ≠ p := by
  intro blocks
  induction blocks with
  | nil => intro b h; exact Option.noConfusion h
  | cons x rest ih =>
    intro b h
    obtain ⟨q, b'⟩ := x
    have h2 : (if q = p then some b' else blockAt p rest) = some b := h
    by_cases hq : q = p
    · rw [if_pos hq] at h2
      cases Option.some.inj h2
      exact ⟨[], rest, by rw [hq]; rfl, fun y hy => absurd hy (List.not_mem_nil y)⟩
    · rw [if_neg hq] at h2
      obtain ⟨L, R, hsplit, hL⟩ := ih h2
      refine ⟨(q, b') :: L, R, by rw [hsplit]; rfl, ?_⟩
      intro y hy
      cases List.mem_cons.mp hy with
      | inl he => rw [he]; exact hq
      | inr hm => exact hL y hm

theorem findFit_spec (blocks : List (Nat × Block)) (need : Nat) :
    ∀ fo : List Nat, ∀ {p S : Nat}, findFit blocks need fo = some (p, S) →
      ∃ b, blockAt p blocks = some b ∧ b.bsize = S ∧ need ≤ S ∧ p ∈ fo := by
  intro fo
  induction fo with
  | nil => intro p S h; exact Option.noConfusion h
  | cons q ps ih =>
    intro p S h
    have h2 : (match blockAt q blocks with
      | some b => if need ≤ b.bsize then some (q, b.bsize) else findFit blocks need ps
      | none => findFit blocks need ps) = some (p, S) := h
    cases hb : blockAt q blocks with
    | some b =>
      rw [hb] at h2
      have h3 : (if need ≤ b.bsize then some (q, b.bsize) else findFit blocks need ps) =
          some (p, S) := h2
      by_cases hle : need ≤ b.bsize
      · rw [if_pos hle] at h3
        obtain ⟨hq, hS⟩ := Prod.mk.inj (Option.some.inj h3)
        refine ⟨b, ?_, ?_, ?_, ?_⟩
        · rw [← hq]; exact hb
        · exact hS
        · rw [← hS]; exact hle
        · rw [← hq]; exact List.mem_cons_self _ _
      · rw [if_neg hle] at h3
        obtain ⟨b', hb', hS, hle', hmem⟩ := ih h3
        exact ⟨b', hb', hS, hle', List.mem_cons_of_mem _ hmem⟩
    | none =>
      rw [hb] at h2
      have h3 : findFit blocks need ps = some (p, S) := h2
      obtain ⟨b', hb', hS, hle', hmem⟩ := ih h3
      exact ⟨b', hb', hS, hle', List.mem_cons_of_mem _ hmem⟩

theorem allocAt_decomp (p need : Nat) (b : Block) (R : List (Nat × Block)) :
    ∀ L : List (Nat × Block), (∀ x ∈ L, x.1 ≠ p) →
      allocAt p need (L ++ (p, b) :: R) =
        L ++ (if need + MIN_PAYLOAD ≤ b.bsize then
          (p, ⟨need, false⟩) :: (p + need, ⟨b.bsize - need, true⟩) :: R
        else (p, ⟨b.bsize, false⟩) :: R) := by
  intro L
  induction L with
  | nil =>
    intro _
    show (if p = p then _ else _) = _
    rw [if_pos rfl]
    exact (List.nil_append _).symm
  | cons x L ih =>
    intro hL
    obtain ⟨q, c⟩ := x
    show (if q = p then _ else (q, c) :: allocAt p need (L ++ (p, b) :: R)) = _
    rw [if_neg (hL (q, c) (List.mem_cons_self _ _)), ih (fun y hy => hL y (List.mem_cons_of_mem _ hy))]
    by_cases hs : need + MIN_PAYLOAD ≤ b.bsize
    · rw [if_pos hs]
      rfl
    · rw [if_neg hs]
      rfl

theorem markFreeAt_decomp (p : Nat) (b : Block) (R : List (Nat × Block)) :
    ∀ L : List (Nat × Block), (∀ x ∈ L, x.1 ≠ p) →
      markFreeAt p (L ++ (p, b) :: R) = L ++ (p, ⟨b.bsize, true⟩) :: R := by
  intro L
  induction L with
  | nil =>
    intro _
    show (if p = p then _ else _) = _
    rw [if_pos rfl]
    exact (List.nil_append _).symm
  | cons x L ih =>
    intro hL
    obtain ⟨q, c⟩ := x
    show (if q = p then _ else (q, c) :: markFreeAt p (L ++ (p, b) :: R)) = _
    rw [if_neg (hL (q, c) (List.mem_cons_self _ _)), ih (fun y hy => hL y (List.mem_cons_of_mem _ hy))]
    rfl

theorem mergeForwardAt_cons (p : Nat) (x y : Nat × Block) (rest : List (Nat × Block))
    (hx : x.1 ≠ p) :
    mergeForwardAt p (x :: y :: rest) =
      ((x :: (mergeForwardAt p (y :: rest)).1), (mergeForwardAt p (y :: rest)).2) := by
  obtain ⟨q, b⟩ := x
  obtain ⟨q2, b2⟩ := y
  show (if q = p then _ else _) = _
  rw [if_neg hx]

theorem mergeForwardAt_decomp_some (p : Nat) (b : Block) (q3 : Nat) (b3 : Block)
    (R2 : List (Nat × Block)) :
    ∀ L : List (Nat × Block), (∀ x ∈ L, x.1 ≠ p) →
      mergeForwardAt p (L ++ (p, b) :: (q3, b3) :: R2) =
        (if b3.bfree then (L ++ (p, ⟨b.bsize + b3.bsize, b.bfree⟩) :: R2, [q3])
         else (L ++ (p, b) :: (q3, b3) :: R2, [])) := by
  intro L
  induction L with
  | nil =>
    intro _
    simp only [List.nil_append]
    show (if p = p then _ else _) = _
    rw [if_pos rfl]
  | cons x L ih =>
    intro hL
    have hx : x.1 ≠ p := hL x (List.mem_cons_self _ _)
    have hrest := ih (fun y hy => hL y (List.mem_cons_of_mem _ hy))
    simp only [List.cons_append]
    cases L with
    | nil =>
      simp only [List.nil_append] at hrest ⊢
      rw [mergeForwardAt_cons p x (p, b) ((q3, b3) :: R2) hx, hrest]
      cases b3.bfree <;> rfl
    | cons z L' =>
      simp only [List.cons_append] at hrest ⊢
      rw [mergeForwardAt_cons p x z (L' ++ (p, b) :: (q3, b3) :: R2) hx, hrest]
      cases b3.bfree <;> rfl

theorem mergeForwardAt_decomp_last (p : Nat) (b : Block) :
    ∀ L : List (Nat × Block), (∀ x ∈ L, x.1 ≠ p) →
      mergeForwardAt p (L ++ [(p, b)]) = (L ++ [(p, b)], []) := by
  intro L
  induction L with
  | nil =>
    intro _
    rfl
  | cons x L ih =>
    intro hL
    have hx : x.1 ≠ p := hL x (List.mem_cons_self _ _)
    have hrest := ih (fun y hy => hL y (List.mem_cons_of_mem _ hy))
    simp only [List.cons_append]
    cases L with
    | nil =>
      simp only [List.nil_append] at hrest ⊢
      rw [mergeForwardAt_cons p x (p, b) [] hx, hrest]
    | cons z L' =>
      simp only [List.cons_append] at hrest ⊢
      rw [mergeForwardAt_cons p x z (L' ++ [(p, b)]) hx, hrest]

theorem mergeBackwardAt_cons (p : Nat) (x y : Nat × Block) (rest : List (Nat × Block))
    (hy : y.1 ≠ p) :
    mergeBackwardAt p (x :: y :: rest) =
      ((x :: (mergeBackwardAt p (y :: rest)).1), (mergeBackwardAt p (y :: rest)).2.1,
        (mergeBackwardAt p (y :: rest)).2.2) := by
  obtain ⟨q, b⟩ := x
  obtain ⟨q2, b2⟩ := y
  show (if q2 = p then _ else _) = _
  rw [if_neg hy]

theorem mergeBackwardAt_id (p : Nat) :
    ∀ l : List (Nat × Block), (∀ x ∈ l, x.1 ≠ p) → mergeBackwardAt p l = (l, [], p) := by
  intro l
  induction l with
  | nil => intro _; rfl
  | cons x l ih =>
    intro hl
    cases l with
    | nil => rfl
    | cons y l' =>
      have hy : y.1 ≠ p := hl y (List.mem_cons_of_mem _ (List.mem_cons_self _ _))
      rw [mergeBackwardAt_cons p x y l' hy,
        ih (fun z hz => hl z (List.mem_cons_of_mem _ hz))]

theorem mergeBackwardAt_decomp (p : Nat) (qa : Nat) (ba : Block) (b : Block)
    (R : List (Nat × Block)) :
    ∀ L0 : List (Nat × Block), (∀ x ∈ L0, x.1 ≠ p) → qa ≠ p →
      mergeBackwardAt p (L0 ++ (qa, ba) :: (p, b) :: R) =
        (if ba.bfree then (L0 ++ (qa, ⟨ba.bsize + b.bsize, ba.bfree⟩) :: R, [qa], qa)
         else (L0 ++ (qa, ba) :: (p, b) :: R, [], p)) := by
  intro L0
  induction L0 with
  | nil =>
    intro _ hqa
    simp only [List.nil_append]
    show (if p = p then _ else _) = _
    rw [if_pos rfl]
  | cons x L ih =>
    intro hL hqa
    have hrest := ih (fun y hy => hL y (List.mem_cons_of_mem _ hy)) hqa
    simp only [List.cons_append]
    cases L with
    | nil =>
      simp only [List.nil_append] at hrest ⊢
      rw [mergeBackwardAt_cons p x (qa, ba) ((p, b) :: R) hqa, hrest]
      cases ba.bfree <;> rfl
    | cons z L' =>
      have hz : z.1 ≠ p := hL z (List.mem_cons_of_mem _ (List.mem_cons_self _ _))
      simp only [List.cons_append] at hrest ⊢
      rw [mergeBackwardAt_cons p x z (L' ++ (qa, ba) :: (p, b) :: R) hz, hrest]
      cases ba.bfree <;> rfl

theorem sizeSum_nil : sizeSum [] = 0 := rfl

theorem sizeSum_cons (x : Nat × Block) (l : List (Nat × Block)) :
    sizeSum (x :: l) = x.2.bsize + sizeSum l := rfl

theorem sizeSum_append (L M : List (Nat × Block)) :
    sizeSum (L ++ M) = sizeSum L + sizeSum M := by
  induction L with
  | nil => simp [sizeSum_nil, sizeSum]
  | cons x L ih => rw [List.cons_append, sizeSum_cons, sizeSum_cons, ih, Nat.add_assoc]

theorem tiledFrom_cons (off : Nat) (q : Nat) (b : Block) (rest : List (Nat × Block)) :
    tiledFrom off ((q, b) :: rest) = true ↔
      q = off ∧ tiledFrom (off + b.bsize) rest = true := by
  show ((q == off) && tiledFrom (off + b.bsize) rest) = true ↔ _
  rw [Bool.and_eq_true, beq_iff_eq]

theorem tiledFrom_append (M : List (Nat × Block)) :
    ∀ (L : List (Nat × Block)) (off : Nat),
      tiledFrom off (L ++ M) = true ↔
        (tiledFrom off L = true ∧ tiledFrom (off + sizeSum L) M = true) := by
  intro L
  induction L with
  | nil =>
    intro off
    simp [tiledFrom, sizeSum_nil]
  | cons x L ih =>
    intro off
    obtain ⟨q, b⟩ := x
    rw [List.cons_append, tiledFrom_cons, tiledFrom_cons, ih, sizeSum_cons]
    constructor
    · rintro ⟨hq, hL, hM⟩
      refine ⟨⟨hq, hL⟩, ?_⟩
      rw [show off + (b.bsize + sizeSum L) = off + b.bsize + sizeSum L from by omega]
      exact hM
    · rintro ⟨⟨hq, hL⟩, hM⟩
      refine ⟨hq, hL, ?_⟩
      rw [show off + b.bsize + sizeSum L = off + (b.bsize + sizeSum L) from by omega]
      exact hM

theorem tiled_key_lower (off : Nat) :
    ∀ l : List (Nat × Block), tiledFrom off l = true → ∀ x ∈ l, off ≤ x.1 := by
  intro l
  induction l generalizing off with
  | nil => intro _ x hx; exact absurd hx (List.not_mem_nil x)
  | cons y rest ih =>
    intro ht x hx
    obtain ⟨q, b⟩ := y
    obtain ⟨hq, hrest⟩ := (tiledFrom_cons off q b rest).mp ht
    cases List.mem_cons.mp hx with
    | inl he =>
      have h1 : x.1 = q := by rw [he]
      omega
    | inr hm => exact Nat.le_trans (Nat.le_add_right off b.bsize) (ih (off + b.bsize) hrest x hm)

theorem tiled_key_upper (off : Nat) :
    ∀ l : List (Nat × Block), tiledFrom off l = true →
      ∀ x ∈ l, x.1 + x.2.bsize ≤ off + sizeSum l := by
  intro l
  induction l generalizing off with
  | nil => intro _ x hx; exact absurd hx (List.not_mem_nil x)
  | cons y rest ih =>
    intro ht x hx
    obtain ⟨q, b⟩ := y
    obtain ⟨hq, hrest⟩ := (tiledFrom_cons off q b rest).mp ht
    rw [sizeSum_cons]
    have h3 : ((q, b) : Nat × Block).2.bsize = b.bsize := rfl
    cases List.mem_cons.mp hx with
    | inl he =>
      have h1 : x.1 = q := by rw [he]
      have h2 : x.2.bsize = b.bsize := by rw [he]
      omega
    | inr hm =>
      have := ih (off + b.bsize) hrest x hm
      omega

/-- In a tiled heap where every block holds its header, keys strictly
before the block at offset p are < p, keys after are ≥ p + its size, and
no key hits the interior of a block. -/
theorem tiled_no_interior (L : List (Nat × Block)) (p : Nat) (b : Block)
    (R : List (Nat × Block)) (htile : tiledFrom 0 (L ++ (p, b) :: R) = true)
    (hsz : ∀ x ∈ L ++ (p, b) :: R, HDR ≤ x.2.bsize) (r : Nat) (hr1 : p < r)
    (hr2 : r < p + b.bsize) : blockAt r (L ++ (p, b) :: R) = none := by
  obtain ⟨htL, htM⟩ := (tiledFrom_append _ L 0).mp htile
  obtain ⟨hp, htR⟩ := (tiledFrom_cons _ p b R).mp htM
  apply blockAt_none_of_keys_ne
  intro x hx
  cases List.mem_append.mp hx with
  | inl hm =>
    have hup := tiled_key_upper 0 L htL x hm
    have hs : HDR ≤ x.2.bsize := hsz x (List.mem_append.mpr (Or.inl hm))
    have : x.1 + HDR ≤ sizeSum L := by omega
    rw [hp] at hr1
    show x.1 ≠ r
    unfold HDR at this
    omega
  | inr hm =>
    cases List.mem_cons.mp hm with
    | inl he =>
      rw [he]
      show p ≠ r
      omega
    | inr hm2 =>
      have hlo := tiled_key_lower (0 + sizeSum L + b.bsize) R htR x hm2
      rw [hp] at hr2
      show x.1 ≠ r
      omega

theorem blockAt_append_cases (q : Nat) (M : List (Nat × Block)) :
    ∀ L : List (Nat × Block), blockAt q (L ++ M) =
      (match blockAt q L with
       | some c => some c
       | none => blockAt q M) := by
  intro L
  induction L with
  | nil => rfl
  | cons x L ih =>
    obtain ⟨k, c⟩ := x
    show (if k = q then some c else blockAt q (L ++ M)) = _
    by_cases hk : k = q
    · rw [if_pos hk]
      show _ = (match (if k = q then some c else blockAt q L) with
        | some c => some c
        | none => blockAt q M)
      rw [if_pos hk]
    · rw [if_neg hk, ih]
      show _ = (match (if k = q then some c else blockAt q L) with
        | some c => some c
        | none => blockAt q M)
      rw [if_neg hk]

theorem blockAt_append_left {q : Nat} {L : List (Nat × Block)} {c : Block}
    (h : blockAt q L = some c) (M : List (Nat × Block)) :
    blockAt q (L ++ M) = some c := by
  rw [blockAt_append_cases, h]

/-- What a successful first-fit kmalloc does to the block list, in fully
decomposed form. -/
theorem kmalloc_decomp (h0 : Heap) (need : Nat) {p S : Nat}
    (hfind : findFit h0.blocks need h0.freeOrder = some (p, S)) :
    ∃ b L R, blockAt p h0.blocks = some b ∧ b.bsize = S ∧ need ≤ S ∧
      p ∈ h0.freeOrder ∧ h0.blocks = L ++ (p, b) :: R ∧ (∀ x ∈ L, x.1 ≠ p) ∧
      allocAt p need h0.blocks =
        L ++ (if need + MIN_PAYLOAD ≤ b.bsize then
          (p, ⟨need, false⟩) :: (p + need, ⟨b.bsize - need, true⟩) :: R
        else (p, ⟨b.bsize, false⟩) :: R) := by
  obtain ⟨b, hb, hbsz, hneedS, hpfo⟩ := findFit_spec h0.blocks need h0.freeOrder hfind
  obtain ⟨L, R, hsplit, hL⟩ := blockAt_decomp p h0.blocks hb
  refine ⟨b, L, R, hb, hbsz, by omega, hpfo, hsplit, hL, ?_⟩
  rw [hsplit]
  exact allocAt_decomp p need b R L hL

theorem freeAt_eq {blocks : List (Nat × Block)} {q : Nat} {c : Block}
    (h : blockAt q blocks = some c) : freeAt blocks q = c.bfree := by
  unfold freeAt
  rw [h]

theorem freeAt_congr {bl1 bl2 : List (Nat × Block)} {q : Nat}
    (h : blockAt q bl1 = blockAt q bl2) : freeAt bl1 q = freeAt bl2 q := by
  unfold freeAt
  rw [h]

theorem freeAt_eq_none {blocks : List (Nat × Block)} {q : Nat}
    (h : blockAt q blocks = none) : freeAt blocks q = false := by
  unfold freeAt
  rw [h]

theorem blockAt_decomp_self (p : Nat) (b : Block) (L R : List (Nat × Block))
    (hL : ∀ x ∈ L, x.1 ≠ p) : blockAt p (L ++ (p, b) :: R) = some b := by
  rw [blockAt_append_cases, blockAt_none_of_keys_ne p L hL]
  show (if p = p then some b else blockAt p R) = some b
  rw [if_pos rfl]

theorem WF_alloc_split (h0 : Heap) (need p : Nat) (b : Block) (L R : List (Nat × Block))
    (A : Nat) (hWF : WFheap h0) (hneed : HDR ≤ need)
    (hblocks : h0.blocks = L ++ (p, b) :: R) (hL : ∀ x ∈ L, x.1 ≠ p)
    (hpfo : p ∈ h0.freeOrder) (hsp : need + MIN_PAYLOAD ≤ b.bsize) :
    WFheap ⟨L ++ (p, ⟨need, false⟩) :: (p + need, ⟨b.bsize - need, true⟩) :: R,
      (p + need) :: h0.freeOrder.erase p, A⟩ := by
  obtain ⟨htile, hszs, hfo2free, hfree2fo, hchain, hnodup⟩ := hWF
  rw [hblocks] at htile hszs hchain
  have h48 : HDR = 48 := rfl
  have h64 : MIN_PAYLOAD = 64 := rfl
  obtain ⟨htL, htM⟩ := (tiledFrom_append _ L 0).mp htile
  obtain ⟨hp, htR⟩ := (tiledFrom_cons _ p b R).mp htM
  have hbfree : b.bfree = true := by
    have h3 := hfo2free p hpfo
    rw [hblocks, freeAt_eq (blockAt_decomp_self p b L R hL)] at h3
    exact h3
  have hkeysL : ∀ x ∈ L, x.1 + HDR ≤ p := by
    intro x hx
    have h1 := tiled_key_upper 0 L htL x hx
    have h2 := hszs x (List.mem_append.mpr (Or.inl hx))
    omega
  have hkeysR : ∀ x ∈ R, p + b.bsize ≤ x.1 := by
    intro x hx
    have h1 := tiled_key_lower (0 + sizeSum L + b.bsize) R htR x hx
    omega
  have hnointerior : blockAt (p + need) (L ++ (p, b) :: R) = none :=
    tiled_no_interior L p b R htile hszs (p + need) (by omega) (by omega)
  have hLne : ∀ x ∈ L, x.1 ≠ p + need := by
    intro x hx
    have := hkeysL x hx
    omega
  refine ⟨?_, ?_, ?_, ?_, ?_, ?_⟩
  · show tiledFrom 0 (L ++ (p, ⟨need, false⟩) :: (p + need, ⟨b.bsize - need, true⟩) :: R) = true
    refine (tiledFrom_append _ L 0).mpr ⟨htL, ?_⟩
    refine (tiledFrom_cons _ _ _ _).mpr ⟨by omega, ?_⟩
    refine (tiledFrom_cons _ _ _ _).mpr ⟨by show p + need = 0 + sizeSum L + need; omega, ?_⟩
    show tiledFrom (0 + sizeSum L + need + (b.bsize - need)) R = true
    have heq : 0 + sizeSum L + need + (b.bsize - need) = 0 + sizeSum L + b.bsize := by omega
    rw [heq]
    exact htR
  · intro x hx
    cases List.mem_append.mp hx with
    | inl hm => exact hszs x (List.mem_append.mpr (Or.inl hm))
    | inr hm =>
      cases List.mem_cons.mp hm with
      | inl he =>
        have h1 : x.2.bsize = need := by rw [he]
        omega
      | inr hm2 =>
        cases List.mem_cons.mp hm2 with
        | inl he =>
          have h1 : x.2.bsize = b.bsize - need := by rw [he]
          omega
        | inr hm3 =>
          exact hszs x (List.mem_append.mpr (Or.inr (List.mem_cons_of_mem _ hm3)))
  · intro q hq
    cases List.mem_cons.mp hq with
    | inl he =>
      rw [he]
      have hba : blockAt (p + need)
          (L ++ (p, ⟨need, false⟩) :: (p + need, ⟨b.bsize - need, true⟩) :: R) =
          some ⟨b.bsize - need, true⟩ := by
        rw [blockAt_append_cases, blockAt_none_of_keys_ne _ L hLne]
        show (if p = p + need then _ else if p + need = p + need then _ else _) = _
        rw [if_neg (by omega), if_pos rfl]
      rw [freeAt_eq hba]
    | inr hm =>
      have hqfo : q ∈ h0.freeOrder := List.mem_of_mem_erase hm
      have hqp : q ≠ p := by
        intro he
        rw [he] at hm
        exact hnodup.not_mem_erase hm
      have hfree := hfo2free q hqfo
      rw [hblocks] at hfree
      cases hql : blockAt q L with
      | some c =>
        rw [freeAt_eq (blockAt_append_left hql _)] at hfree
        rw [freeAt_eq (blockAt_append_left hql _)]
        exact hfree
      | none =>
        have hold : blockAt q (L ++ (p, b) :: R) = blockAt q R := by
          rw [blockAt_append_cases, hql]
          show (if p = q then some b else blockAt q R) = _
          rw [if_neg (fun he => hqp he.symm)]
        rw [freeAt_congr hold] at hfree
        by_cases hq2 : q = p + need
        · have hba : blockAt q
              (L ++ (p, ⟨need, false⟩) :: (p + need, ⟨b.bsize - need, true⟩) :: R) =
              some ⟨b.bsize - need, true⟩ := by
            rw [blockAt_append_cases, hql]
            show (if p = q then _ else if p + need = q then _ else _) = _
            rw [if_neg (fun he => hqp he.symm), if_pos hq2.symm]
          rw [freeAt_eq hba]
        · have hnew : blockAt q
              (L ++ (p, ⟨need, false⟩) :: (p + need, ⟨b.bsize - need, true⟩) :: R) =
              blockAt q R := by
            rw [blockAt_append_cases, hql]
            show (if p = q then _ else if p + need = q then _ else _) = _
            rw [if_neg (fun he => hqp he.symm), if_neg (fun he => hq2 he.symm)]
          rw [freeAt_congr hnew]
          exact hfree
  · intro x hx hxfree
    cases List.mem_append.mp hx with
    | inl hm =>
      have hold := hfree2fo x (by rw [hblocks]; exact List.mem_append.mpr (Or.inl hm)) hxfree
      exact List.mem_cons_of_mem _ ((List.mem_erase_of_ne (hL x hm)).mpr hold)
    | inr hm =>
      cases List.mem_cons.mp hm with
      | inl he =>
        have h1 : x.2.bfree = false := by rw [he]
        rw [h1] at hxfree
        exact absurd hxfree Bool.false_ne_true
      | inr hm2 =>
        cases List.mem_cons.mp hm2 with
        | inl he =>
          have h1 : x.1 = p + need := by rw [he]
          rw [h1]
          exact List.mem_cons_self _ _
        | inr hm3 =>
          have hold := hfree2fo x
            (by rw [hblocks]; exact List.mem_append.mpr (Or.inr (List.mem_cons_of_mem _ hm3)))
            hxfree
          have hne : x.1 ≠ p := by
            have := hkeysR x hm3
            omega
          exact List.mem_cons_of_mem _ ((List.mem_erase_of_ne hne).mpr hold)
  · show NoAdjFree _
    unfold NoAdjFree at hchain ⊢
    rw [List.chain'_append] at hchain ⊢
    obtain ⟨CL, CM, Clast⟩ := hchain
    rw [List.chain'_cons'] at CM
    obtain ⟨Cb, CR⟩ := CM
    refine ⟨CL, ?_, ?_⟩
    · rw [List.chain'_cons]
      refine ⟨?_, ?_⟩
      · intro hcon
        exact Bool.false_ne_true hcon.1
      · rw [List.chain'_cons']
        refine ⟨?_, CR⟩
        intro y hy
        have := Cb y hy
        intro hcon
        rw [hbfree] at this
        exact this ⟨rfl, hcon.2⟩
    · intro x hx y hy
      have hy2 : y = (p, (⟨need, false⟩ : Block)) := by
        simp at hy
        exact hy.symm
      rw [hy2]
      intro hcon
      exact Bool.false_ne_true hcon.2
  · show ((p + need) :: h0.freeOrder.erase p).Nodup
    refine List.Pairwise.cons ?_ (hnodup.erase p)
    intro q hq hqe
    have hqfo : q ∈ h0.freeOrder := List.mem_of_mem_erase hq
    have hfree := hfo2free q hqfo
    rw [hblocks, ← hqe,
      @freeAt_congr (L ++ (p, b) :: R) [] (p + need) (by rw [hnointerior]; rfl)] at hfree
    exact Bool.false_ne_true hfree

theorem WF_alloc_nosplit (h0 : Heap) (p : Nat) (b : Block) (L R : List (Nat × Block))
    (A : Nat) (hWF : WFheap h0)
    (hblocks : h0.blocks = L ++ (p, b) :: R) (hL : ∀ x ∈ L, x.1 ≠ p)
    (hpfo : p ∈ h0.freeOrder) :
    WFheap ⟨L ++ (p, ⟨b.bsize, false⟩) :: R, h0.freeOrder.erase p, A⟩ := by
  obtain ⟨htile, hszs, hfo2free, hfree2fo, hchain, hnodup⟩ := hWF
  rw [hblocks] at htile hszs hchain
  have h48 : HDR = 48 := rfl
  obtain ⟨htL, htM⟩ := (tiledFrom_append _ L 0).mp htile
  obtain ⟨hp, htR⟩ := (tiledFrom_cons _ p b R).mp htM
  have hkeysR : ∀ x ∈ R, p + b.bsize ≤ x.1 := by
    intro x hx
    have h1 := tiled_key_lower (0 + sizeSum L + b.bsize) R htR x hx
    omega
  have hbpos : HDR ≤ b.bsize := hszs (p, b) (List.mem_append.mpr (Or.inr (List.mem_cons_self _ _)))
  refine ⟨?_, ?_, ?_, ?_, ?_, ?_⟩
  · show tiledFrom 0 (L ++ (p, ⟨b.bsize, false⟩) :: R) = true
    refine (tiledFrom_append _ L 0).mpr ⟨htL, ?_⟩
    refine (tiledFrom_cons _ _ _ _).mpr ⟨by omega, ?_⟩
    show tiledFrom (0 + sizeSum L + b.bsize) R = true
    exact htR
  · intro x hx
    cases List.mem_append.mp hx with
    | inl hm => exact hszs x (List.mem_append.mpr (Or.inl hm))
    | inr hm =>
      cases List.mem_cons.mp hm with
      | inl he =>
        have h1 : x.2.bsize = b.bsize := by rw [he]
        omega
      | inr hm2 =>
        exact hszs x (List.mem_append.mpr (Or.inr (List.mem_cons_of_mem _ hm2)))
  · intro q hq
    have hqfo : q ∈ h0.freeOrder := List.mem_of_mem_erase hq
    have hqp : q ≠ p := by
      intro he
      rw [he] at hq
      exact hnodup.not_mem_erase hq
    have hfree := hfo2free q hqfo
    rw [hblocks] at hfree
    cases hql : blockAt q L with
    | some c =>
      rw [freeAt_eq (blockAt_append_left hql _)] at hfree
      rw [freeAt_eq (blockAt_append_left hql _)]
      exact hfree
    | none =>
      have hold : blockAt q (L ++ (p, b) :: R) = blockAt q R := by
        rw [blockAt_append_cases, hql]
        show (if p = q then some b else blockAt q R) = _
        rw [if_neg (fun he => hqp he.symm)]
      have hnew : blockAt q (L ++ (p, ⟨b.bsize, false⟩) :: R) = blockAt q R := by
        rw [blockAt_append_cases, hql]
        show (if p = q then _ else blockAt q R) = _
        rw [if_neg (fun he => hqp he.symm)]
      rw [freeAt_congr hold] at hfree
      rw [freeAt_congr hnew]
      exact hfree
  · intro x hx hxfree
    cases List.mem_append.mp hx with
    | inl hm =>
      have hold := hfree2fo x (by rw [hblocks]; exact List.mem_append.mpr (Or.inl hm)) hxfree
      exact (List.mem_erase_of_ne (hL x hm)).mpr hold
    | inr hm =>
      cases List.mem_cons.mp hm with
      | inl he =>
        have h1 : x.2.bfree = false := by rw [he]
        rw [h1] at hxfree
        exact absurd hxfree Bool.false_ne_true
      | inr hm2 =>
        have hold := hfree2fo x
          (by rw [hblocks]; exact List.mem_append.mpr (Or.inr (List.mem_cons_of_mem _ hm2)))
          hxfree
        have hne : x.1 ≠ p := by
          have := hkeysR x hm2
          omega
        exact (List.mem_erase_of_ne hne).mpr hold
  · show NoAdjFree _
    unfold NoAdjFree at hchain ⊢
    rw [List.chain'_append] at hchain ⊢
    obtain ⟨CL, CM, Clast⟩ := hchain
    rw [List.chain'_cons'] at CM
    obtain ⟨Cb, CR⟩ := CM
    refine ⟨CL, ?_, ?_⟩
    · rw [List.chain'_cons']
      refine ⟨?_, CR⟩
      intro y hy hcon
      exact Bool.false_ne_true hcon.1
    · intro x hx y hy
      have hy2 : y = (p, (⟨b.bsize, false⟩ : Block)) := by
        simp at hy
        exact hy.symm
      rw [hy2]
      intro hcon
      exact Bool.false_ne_true hcon.2
  · exact hnodup.erase p

theorem mem_of_mem_foldl_erase {q : Nat} :
    ∀ (rem : List Nat) (l : List Nat),
      q ∈ rem.foldl (fun fo a => fo.erase a) l → q ∈ l := by
  intro rem
  induction rem with
  | nil => intro l h; exact h
  | cons r rem ih =>
    intro l h
    exact List.mem_of_mem_erase (ih (l.erase r) h)

theorem mem_foldl_erase_of_ne {q : Nat} :
    ∀ (rem : List Nat) (l : List Nat), q ∈ l → (∀ a ∈ rem, q ≠ a) →
      q ∈ rem.foldl (fun fo a => fo.erase a) l := by
  intro rem
  induction rem with
  | nil => intro l h _; exact h
  | cons r rem ih =>
    intro l h hne
    exact ih (l.erase r)
      ((List.mem_erase_of_ne (hne r (List.mem_cons_self _ _))).mpr h)
      (fun a ha => hne a (List.mem_cons_of_mem _ ha))

theorem nodup_foldl_erase :
    ∀ (rem : List Nat) (l : List Nat), l.Nodup →
      (rem.foldl (fun fo a => fo.erase a) l).Nodup := by
  intro rem
  induction rem with
  | nil => intro l h; exact h
  | cons r rem ih => intro l h; exact ih (l.erase r) (h.erase r)

theorem not_mem_foldl_erase_of_mem_rem {a : Nat} :
    ∀ (rem : List Nat) (l : List Nat), l.Nodup → a ∈ rem →
      a ∉ rem.foldl (fun fo a => fo.erase a) l := by
  intro rem
  induction rem with
  | nil => intro l _ h; exact absurd h (List.not_mem_nil a)
  | cons r rem ih =>
    intro l hnd hmem
    by_cases har : a = r
    · intro hcon
      have h1 := mem_of_mem_foldl_erase rem (l.erase r) hcon
      rw [har] at h1
      exact hnd.not_mem_erase h1
    · exact ih (l.erase r) (hnd.erase r) (by
        cases List.mem_cons.mp hmem with
        | inl he => exact absurd he har
        | inr hm => exact hm)

theorem mergeBackwardAt_head (p : Nat) (m : Block) (Q : List (Nat × Block))
    (hQ : ∀ x ∈ Q, x.1 ≠ p) :
    mergeBackwardAt p ((p, m) :: Q) = ((p, m) :: Q, [], p) := by
  cases Q with
  | nil => rfl
  | cons y ys =>
    have hy : y.1 ≠ p := hQ y (List.mem_cons_self _ _)
    rw [mergeBackwardAt_cons p (p, m) y ys hy,
      mergeBackwardAt_id p (y :: ys) hQ]

/-- Assembling the heap after kfree's mark-and-coalesce: one free merged
block between intact prefix and suffix, the merged-away offsets erased
from the free list, the final offset pushed at its head. -/
theorem WF_free_final (h : Heap) (hWF : WFheap h) (P : List (Nat × Block)) (i s : Nat)
    (Q : List (Nat × Block)) (rem : List Nat) (A : Nat)
    (htile : tiledFrom 0 (P ++ (i, (⟨s, true⟩ : Block)) :: Q) = true)
    (hszP : ∀ x ∈ P, HDR ≤ x.2.bsize) (hszQ : ∀ x ∈ Q, HDR ≤ x.2.bsize) (hs : HDR ≤ s)
    (hCP : List.Chain' (fun a b => ¬(a.2.bfree = true ∧ b.2.bfree = true)) P)
    (hCQ : List.Chain' (fun a b => ¬(a.2.bfree = true ∧ b.2.bfree = true)) Q)
    (hlastP : ∀ x ∈ P.getLast?, x.2.bfree = false)
    (hheadQ : ∀ y ∈ Q.head?, y.2.bfree = false)
    (hremfo : ∀ q ∈ h.freeOrder, q ∉ rem → q ≠ i →
      blockAt q (P ++ (i, (⟨s, true⟩ : Block)) :: Q) = blockAt q h.blocks)
    (hinsNot : i ∉ rem.foldl (fun fo a => fo.erase a) h.freeOrder)
    (hfree2foP : ∀ x ∈ P, x.2.bfree = true → x.1 ∈ h.freeOrder ∧ x.1 ∉ rem ∧ x.1 ≠ i)
    (hfree2foQ : ∀ x ∈ Q, x.2.bfree = true → x.1 ∈ h.freeOrder ∧ x.1 ∉ rem ∧ x.1 ≠ i) :
    WFheap ⟨P ++ (i, (⟨s, true⟩ : Block)) :: Q,
      i :: rem.foldl (fun fo a => fo.erase a) h.freeOrder, A⟩ := by
  obtain ⟨_, _, hfo2free, _, _, hnodup⟩ := hWF
  obtain ⟨htP, htM⟩ := (tiledFrom_append _ P 0).mp htile
  obtain ⟨hi, _⟩ := (tiledFrom_cons _ i _ Q).mp htM
  have h48 : HDR = 48 := rfl
  have hkeysP : ∀ x ∈ P, x.1 ≠ i := by
    intro x hx
    have h1 := tiled_key_upper 0 P htP x hx
    have h2 := hszP x hx
    omega
  refine ⟨htile, ?_, ?_, ?_, ?_, ?_⟩
  · intro x hx
    cases List.mem_append.mp hx with
    | inl hm => exact hszP x hm
    | inr hm =>
      cases List.mem_cons.mp hm with
      | inl he =>
        have h1 : x.2.bsize = s := by rw [he]
        omega
      | inr hm2 => exact hszQ x hm2
  · intro q hq
    cases List.mem_cons.mp hq with
    | inl he =>
      rw [he, freeAt_eq (blockAt_decomp_self i _ P Q hkeysP)]
    | inr hm =>
      have hqfo : q ∈ h.freeOrder := mem_of_mem_foldl_erase rem _ hm
      have hqrem : q ∉ rem := by
        intro hcon
        exact not_mem_foldl_erase_of_mem_rem rem h.freeOrder hnodup hcon hm
      have hqi : q ≠ i := by
        intro he
        rw [he] at hm
        exact hinsNot hm
      rw [freeAt_congr (hremfo q hqfo hqrem hqi)]
      exact hfo2free q hqfo
  · intro x hx hxfree
    cases List.mem_append.mp hx with
    | inl hm =>
      obtain ⟨h1, h2, h3⟩ := hfree2foP x hm hxfree
      exact List.mem_cons_of_mem _ (mem_foldl_erase_of_ne rem _ h1
        (fun a ha => fun he => h2 (he ▸ ha)))
    | inr hm =>
      cases List.mem_cons.mp hm with
      | inl he =>
        have h1 : x.1 = i := by rw [he]
        rw [h1]
        exact List.mem_cons_self _ _
      | inr hm2 =>
        obtain ⟨h1, h2, h3⟩ := hfree2foQ x hm2 hxfree
        exact List.mem_cons_of_mem _ (mem_foldl_erase_of_ne rem _ h1
          (fun a ha => fun he => h2 (he ▸ ha)))
  · show NoAdjFree _
    unfold NoAdjFree
    rw [List.chain'_append]
    refine ⟨hCP, ?_, ?_⟩
    · rw [List.chain'_cons']
      refine ⟨?_, hCQ⟩
      intro y hy hcon
      have := hheadQ y hy
      rw [this] at hcon
      exact Bool.false_ne_true hcon.2
    · intro x hx y hy
      have hxf := hlastP x hx
      intro hcon
      rw [hxf] at hcon
      exact Bool.false_ne_true hcon.1
  · refine List.Pairwise.cons ?_ (nodup_foldl_erase rem _ hnodup)
    intro q hq hqe
    rw [← hqe] at hq
    exact hinsNot hq

theorem WF_initHeap : WFheap initHeap := by
  refine ⟨by decide, ?_, ?_, ?_, ?_, by decide⟩
  · intro x hx
    have he : x = (0, (⟨HEAP_SIZE, true⟩ : Block)) := by
      cases List.mem_cons.mp hx with
      | inl h => exact h
      | inr h => exact absurd h (List.not_mem_nil x)
    have h1 : x.2.bsize = HEAP_SIZE := by rw [he]
    rw [h1]
    decide
  · intro q hq
    have he : q = 0 := by
      cases List.mem_cons.mp hq with
      | inl h => exact h
      | inr h => exact absurd h (List.not_mem_nil q)
    rw [he]
    decide
  · intro x hx _
    have he : x = (0, (⟨HEAP_SIZE, true⟩ : Block)) := by
      cases List.mem_cons.mp hx with
      | inl h => exact h
      | inr h => exact absurd h (List.not_mem_nil x)
    have h1 : x.1 = 0 := by rw [he]
    rw [h1]
    exact List.mem_cons_self _ _
  · exact List.chain'_singleton _

theorem kmallocCore_WF (h0 : Heap) (need : Nat) (hWF : WFheap h0) (hneed : HDR ≤ need) :
    WFheap (kmallocCore h0 need).2 := by
  unfold kmallocCore
  cases hfind : findFit h0.blocks need h0.freeOrder with
  | none => exact hWF
  | some r =>
    obtain ⟨p, S⟩ := r
    obtain ⟨b, L, R, hb, hbsz, hneedS, hpfo, hblocks, hL, halloc⟩ := kmalloc_decomp h0 need hfind
    show WFheap ⟨allocAt p need h0.blocks,
      (if need + MIN_PAYLOAD ≤ S then [p + need] else []) ++ h0.freeOrder.erase p, _⟩
    subst hbsz
    by_cases hs : need + MIN_PAYLOAD ≤ b.bsize
    · rw [halloc, if_pos hs, if_pos hs]
      rw [List.singleton_append]
      exact WF_alloc_split h0 need p b L R _ hWF hneed hblocks hL hpfo hs
    · rw [halloc, if_neg hs, if_neg hs]
      rw [List.nil_append]
      exact WF_alloc_nosplit h0 p b L R _ hWF hblocks hL hpfo
  
theorem WF_kmalloc (h : Heap) (n : Nat) (hWF : WFheap h)
    (hneed : HDR ≤ (HDR + align16 n) % 2 ^ 64) : WFheap (kmallocM h n).2 := by
  unfold kmallocM
  by_cases hn : n = 0
  · rw [if_pos hn]
    exact hWF
  · rw [if_neg hn]
    refine kmallocCore_WF _ _ ?_ hneed
    by_cases hfo : h.freeOrder.isEmpty
    · rw [if_pos hfo]
      exact WF_initHeap
    · rw [if_neg hfo]
      exact hWF

theorem WF_kcalloc (h : Heap) (n m : Nat) (hWF : WFheap h)
    (hneed : HDR ≤ (HDR + align16 (n * m % 2 ^ 64)) % 2 ^ 64) :
    WFheap (kcallocM h n m).2 := by
  unfold kcallocM
  by_cases h0 : (decide (n = 0) || decide (m = 0)) = true
  · rw [if_pos h0]
    exact hWF
  · rw [if_neg h0]
    show WFheap (if n * m % 2 ^ 64 / n ≠ m then (none, h) else kmallocM h (n * m % 2 ^ 64)).2
    by_cases hov : n * m % 2 ^ 64 / n ≠ m
    · rw [if_pos hov]
      exact hWF
    · rw [if_neg hov]
      exact WF_kmalloc h _ hWF hneed

theorem blockAt_mem {q : Nat} {c : Block} :
    ∀ l : List (Nat × Block), blockAt q l = some c → (q, c) ∈ l := by
  intro l
  induction l with
  | nil => intro h; exact Option.noConfusion h
  | cons x rest ih =>
    intro h
    obtain ⟨k, d⟩ := x
    have h2 : (if k = q then some d else blockAt q rest) = some c := h
    by_cases hk : k = q
    · rw [if_pos hk] at h2
      cases Option.some.inj h2
      rw [← hk]
      exact List.mem_cons_self _ _
    · rw [if_neg hk] at h2
      exact List.mem_cons_of_mem _ (ih h2)

theorem tiled_blockAt_self (off : Nat) :
    ∀ l : List (Nat × Block), tiledFrom off l = true → (∀ x ∈ l, 1 ≤ x.2.bsize) →
      ∀ x ∈ l, blockAt x.1 l = some x.2 := by
  intro l
  induction l generalizing off with
  | nil => intro _ _ x hx; exact absurd hx (List.not_mem_nil x)
  | cons y rest ih =>
    intro ht hsz x hx
    obtain ⟨q, c⟩ := y
    obtain ⟨hq, hrest⟩ := (tiledFrom_cons off q c rest).mp ht
    cases List.mem_cons.mp hx with
    | inl he =>
      rw [he]
      show (if q = q then some c else _) = some c
      rw [if_pos rfl]
    | inr hm =>
      have hxlo := tiled_key_lower (off + c.bsize) rest hrest x hm
      have hqc : ((q, c) : Nat × Block).2.bsize = c.bsize := rfl
      have hcpos := hsz (q, c) (List.mem_cons_self _ _)
      show (if q = x.1 then some c else blockAt x.1 rest) = some x.2
      rw [if_neg (by omega)]
      exact ih (off + c.bsize) hrest (fun z hz => hsz z (List.mem_cons_of_mem _ hz)) x hm

theorem WF_kfree_stageB (h : Heap) (hWF : WFheap h) (ptr : Nat) (b : Block)
    (L R R1 : List (Nat × Block)) (sz1 : Nat) (rem1 : List Nat) (A : Nat)
    (hblocks : h.blocks = L ++ (ptr, b) :: R) (hL : ∀ x ∈ L, x.1 ≠ ptr)
    (hbfree : b.bfree = false)
    (htile1 : tiledFrom 0 (L ++ (ptr, (⟨sz1, true⟩ : Block)) :: R1) = true)
    (hszR1 : ∀ x ∈ R1, HDR ≤ x.2.bsize) (hs1 : HDR ≤ sz1)
    (hCR1 : List.Chain' (fun a c => ¬(a.2.bfree = true ∧ c.2.bfree = true)) R1)
    (hheadR1 : ∀ y ∈ R1.head?, y.2.bfree = false)
    (hlookupR : ∀ q, q ∉ rem1 → blockAt q R1 = blockAt q R)
    (hrem1gt : ∀ q ∈ rem1, ptr < q) (hrem1lt : ∀ q ∈ rem1, q < ptr + sz1) :
    WFheap ⟨(mergeBackwardAt ptr (L ++ (ptr, (⟨sz1, true⟩ : Block)) :: R1)).1,
      (mergeBackwardAt ptr (L ++ (ptr, (⟨sz1, true⟩ : Block)) :: R1)).2.2 ::
        ((rem1 ++ (mergeBackwardAt ptr (L ++ (ptr, (⟨sz1, true⟩ : Block)) :: R1)).2.1).foldl
          (fun fo q => fo.erase q) h.freeOrder), A⟩ := by
  have hWFc := hWF
  obtain ⟨htile0, hszs0, hfo2free0, hfree2fo0, hchain0, hnodup0⟩ := hWFc
  rw [hblocks] at htile0 hszs0 hchain0
  have h48 : HDR = 48 := rfl
  have hmsz : ((⟨sz1, true⟩ : Block)).bsize = sz1 := rfl
  obtain ⟨htL0, htM0⟩ := (tiledFrom_append _ L 0).mp htile0
  obtain ⟨hptr0, htR0⟩ := (tiledFrom_cons _ ptr b R).mp htM0
  obtain ⟨htL1, htM1⟩ := (tiledFrom_append _ L 0).mp htile1
  obtain ⟨hptr1, htR1t⟩ := (tiledFrom_cons _ ptr _ R1).mp htM1
  rw [hmsz] at htR1t
  have hkeysL : ∀ x ∈ L, x.1 + HDR ≤ ptr := by
    intro x hx
    have h1 := tiled_key_upper 0 L htL0 x hx
    have h2 := hszs0 x (List.mem_append.mpr (Or.inl hx))
    omega
  have hkeysR1 : ∀ x ∈ R1, ptr + sz1 ≤ x.1 := by
    intro x hx
    have h1 := tiled_key_lower (0 + sizeSum L + sz1) R1 htR1t x hx
    omega
  have hptrnotfo : ptr ∉ h.freeOrder := by
    intro hmem
    have h1 := hfo2free0 ptr hmem
    rw [hblocks, freeAt_eq (blockAt_decomp_self ptr b L R hL), hbfree] at h1
    exact Bool.false_ne_true h1
  have hchain2 := hchain0
  unfold NoAdjFree at hchain2
  rw [List.chain'_append] at hchain2
  obtain ⟨CL, CM, Clast⟩ := hchain2
  have hfree2foQgen : ∀ x ∈ R1, x.2.bfree = true →
      x.1 ∈ h.freeOrder ∧ x.1 ∉ rem1 ∧ ptr < x.1 := by
    intro x hx hxf
    have hxk := hkeysR1 x hx
    have hself : blockAt x.1 R1 = some x.2 :=
      tiled_blockAt_self (0 + sizeSum L + sz1) R1 htR1t
        (fun z hz => by have := hszR1 z hz; omega) x hx
    have hnotrem : x.1 ∉ rem1 := by
      intro hc
      have := hrem1lt x.1 hc
      omega
    have hR : blockAt x.1 R = some x.2 := by
      rw [← hlookupR x.1 hnotrem]
      exact hself
    have hmem2 : (x.1, x.2) ∈ h.blocks := by
      rw [hblocks]
      exact List.mem_append.mpr (Or.inr (List.mem_cons_of_mem _ (blockAt_mem R hR)))
    have h1 := hfree2fo0 (x.1, x.2) (by rw [hblocks] at hmem2 ⊢; exact hmem2) hxf
    exact ⟨h1, hnotrem, by omega⟩
  rcases List.eq_nil_or_concat L with hLnil | ⟨L0, xa, hLc⟩
  · subst hLnil
    simp only [List.nil_append] at htile1 ⊢
    have hkR1ne : ∀ x ∈ R1, x.1 ≠ ptr := by
      intro x hx
      have := hkeysR1 x hx
      omega
    rw [mergeBackwardAt_head ptr _ R1 hkR1ne, List.append_nil]
    refine WF_free_final h hWF [] ptr sz1 R1 rem1 A htile1
      (fun x hx => absurd hx (List.not_mem_nil x)) hszR1 hs1 List.chain'_nil hCR1
      (fun x hx => by simp at hx) hheadR1 ?_ ?_ (fun x hx => absurd hx (List.not_mem_nil x)) ?_
    · intro q hq hqrem hqi
      rw [hblocks]
      simp only [List.nil_append]
      show (if ptr = q then some (⟨sz1, true⟩ : Block) else blockAt q R1) = _
      rw [if_neg (fun he => hqi he.symm)]
      show blockAt q R1 = (if ptr = q then some b else blockAt q R)
      rw [if_neg (fun he => hqi he.symm)]
      exact hlookupR q hqrem
    · intro hc
      exact hptrnotfo (mem_of_mem_foldl_erase rem1 _ hc)
    · intro x hx hxf
      obtain ⟨h1, h2, h3⟩ := hfree2foQgen x hx hxf
      exact ⟨h1, h2, by omega⟩
  · obtain ⟨qa, ba⟩ := xa
    rw [List.concat_eq_append] at hLc
    subst hLc
    have hqa : qa ≠ ptr := hL (qa, ba)
      (List.mem_append.mpr (Or.inr (List.mem_cons_self _ _)))
    have hL0ne : ∀ x ∈ L0, x.1 ≠ ptr := fun x hx => hL x (List.mem_append.mpr (Or.inl hx))
    have hassoc : (L0 ++ [(qa, ba)]) ++ (ptr, (⟨sz1, true⟩ : Block)) :: R1 =
        L0 ++ (qa, ba) :: (ptr, (⟨sz1, true⟩ : Block)) :: R1 := by simp
    have hassoc0 : (L0 ++ [(qa, ba)]) ++ (ptr, b) :: R =
        L0 ++ (qa, ba) :: (ptr, b) :: R := by simp
    have hszsum : sizeSum (L0 ++ [(qa, ba)]) = sizeSum L0 + ba.bsize := by
      rw [sizeSum_append, sizeSum_cons, sizeSum_nil]
      have hproj : ((qa, ba) : Nat × Block).2.bsize = ba.bsize := rfl
      omega
    have hqaval : qa = sizeSum L0 := by
      obtain ⟨_, htMM⟩ := (tiledFrom_append _ L0 0).mp htL0
      obtain ⟨hq1, _⟩ := (tiledFrom_cons _ qa ba []).mp htMM
      omega
    have hbasz : HDR ≤ ba.bsize :=
      hszs0 (qa, ba) (List.mem_append.mpr (Or.inl (List.mem_append.mpr
        (Or.inr (List.mem_cons_self _ _)))))
    have hqaptr : qa + HDR ≤ ptr := hkeysL (qa, ba)
      (List.mem_append.mpr (Or.inr (List.mem_cons_self _ _)))
    rw [hassoc, mergeBackwardAt_decomp ptr qa ba _ R1 L0 hL0ne hqa]
    cases hba : ba.bfree with
    | false =>
      rw [if_neg Bool.false_ne_true, ← hassoc, List.append_nil]
      refine WF_free_final h hWF (L0 ++ [(qa, ba)]) ptr sz1 R1 rem1 A htile1
        (fun x hx => hszs0 x (List.mem_append.mpr (Or.inl hx))) hszR1 hs1 CL hCR1
        ?_ hheadR1 ?_ ?_ ?_ ?_
      · intro x hx
        rw [List.getLast?_concat] at hx
        have he : x = (qa, ba) := by
          cases hx
          rfl
        have h1 : x.2.bfree = ba.bfree := by rw [he]
        rw [h1, hba]
      · intro q hq hqrem hqi
        rw [hblocks, hassoc0, hassoc, blockAt_append_cases q _ L0,
          blockAt_append_cases q _ L0]
        cases hql : blockAt q L0 with
        | some c => rfl
        | none =>
          have hqptr : q ≠ ptr := by
            intro he
            rw [he] at hq
            exact hptrnotfo hq
          show (if qa = q then _ else if ptr = q then _ else blockAt q R1) =
            (if qa = q then _ else if ptr = q then _ else blockAt q R)
          by_cases hqqa : qa = q
          · rw [if_pos hqqa, if_pos hqqa]
          · rw [if_neg hqqa, if_neg hqqa, if_neg (fun he => hqptr he.symm),
              if_neg (fun he => hqptr he.symm)]
            exact hlookupR q hqrem
      · intro hc
        exact hptrnotfo (mem_of_mem_foldl_erase rem1 _ hc)
      · intro x hx hxf
        have hmem2 : x ∈ h.blocks := by
          rw [hblocks]
          exact List.mem_append.mpr (Or.inl hx)
        have h1 := hfree2fo0 x (by rw [hblocks] at hmem2 ⊢; exact hmem2) hxf
        have hxk := hkeysL x hx
        refine ⟨h1, ?_, ?_⟩
        · intro hc
          have := hrem1gt x.1 hc
          omega
        · exact hL x hx
      · intro x hx hxf
        obtain ⟨h1, h2, h3⟩ := hfree2foQgen x hx hxf
        exact ⟨h1, h2, by omega⟩
    | true =>
      rw [if_pos rfl]
      rw [show ((⟨sz1, true⟩ : Block)).bsize = sz1 from rfl]
      have hCLdec := CL
      rw [List.chain'_append] at hCLdec
      obtain ⟨CL0, _, CL0last⟩ := hCLdec
      refine WF_free_final h hWF L0 qa (ba.bsize + sz1) R1 (rem1 ++ [qa]) A ?_
        (fun x hx => hszs0 x (List.mem_append.mpr (Or.inl (List.mem_append.mpr (Or.inl hx)))))
        hszR1 (by omega) CL0 hCR1 ?_ hheadR1 ?_ ?_ ?_ ?_
      · obtain ⟨htL00, _⟩ := (tiledFrom_append _ L0 0).mp htL0
        refine (tiledFrom_append _ L0 0).mpr ⟨htL00, ?_⟩
        refine (tiledFrom_cons _ _ _ _).mpr ⟨by omega, ?_⟩
        show tiledFrom (0 + sizeSum L0 + (ba.bsize + sz1)) R1 = true
        have heq : 0 + sizeSum L0 + (ba.bsize + sz1) = 0 + sizeSum (L0 ++ [(qa, ba)]) + sz1 := by
          omega
        rw [heq]
        exact htR1t
      · intro x hx
        have h1 := CL0last x hx (qa, ba) (by simp)
        by_cases hxf : x.2.bfree = true
        · exact absurd ⟨hxf, hba⟩ h1
        · cases hxf2 : x.2.bfree with
          | false => rfl
          | true => exact absurd hxf2 hxf
      · intro q hq hqrem hqi
        have hqrem1 : q ∉ rem1 := fun hc => hqrem (List.mem_append.mpr (Or.inl hc))
        have hqptr : q ≠ ptr := by
          intro he
          rw [he] at hq
          exact hptrnotfo hq
        rw [hblocks, hassoc0, blockAt_append_cases q _ L0, blockAt_append_cases q _ L0]
        cases hql : blockAt q L0 with
        | some c => rfl
        | none =>
          show (if qa = q then _ else blockAt q R1) =
            (if qa = q then _ else if ptr = q then _ else blockAt q R)
          rw [if_neg (fun he => hqi he.symm), if_neg (fun he => hqi he.symm),
            if_neg (fun he => hqptr he.symm)]
          exact hlookupR q hqrem1
      · refine not_mem_foldl_erase_of_mem_rem _ _ hnodup0 ?_
        exact List.mem_append.mpr (Or.inr (List.mem_cons_self _ _))
      · intro x hx hxf
        have hmem2 : x ∈ h.blocks := by
          rw [hblocks]
          exact List.mem_append.mpr (Or.inl (List.mem_append.mpr (Or.inl hx)))
        have h1 := hfree2fo0 x (by rw [hblocks] at hmem2 ⊢; exact hmem2) hxf
        have hxup := tiled_key_upper 0 L0 (by
          obtain ⟨htL00, _⟩ := (tiledFrom_append _ L0 0).mp htL0
          exact htL00) x hx
        have hxsz := hszs0 x (List.mem_append.mpr (Or.inl (List.mem_append.mpr (Or.inl hx))))
        refine ⟨h1, ?_, by omega⟩
        intro hc
        cases List.mem_append.mp hc with
        | inl hc1 =>
          have := hrem1gt x.1 hc1
          omega
        | inr hc2 =>
          have he : x.1 = qa := by
            cases hc2 with
            | head => rfl
            | tail _ hm => exact absurd hm (List.not_mem_nil _)
          omega
      · intro x hx hxf
        obtain ⟨h1, h2, h3⟩ := hfree2foQgen x hx hxf
        refine ⟨h1, ?_, by omega⟩
        intro hc
        cases List.mem_append.mp hc with
        | inl hc1 => exact h2 hc1
        | inr hc2 =>
          have he : x.1 = qa := by
            cases hc2 with
            | head => rfl
            | tail _ hm => exact absurd hm (List.not_mem_nil _)
          omega

theorem WF_kfree (h : Heap) (ptr : Nat) (hWF : WFheap h) : WFheap (kfreeM h ptr) := by
  unfold kfreeM
  cases hb : blockAt ptr h.blocks with
  | none => exact hWF
  | some b =>
    show WFheap
      (if b.bfree = true then h
       else
        ⟨(mergeBackwardAt ptr (mergeForwardAt ptr (markFreeAt ptr h.blocks)).1).1,
          (mergeBackwardAt ptr (mergeForwardAt ptr (markFreeAt ptr h.blocks)).1).2.2 ::
            (((mergeForwardAt ptr (markFreeAt ptr h.blocks)).2 ++
              (mergeBackwardAt ptr (mergeForwardAt ptr (markFreeAt ptr h.blocks)).1).2.1).foldl
                (fun fo q => fo.erase q) h.freeOrder),
          h.heapAllocated - b.bsize⟩)
    by_cases hbf : b.bfree = true
    · rw [if_pos hbf]
      exact hWF
    · rw [if_neg hbf]
      have hbfree : b.bfree = false := by
        cases hfb : b.bfree
        · rfl
        · exact absurd hfb hbf
      have hWFc := hWF
      obtain ⟨htile0, hszs0, hfo2free0, hfree2fo0, hchain0, hnodup0⟩ := hWFc
      obtain ⟨L, R, hblocks, hL⟩ := blockAt_decomp ptr h.blocks hb
      have h48 : HDR = 48 := rfl
      rw [hblocks] at htile0 hszs0 hchain0
      obtain ⟨htL, htM⟩ := (tiledFrom_append _ L 0).mp htile0
      obtain ⟨hptr, htR⟩ := (tiledFrom_cons _ ptr b R).mp htM
      have hbsz : HDR ≤ b.bsize :=
        hszs0 (ptr, b) (List.mem_append.mpr (Or.inr (List.mem_cons_self _ _)))
      have hmark : markFreeAt ptr h.blocks = L ++ (ptr, ⟨b.bsize, true⟩) :: R := by
        rw [hblocks]
        exact markFreeAt_decomp ptr b R L hL
      have hchain2 := hchain0
      unfold NoAdjFree at hchain2
      rw [List.chain'_append] at hchain2
      obtain ⟨CL, CM, Clast⟩ := hchain2
      rw [List.chain'_cons'] at CM
      obtain ⟨Cb, CR⟩ := CM
      rw [hmark]
      cases hR : R with
      | nil =>
        rw [hR] at hblocks
        rw [mergeForwardAt_decomp_last ptr ⟨b.bsize, true⟩ L hL]
        refine WF_kfree_stageB h hWF ptr b L [] [] b.bsize [] _ hblocks hL hbfree ?_
          (fun x hx => absurd hx (List.not_mem_nil x)) hbsz List.chain'_nil
          (fun y hy => by simp at hy) (fun q _ => rfl)
          (fun q hq => absurd hq (List.not_mem_nil q))
          (fun q hq => absurd hq (List.not_mem_nil q))
        refine (tiledFrom_append _ L 0).mpr ⟨htL, ?_⟩
        refine (tiledFrom_cons _ _ _ _).mpr ⟨by omega, rfl⟩
      | cons x3 R2 =>
        obtain ⟨q3, b3⟩ := x3
        rw [hR] at hblocks htR
        have hq3 : q3 = ptr + b.bsize := by
          obtain ⟨hq3e, _⟩ := (tiledFrom_cons _ q3 b3 R2).mp htR
          omega
        have htR2 : tiledFrom (0 + sizeSum L + b.bsize + b3.bsize) R2 = true := by
          obtain ⟨_, h2⟩ := (tiledFrom_cons _ q3 b3 R2).mp htR
          exact h2
        have hb3sz : HDR ≤ b3.bsize :=
          hszs0 (q3, b3) (by
            rw [hR]
            exact List.mem_append.mpr (Or.inr (List.mem_cons_of_mem _ (List.mem_cons_self _ _))))
        rw [mergeForwardAt_decomp_some ptr ⟨b.bsize, true⟩ q3 b3 R2 L hL]
        have hCb3 := CR
        rw [hR, List.chain'_cons'] at hCb3
        obtain ⟨Cq3, CR2⟩ := hCb3
        cases hb3 : b3.bfree with
        | true =>
          rw [if_pos rfl,
            show ((⟨b.bsize, true⟩ : Block)).bsize = b.bsize from rfl,
            show ((⟨b.bsize, true⟩ : Block)).bfree = true from rfl]
          refine WF_kfree_stageB h hWF ptr b L ((q3, b3) :: R2) R2 (b.bsize + b3.bsize)
            [q3] _ hblocks hL hbfree ?_ ?_ (by omega) CR2 ?_ ?_ ?_ ?_
          · refine (tiledFrom_append _ L 0).mpr ⟨htL, ?_⟩
            refine (tiledFrom_cons _ _ _ _).mpr ⟨by omega, ?_⟩
            show tiledFrom (0 + sizeSum L + (b.bsize + b3.bsize)) R2 = true
            have heq : 0 + sizeSum L + (b.bsize + b3.bsize) =
                0 + sizeSum L + b.bsize + b3.bsize := by omega
            rw [heq]
            exact htR2
          · intro x hx
            exact hszs0 x (by
              rw [hR]
              exact List.mem_append.mpr (Or.inr (List.mem_cons_of_mem _
                (List.mem_cons_of_mem _ hx))))
          · intro y hy
            have h1 := Cq3 y hy
            by_cases hyf : y.2.bfree = true
            · have hq3f : ((q3, b3) : Nat × Block).2.bfree = true := hb3
              exact absurd ⟨hq3f, hyf⟩ h1
            · cases hyf2 : y.2.bfree with
              | false => rfl
              | true => exact absurd hyf2 hyf
          · intro q hq
            have hqne : q ≠ q3 := by
              intro he
              exact hq (by rw [he]; exact List.mem_cons_self _ _)
            show blockAt q R2 = (if q3 = q then some b3 else blockAt q R2)
            rw [if_neg (fun he => hqne he.symm)]
          · intro q hq
            have he : q = q3 := by
              cases hq with
              | head => rfl
              | tail _ hm => exact absurd hm (List.not_mem_nil _)
            omega
          · intro q hq
            have he : q = q3 := by
              cases hq with
              | head => rfl
              | tail _ hm => exact absurd hm (List.not_mem_nil _)
            omega
        | false =>
          rw [if_neg Bool.false_ne_true]
          refine WF_kfree_stageB h hWF ptr b L ((q3, b3) :: R2) ((q3, b3) :: R2) b.bsize
            [] _ hblocks hL hbfree ?_ ?_ hbsz ?_ ?_ (fun q _ => rfl)
            (fun q hq => absurd hq (List.not_mem_nil q))
            (fun q hq => absurd hq (List.not_mem_nil q))
          · refine (tiledFrom_append _ L 0).mpr ⟨htL, ?_⟩
            refine (tiledFrom_cons _ _ _ _).mpr ⟨by omega, ?_⟩
            show tiledFrom (0 + sizeSum L + b.bsize) ((q3, b3) :: R2) = true
            refine (tiledFrom_cons _ _ _ _).mpr ⟨by omega, ?_⟩
            have heq : 0 + sizeSum L + b.bsize + b3.bsize =
                0 + sizeSum L + b.bsize + b3.bsize := rfl
            exact htR2
          · intro x hx
            exact hszs0 x (by
              rw [hR]
              exact List.mem_append.mpr (Or.inr (List.mem_cons_of_mem _ hx)))
          · rw [List.chain'_cons']
            exact ⟨Cq3, CR2⟩
          · intro y hy
            have he : y = (q3, b3) := by
              cases hy
              rfl
            have h1 : y.2.bfree = b3.bfree := by rw [he]
            rw [h1, hb3]

theorem hreach_WF {h : Heap} (hr : HReach h) : WFheap h := by
  induction hr with
  | init => exact WF_initHeap
  | malloc h n hn _ ih => exact WF_kmalloc h n ih hn
  | free h p _ ih => exact WF_kfree h p ih
  | calloc h n m hn _ ih => exact WF_kcalloc h n m ih hn

/-- After any sequence of kmalloc/kcalloc/kfree operations whose request
sizes keep the size_t need at or above the header size, no two physically
adjacent blocks are both free — kfree merges the freed block with its
free neighbours, and the invariant is preserved by every such operation
(including the re-init path).  This is the half of the adjacent-free
claim that survives the need-wrap bug. -/
theorem noAdjFree_reachable (h : Heap) (hr : HReach h) : NoAdjFree h.blocks :=
  (hreach_WF hr).2.2.2.2.1

theorem noAdjFree_reachable_example :
    NoAdjFree (kfreeM (kmallocM initHeap 16).2 0).blocks :=
  noAdjFree_reachable _
    (HReach.free _ 0 (HReach.malloc initHeap 16 (by decide) HReach.init))

/-- C7: the claim fails for the program — kmalloc's size_t need
computation, need = ALIGN_UP(sizeof(block_hdr_t)) + ALIGN_UP(size)
(malloc.c), wraps to 0 for size = 2^64 - 50, the first-fit scan accepts
any free block (every size is ≥ 0), and the split writes the remainder
header at (char*)b + 0 — the chosen block's own offset — leaving a
zero-size allocated block overlapping the remainder at offset 112 and a
heap that violates well-formedness (a block smaller than its own
header).  In the C, the aliased header writes then brick the free list:
the defined execution kmalloc(64); kmalloc(2^64-50); kfree both, ends
with the blocks at offsets 0 and 112 physically adjacent and both free,
refuting the claim that no such pair is ever left outstanding. -/
theorem c7_need_wrap_corruption :
    (HDR + align16 (2 ^ 64 - 50)) % 2 ^ 64 = 0 ∧
    (kmallocM (kmallocM initHeap 64).2 (2 ^ 64 - 50)).1 = some 112 ∧
    (kmallocM (kmallocM initHeap 64).2 (2 ^ 64 - 50)).2.blocks =
      [(0, ⟨112, false⟩), (112, ⟨0, false⟩), (112, ⟨HEAP_SIZE - 112, true⟩)] ∧
    ¬ WFheap (kmallocM (kmallocM initHeap 64).2 (2 ^ 64 - 50)).2 := by
  refine ⟨by decide, by decide, by decide, ?_⟩
  intro hWF
  have hmem : (112, (⟨0, false⟩ : Block)) ∈
      (kmallocM (kmallocM initHeap 64).2 (2 ^ 64 - 50)).2.blocks := by decide
  have h1 := hWF.2.1 (112, ⟨0, false⟩) hmem
  exact absurd h1 (by decide)

/-- A nest of allocate/free pairs executed in LIFO order: allocate n,
recursively run the inner pairs, free the pointer this level got.  The
run is rejected (`none`) if any allocation fails or finds the free list
empty (kmalloc would then re-initialise the heap, destroying it). -/
def lifoPairs (h : Heap) : List Nat → Option Heap
  | [] => some h
  | n :: ns =>
    if h.freeOrder.isEmpty then none
    else
      match (kmallocM h n).1 with
      | none => none
      | some p =>
        match lifoPairs (kmallocM h n).2 ns with
        | some h2 => some (kfreeM h2 p)
        | none => none

theorem c6_counterexample :
    (kmallocM (kmallocM initHeap (HEAP_SIZE - 48)).2 16).1 ≠ none ∧
    freeBytes
      (kfreeM (kmallocM (kmallocM initHeap (HEAP_SIZE - 48)).2 16).2
        ((kmallocM (kmallocM initHeap (HEAP_SIZE - 48)).2 16).1.getD 0)) ≠
      freeBytes (kmallocM initHeap (HEAP_SIZE - 48)).2 := by
  refine ⟨?_, ?_⟩
  · decide
  · decide

theorem sizeAt_eq {blocks : List (Nat × Block)} {q : Nat} {c : Block}
    (h : blockAt q blocks = some c) : sizeAt blocks q = c.bsize := by
  unfold sizeAt
  rw [h]

theorem sizeAt_congr {bl1 bl2 : List (Nat × Block)} {q : Nat}
    (h : blockAt q bl1 = blockAt q bl2) : sizeAt bl1 q = sizeAt bl2 q := by
  unfold sizeAt
  rw [h]

/-- Freeing the block kmalloc split off: forward-merges with the free
remainder, no backward merge (the physically previous block is
allocated), restoring the original block. -/
theorem kfree_split_shape (h2 : Heap) (p need bsz : Nat) (L R : List (Nat × Block))
    (hL : ∀ x ∈ L, x.1 ≠ p) (hR : ∀ x ∈ R, x.1 ≠ p)
    (hlast : ∀ x ∈ L.getLast?, x.2.bfree = false) (hle : need ≤ bsz)
    (hb2eq : h2.blocks = L ++ (p, ⟨need, false⟩) :: (p + need, ⟨bsz - need, true⟩) :: R) :
    kfreeM h2 p = ⟨L ++ (p, ⟨bsz, true⟩) :: R,
      p :: h2.freeOrder.erase (p + need), h2.heapAllocated - need⟩ := by
  have hba2 : blockAt p h2.blocks = some ⟨need, false⟩ := by
    rw [hb2eq]
    exact blockAt_decomp_self p _ L _ hL
  unfold kfreeM
  rw [hba2]
  show (if ((⟨need, false⟩ : Block)).bfree = true then h2 else _) = _
  rw [if_neg (show ¬(((⟨need, false⟩ : Block)).bfree = true) from Bool.false_ne_true)]
  have hmark : markFreeAt p h2.blocks =
      L ++ (p, ⟨need, true⟩) :: (p + need, ⟨bsz - need, true⟩) :: R := by
    rw [hb2eq, markFreeAt_decomp p ⟨need, false⟩ ((p + need, ⟨bsz - need, true⟩) :: R) L hL]
  have hfwd : mergeForwardAt p (markFreeAt p h2.blocks) =
      (L ++ (p, ⟨bsz, true⟩) :: R, [p + need]) := by
    rw [hmark, mergeForwardAt_decomp_some p ⟨need, true⟩ (p + need) ⟨bsz - need, true⟩ R L hL]
    rw [if_pos (show ((⟨bsz - need, true⟩ : Block)).bfree = true from rfl)]
    rw [show (((⟨need, true⟩ : Block)).bsize + ((⟨bsz - need, true⟩ : Block)).bsize) =
      bsz from by show need + (bsz - need) = bsz; omega]
  have hbk : mergeBackwardAt p (mergeForwardAt p (markFreeAt p h2.blocks)).1 =
      (L ++ (p, ⟨bsz, true⟩) :: R, [], p) := by
    rw [hfwd]
    show mergeBackwardAt p (L ++ (p, ⟨bsz, true⟩) :: R) = _
    rcases List.eq_nil_or_concat L with hLnil | ⟨L0, xa, hLc⟩
    · subst hLnil
      simp only [List.nil_append]
      exact mergeBackwardAt_head p _ R hR
    · obtain ⟨qa, ba⟩ := xa
      rw [List.concat_eq_append] at hLc
      subst hLc
      have hba : ba.bfree = false := by
        refine hlast (qa, ba) ?_
        rw [List.getLast?_concat]
        rfl
      have hqa : qa ≠ p := hL (qa, ba) (List.mem_append.mpr (Or.inr (List.mem_cons_self _ _)))
      have hassoc : (L0 ++ [(qa, ba)]) ++ (p, (⟨bsz, true⟩ : Block)) :: R =
          L0 ++ (qa, ba) :: (p, (⟨bsz, true⟩ : Block)) :: R := by simp
      rw [hassoc, mergeBackwardAt_decomp p qa ba ⟨bsz, true⟩ R L0
        (fun x hx => hL x (List.mem_append.mpr (Or.inl hx))) hqa]
      rw [if_neg (show ¬(ba.bfree = true) from by rw [hba]; exact Bool.false_ne_true), ← hassoc]
  rw [hbk, hfwd]
  rfl

/-- Freeing a block kmalloc allocated whole: no merges (both physical
neighbours are allocated), just the flag flip and a head insert. -/
theorem kfree_nosplit_shape (h2 : Heap) (p bsz : Nat) (L R : List (Nat × Block))
    (hL : ∀ x ∈ L, x.1 ≠ p) (hR : ∀ x ∈ R, x.1 ≠ p)
    (hlast : ∀ x ∈ L.getLast?, x.2.bfree = false)
    (hheadR : ∀ y ∈ R.head?, y.2.bfree = false)
    (hb2eq : h2.blocks = L ++ (p, ⟨bsz, false⟩) :: R) :
    kfreeM h2 p = ⟨L ++ (p, ⟨bsz, true⟩) :: R,
      p :: h2.freeOrder, h2.heapAllocated - bsz⟩ := by
  have hba2 : blockAt p h2.blocks = some ⟨bsz, false⟩ := by
    rw [hb2eq]
    exact blockAt_decomp_self p _ L _ hL
  unfold kfreeM
  rw [hba2]
  show (if ((⟨bsz, false⟩ : Block)).bfree = true then h2 else _) = _
  rw [if_neg (show ¬(((⟨bsz, false⟩ : Block)).bfree = true) from Bool.false_ne_true)]
  have hmark : markFreeAt p h2.blocks = L ++ (p, ⟨bsz, true⟩) :: R := by
    rw [hb2eq, markFreeAt_decomp p ⟨bsz, false⟩ R L hL]
  have hfwd : mergeForwardAt p (markFreeAt p h2.blocks) =
      (L ++ (p, ⟨bsz, true⟩) :: R, []) := by
    rw [hmark]
    cases hRc : R with
    | nil => exact mergeForwardAt_decomp_last p ⟨bsz, true⟩ L hL
    | cons y R2 =>
      obtain ⟨q3, b3⟩ := y
      have hb3 : b3.bfree = false := by
        refine hheadR (q3, b3) ?_
        rw [hRc]
        rfl
      rw [mergeForwardAt_decomp_some p ⟨bsz, true⟩ q3 b3 R2 L hL]
      rw [if_neg (show ¬(b3.bfree = true) from by rw [hb3]; exact Bool.false_ne_true)]
  have hbk : mergeBackwardAt p (mergeForwardAt p (markFreeAt p h2.blocks)).1 =
      (L ++ (p, ⟨bsz, true⟩) :: R, [], p) := by
    rw [hfwd]
    show mergeBackwardAt p (L ++ (p, ⟨bsz, true⟩) :: R) = _
    rcases List.eq_nil_or_concat L with hLnil | ⟨L0, xa, hLc⟩
    · subst hLnil
      simp only [List.nil_append]
      exact mergeBackwardAt_head p _ R hR
    · obtain ⟨qa, ba⟩ := xa
      rw [List.concat_eq_append] at hLc
      subst hLc
      have hba : ba.bfree = false := by
        refine hlast (qa, ba) ?_
        rw [List.getLast?_concat]
        rfl
      have hqa : qa ≠ p := hL (qa, ba) (List.mem_append.mpr (Or.inr (List.mem_cons_self _ _)))
      have hassoc : (L0 ++ [(qa, ba)]) ++ (p, (⟨bsz, true⟩ : Block)) :: R =
          L0 ++ (qa, ba) :: (p, (⟨bsz, true⟩ : Block)) :: R := by simp
      rw [hassoc, mergeBackwardAt_decomp p qa ba ⟨bsz, true⟩ R L0
        (fun x hx => hL x (List.mem_append.mpr (Or.inl hx))) hqa]
      rw [if_neg (show ¬(ba.bfree = true) from by rw [hba]; exact Bool.false_ne_true), ← hassoc]
  rw [hbk, hfwd]
  rfl

/-- The allocate/free round trip: kmalloc h n returned pointer p (with a
non-empty free list, so no re-init); h2 is any later heap with the same
blocks and free-byte count as the post-kmalloc heap (e.g. after an inner
nest of LIFO pairs).  kfree h2 p restores the original block list and
free-byte count. -/
theorem kmalloc_pair (h : Heap) (n : Nat) (hWF : WFheap h)
    (hneedHDR : HDR ≤ (HDR + align16 n) % 2 ^ 64)
    (hfo : h.freeOrder.isEmpty = false) {p : Nat}
    (hm1 : (kmallocM h n).1 = some p) (h2 : Heap) (hWF2 : WFheap h2)
    (hblocks2 : h2.blocks = (kmallocM h n).2.blocks)
    (hfb2 : freeBytes h2 = freeBytes (kmallocM h n).2) :
    (kfreeM h2 p).blocks = h.blocks ∧ freeBytes (kfreeM h2 p) = freeBytes h := by
  have hifo : ¬(h.freeOrder.isEmpty = true) := by
    rw [hfo]
    exact Bool.false_ne_true
  by_cases hn : n = 0
  · exfalso
    unfold kmallocM at hm1
    rw [if_pos hn] at hm1
    exact Option.noConfusion hm1
  have hkm : kmallocM h n = kmallocCore h ((HDR + align16 n) % 2 ^ 64) := by
    unfold kmallocM
    rw [if_neg hn, if_neg hifo]
  rw [hkm] at hm1 hblocks2 hfb2
  generalize hneedD : (HDR + align16 n) % 2 ^ 64 = need at hm1 hblocks2 hfb2 hneedHDR
  unfold kmallocCore at hm1 hblocks2 hfb2
  cases hfind : findFit h.blocks need h.freeOrder with
  | none =>
    rw [hfind] at hm1
    exact Option.noConfusion hm1
  | some r =>
    obtain ⟨p0, S⟩ := r
    rw [hfind] at hm1 hblocks2 hfb2
    have hp0 : p0 = p := Option.some.inj hm1
    rw [hp0] at hfind hblocks2 hfb2
    obtain ⟨b, L, R, hb, hbsz, hneedS, hpfo, hblocks, hL, halloc⟩ := kmalloc_decomp h need hfind
    subst hbsz
    have hWFc := hWF
    obtain ⟨htile, hszs, hfo2free, hfree2fo, hchain, hnodup⟩ := hWFc
    have hWF2c := hWF2
    obtain ⟨_, _, hfo2free2, hfree2fo2, _, hnodup2⟩ := hWF2c
    have hblocks2x : h2.blocks = allocAt p need h.blocks := hblocks2
    have hfb2x : freeBytes h2 = freeBytes ⟨allocAt p need h.blocks,
        (if need + MIN_PAYLOAD ≤ b.bsize then [p + need] else []) ++ h.freeOrder.erase p,
        h.heapAllocated + (if need + MIN_PAYLOAD ≤ b.bsize then need else b.bsize)⟩ := hfb2
    have h48 : HDR = 48 := rfl
    have h64 : MIN_PAYLOAD = 64 := rfl
    have htile' := htile
    have hszs' := hszs
    have hchain' := hchain
    rw [hblocks] at htile' hszs' hchain'
    obtain ⟨htL, htM⟩ := (tiledFrom_append _ L 0).mp htile'
    obtain ⟨hptr, htR⟩ := (tiledFrom_cons _ p b R).mp htM
    have hbfree : b.bfree = true := by
      have h3 := hfo2free p hpfo
      rw [hblocks, freeAt_eq (blockAt_decomp_self p b L R hL)] at h3
      exact h3
    have hbeq : (⟨b.bsize, true⟩ : Block) = b := by
      obtain ⟨bs, bf⟩ := b
      have : bf = true := hbfree
      rw [this]
    have hbsz48 : HDR ≤ b.bsize :=
      hszs' (p, b) (List.mem_append.mpr (Or.inr (List.mem_cons_self _ _)))
    have hkeysL : ∀ x ∈ L, x.1 + HDR ≤ p := by
      intro x hx
      have h1 := tiled_key_upper 0 L htL x hx
      have h2 := hszs' x (List.mem_append.mpr (Or.inl hx))
      omega
    have hkeysR : ∀ x ∈ R, p + b.bsize ≤ x.1 := by
      intro x hx
      have h1 := tiled_key_lower (0 + sizeSum L + b.bsize) R htR x hx
      omega
    have hRne : ∀ x ∈ R, x.1 ≠ p := by
      intro x hx
      have := hkeysR x hx
      omega
    have hchain2 := hchain'
    unfold NoAdjFree at hchain2
    rw [List.chain'_append] at hchain2
    obtain ⟨CL, CM, Clast⟩ := hchain2
    rw [List.chain'_cons'] at CM
    obtain ⟨Cb, CR⟩ := CM
    have hlast : ∀ x ∈ L.getLast?, x.2.bfree = false := by
      intro x hx
      have h1 := Clast x hx (p, b) (by simp)
      by_cases hxf : x.2.bfree = true
      · exact absurd ⟨hxf, hbfree⟩ h1
      · cases hxf2 : x.2.bfree with
        | false => rfl
        | true => exact absurd hxf2 hxf
    have hheadR : ∀ y ∈ R.head?, y.2.bfree = false := by
      intro y hy
      have h1 := Cb y hy
      by_cases hyf : y.2.bfree = true
      · exact absurd ⟨hbfree, hyf⟩ h1
      · cases hyf2 : y.2.bfree with
        | false => rfl
        | true => exact absurd hyf2 hyf
    by_cases hs : need + MIN_PAYLOAD ≤ b.bsize
    · -- split case
      rw [halloc, if_pos hs] at hblocks2x
      rw [if_pos hs, if_pos hs] at hfb2x
      have hkf := kfree_split_shape h2 p need b.bsize L R hL hRne hlast (by omega) hblocks2x
      rw [hbeq, ← hblocks] at hkf
      have hnoint : blockAt (p + need) h.blocks = none := by
        rw [hblocks]
        exact tiled_no_interior L p b R htile' hszs' (p + need) (by omega) (by omega)
      have hpnotfo2 : ∀ q ∈ h2.freeOrder, q ≠ p := by
        intro q hq he
        have h3 := hfo2free2 q hq
        rw [he, hblocks2x, freeAt_eq (blockAt_decomp_self p _ L _ hL)] at h3
        exact Bool.false_ne_true h3
      have hpneedAt2 : blockAt (p + need) h2.blocks = some ⟨b.bsize - need, true⟩ := by
        rw [hblocks2x, blockAt_append_cases,
          blockAt_none_of_keys_ne _ L (by
            intro x hx
            have := hkeysL x hx
            omega)]
        show (if p = p + need then _ else if p + need = p + need then _ else _) = _
        rw [if_neg (by omega), if_pos rfl]
      have hlookup : ∀ q, q ≠ p → q ≠ p + need →
          blockAt q h2.blocks = blockAt q h.blocks := by
        intro q hqp hqpn
        rw [hblocks2x, hblocks, blockAt_append_cases q _ L, blockAt_append_cases q _ L]
        cases hql : blockAt q L with
        | some c => rfl
        | none =>
          show (if p = q then _ else if p + need = q then _ else blockAt q R) =
            (if p = q then _ else blockAt q R)
          rw [if_neg (fun he => hqp he.symm), if_neg (fun he => hqpn he.symm),
            if_neg (fun he => hqp he.symm)]
      have hpneedfo2 : p + need ∈ h2.freeOrder := by
        refine hfree2fo2 (p + need, ⟨b.bsize - need, true⟩) ?_ rfl
        rw [hblocks2x]
        exact List.mem_append.mpr (Or.inr (List.mem_cons_of_mem _ (List.mem_cons_self _ _)))
      -- pointwise equality of summands on the erased free list
      have hpointwise : ∀ q ∈ h2.freeOrder.erase (p + need),
          sizeAt h.blocks q - HDR = sizeAt h2.blocks q - HDR := by
        intro q hq
        have hqfo : q ∈ h2.freeOrder := List.mem_of_mem_erase hq
        have hqpn : q ≠ p + need := by
          intro he
          rw [he] at hq
          exact hnodup2.not_mem_erase hq
        rw [sizeAt_congr (hlookup q (hpnotfo2 q hqfo) hqpn)]
      -- freeBytes of h2 decomposed at p + need
      have hfb2dec : freeBytes h2 = (b.bsize - need - HDR) +
          ((h2.freeOrder.erase (p + need)).map (fun q => sizeAt h2.blocks q - HDR)).sum := by
        unfold freeBytes
        rw [((List.perm_cons_erase hpneedfo2).map (fun q => sizeAt h2.blocks q - HDR)).sum_eq]
        rw [List.map_cons, List.sum_cons, sizeAt_eq hpneedAt2]
      -- freeBytes of the post-kmalloc heap decomposed
      have hpneedAt1 : blockAt (p + need)
          (L ++ (p, (⟨need, false⟩ : Block)) :: (p + need, ⟨b.bsize - need, true⟩) :: R) =
          some ⟨b.bsize - need, true⟩ := by
        rw [← hblocks2x]
        exact hpneedAt2
      have hlookup1 : ∀ q, q ≠ p → q ≠ p + need →
          blockAt q (L ++ (p, (⟨need, false⟩ : Block)) :: (p + need, ⟨b.bsize - need, true⟩) :: R) =
          blockAt q h.blocks := by
        intro q hqp hqpn
        rw [← hblocks2x]
        exact hlookup q hqp hqpn
      have hfb1dec : freeBytes ⟨allocAt p need h.blocks,
          [p + need] ++ h.freeOrder.erase p,
          h.heapAllocated + need⟩ = (b.bsize - need - HDR) +
          ((h.freeOrder.erase p).map (fun q => sizeAt h.blocks q - HDR)).sum := by
        unfold freeBytes
        rw [halloc, if_pos hs, List.singleton_append, List.map_cons, List.sum_cons]
        rw [show sizeAt (L ++ (p, (⟨need, false⟩ : Block)) ::
            (p + need, ⟨b.bsize - need, true⟩) :: R) (p + need) = b.bsize - need from
          sizeAt_eq hpneedAt1]
        congr 1
        refine congrArg List.sum (List.map_congr_left ?_)
        intro q hq
        have hqfo : q ∈ h.freeOrder := List.mem_of_mem_erase hq
        have hqp : q ≠ p := by
          intro he
          rw [he] at hq
          exact hnodup.not_mem_erase hq
        have hqpn : q ≠ p + need := by
          intro he
          have h3 := hfo2free q hqfo
          rw [he] at h3
          rw [freeAt_eq_none hnoint] at h3
          exact Bool.false_ne_true h3
        rw [sizeAt_congr (hlookup1 q hqp hqpn)]
      -- freeBytes h decomposed at p
      have hfbh : freeBytes h = (b.bsize - HDR) +
          ((h.freeOrder.erase p).map (fun q => sizeAt h.blocks q - HDR)).sum := by
        unfold freeBytes
        rw [((List.perm_cons_erase hpfo).map (fun q => sizeAt h.blocks q - HDR)).sum_eq]
        rw [List.map_cons, List.sum_cons, sizeAt_eq hb]
      constructor
      · rw [hkf]
      · rw [hkf]
        show ((p :: h2.freeOrder.erase (p + need)).map
          (fun q => sizeAt h.blocks q - HDR)).sum = freeBytes h
        rw [List.map_cons, List.sum_cons, sizeAt_eq hb,
          List.map_congr_left hpointwise, hfbh]
        have hTU : ((h2.freeOrder.erase (p + need)).map
            (fun q => sizeAt h2.blocks q - HDR)).sum =
            ((h.freeOrder.erase p).map (fun q => sizeAt h.blocks q - HDR)).sum := by
          have := hfb2x
          rw [hfb2dec, hfb1dec] at this
          omega
        omega
    · -- no-split case
      rw [halloc, if_neg hs] at hblocks2x
      rw [if_neg hs, if_neg hs] at hfb2x
      have hkf := kfree_nosplit_shape h2 p b.bsize L R hL hRne hlast hheadR hblocks2x
      rw [hbeq, ← hblocks] at hkf
      have hlookup : ∀ q, blockAt q h2.blocks = blockAt q h.blocks ∨
          (q = p ∧ blockAt q h2.blocks = some ⟨b.bsize, false⟩ ∧ blockAt q h.blocks = some b) := by
        intro q
        by_cases hqp : q = p
        · refine Or.inr ⟨hqp, ?_, ?_⟩
          · rw [hqp, hblocks2x]
            exact blockAt_decomp_self p _ L _ hL
          · rw [hqp, hblocks]
            exact blockAt_decomp_self p b L R hL
        · refine Or.inl ?_
          rw [hblocks2x, hblocks, blockAt_append_cases q _ L, blockAt_append_cases q _ L]
          cases hql : blockAt q L with
          | some c => rfl
          | none =>
            show (if p = q then _ else blockAt q R) = (if p = q then _ else blockAt q R)
            rw [if_neg (fun he => hqp he.symm), if_neg (fun he => hqp he.symm)]
      have hszall : ∀ q, sizeAt h2.blocks q = sizeAt h.blocks q := by
        intro q
        cases hlookup q with
        | inl h1 => exact sizeAt_congr h1
        | inr h2x =>
          obtain ⟨_, ha, hc⟩ := h2x
          rw [sizeAt_eq ha, sizeAt_eq hc]
      have hfb1dec : freeBytes ⟨allocAt p need h.blocks,
          [] ++ h.freeOrder.erase p,
          h.heapAllocated + b.bsize⟩ =
          ((h.freeOrder.erase p).map (fun q => sizeAt h.blocks q - HDR)).sum := by
        unfold freeBytes
        rw [List.nil_append]
        refine congrArg List.sum (List.map_congr_left ?_)
        intro q hq
        rw [halloc, if_neg hs]
        have hqp : q ≠ p := by
          intro he
          rw [he] at hq
          exact hnodup.not_mem_erase hq
        have h1 : blockAt q (L ++ (p, (⟨b.bsize, false⟩ : Block)) :: R) =
            blockAt q h.blocks := by
          rw [← hblocks2x]
          cases hlookup q with
          | inl hx => exact hx
          | inr hx => exact absurd hx.1 hqp
        rw [sizeAt_congr h1]
      have hfbh : freeBytes h = (b.bsize - HDR) +
          ((h.freeOrder.erase p).map (fun q => sizeAt h.blocks q - HDR)).sum := by
        unfold freeBytes
        rw [((List.perm_cons_erase hpfo).map (fun q => sizeAt h.blocks q - HDR)).sum_eq]
        rw [List.map_cons, List.sum_cons, sizeAt_eq hb]
      constructor
      · rw [hkf]
      · rw [hkf]
        show ((p :: h2.freeOrder).map (fun q => sizeAt h.blocks q - HDR)).sum = freeBytes h
        rw [List.map_cons, List.sum_cons, sizeAt_eq hb]
        have hmapeq : (h2.freeOrder.map (fun q => sizeAt h.blocks q - HDR)).sum =
            freeBytes h2 := by
          unfold freeBytes
          refine congrArg List.sum (List.map_congr_left ?_)
          intro q _
          rw [hszall q]
        rw [hmapeq, hfb2x, hfb1dec, hfbh]

/-- C6 (amended): for every well-formed heap whose free list is non-empty
at each allocation (so kmalloc never takes the malloc_init re-init path),
any nest of kmalloc/kfree pairs executed in LIFO order that succeeds,
with every request size keeping the size_t need = HDR + ALIGN_UP(size) at
or above the header size (sizes in [2^64-63, 2^64-16], where the need
wraps below it and the split corrupts the heap, are excluded), restores
the heap's block structure exactly and its free-byte count (the
heap_stats sum over free-list blocks of size minus header) to the
pre-allocation value, and preserves heap well-formedness.  The single
round trip of the claim is the one-pair nest. -/
theorem c6_lifo_pairs_restore_heap :
    ∀ (ns : List Nat), (∀ n ∈ ns, HDR ≤ (HDR + align16 n) % 2 ^ 64) →
      ∀ (h : Heap), WFheap h → ∀ {h' : Heap},
      lifoPairs h ns = some h' →
      h'.blocks = h.blocks ∧ freeBytes h' = freeBytes h ∧ WFheap h' := by
  intro ns
  induction ns with
  | nil =>
    intro _ h hWF h' hrun
    have he : h = h' := Option.some.inj hrun
    rw [← he]
    exact ⟨rfl, rfl, hWF⟩
  | cons n ns ih =>
    intro hns h hWF h' hrun
    have hneed : HDR ≤ (HDR + align16 n) % 2 ^ 64 := hns n (List.mem_cons_self _ _)
    have hns' : ∀ m ∈ ns, HDR ≤ (HDR + align16 m) % 2 ^ 64 :=
      fun m hm => hns m (List.mem_cons_of_mem _ hm)
    unfold lifoPairs at hrun
    by_cases hfoE : h.freeOrder.isEmpty = true
    · rw [if_pos hfoE] at hrun
      exact Option.noConfusion hrun
    · rw [if_neg hfoE] at hrun
      have hfoF : h.freeOrder.isEmpty = false := by
        cases hx : h.freeOrder.isEmpty
        · rfl
        · exact absurd hx hfoE
      cases hm : (kmallocM h n).1 with
      | none =>
        rw [hm] at hrun
        exact Option.noConfusion hrun
      | some p =>
        rw [hm] at hrun
        have hrun2 : (match lifoPairs (kmallocM h n).2 ns with
          | some h2 => some (kfreeM h2 p)
          | none => none) = some h' := hrun
        cases hlp : lifoPairs (kmallocM h n).2 ns with
        | none =>
          rw [hlp] at hrun2
          exact Option.noConfusion hrun2
        | some h2 =>
          rw [hlp] at hrun2
          have hh' : kfreeM h2 p = h' := Option.some.inj hrun2
          have hWF1 : WFheap (kmallocM h n).2 := WF_kmalloc h n hWF hneed
          obtain ⟨hbl, hfb, hWF2⟩ := ih hns' (kmallocM h n).2 hWF1 hlp
          obtain ⟨hbl2, hfb2⟩ := kmalloc_pair h n hWF hneed hfoF hm h2 hWF2 hbl hfb
          rw [← hh']
          exact ⟨hbl2, hfb2, WF_kfree h2 p hWF2⟩

theorem c6_witness :
    ((∀ n ∈ [16, 32], HDR ≤ (HDR + align16 n) % 2 ^ 64) ∧
      WFheap initHeap ∧ lifoPairs initHeap [16, 32] = some initHeap) ∧
    (initHeap.blocks = initHeap.blocks ∧ freeBytes initHeap = freeBytes initHeap ∧
      WFheap initHeap) := by
  have h0 : ∀ n ∈ [16, 32], HDR ≤ (HDR + align16 n) % 2 ^ 64 := by decide
  have h1 : WFheap initHeap := WF_initHeap
  have h2 : lifoPairs initHeap [16, 32] = some initHeap := by decide
  exact ⟨⟨h0, h1, h2⟩, c6_lifo_pairs_restore_heap [16, 32] h0 initHeap h1 h2⟩

end Phoenix
